import Mathlib

/-! Project library entries: binary persistence of the File / Directory tree.

Embedding of `Source/EditorCore/Private/RTTI/BsProjectLibraryEntriesRTTI.h`:
the `RTTIPlainType` specialisations for `ProjectLibrary::FileEntry` and
`ProjectLibrary::DirectoryEntry` (`toMemory`, `fromMemory`, `getDynamicSize`) and
`ProjectLibraryEntriesRTTI::setRootElement`.

Machine integers are natural numbers reduced modulo `2^32` / `2^64` where the
source computes in `uint32_t` / `uint64_t`.  Pointers are addresses (`Nat`); an
owning pointer is the pair of an address and the object it points to.
-/

set_option maxRecDepth 100000

namespace bs

/-! ## Bytes, errors, the stream -/

/-- One octet of the stream. -/
abbrev Byte := Fin 256

/-- In-memory narrow string (`bs::String`): its UTF-8 code units. -/
abbrev String8 := List Byte

/-- In-memory wide string (`bs::WString`): its wide code units. -/
abbrev WString := List Nat

/-- Modelled from the spec: a File "carries a path"; the `Path` class is declared
outside the sources at hand and is only ever handed to its own codec, so it is
carried here as its textual form. -/
abbrev Path := List Byte

/-- Largest value of a `uint32_t`. -/
def UINT32_MAX : Nat := 4294967295

/-- Fatal conditions. `bounds`: cursor moved or read past the end of the buffer;
`dataOverflow`: `__string_throwDataOverflowException`; `sizeOverflow`: a framed
record larger than its 32-bit header; `invalidCast`: a `static_cast` to a class the
object is not an instance of (undefined behaviour in the source);
`outOfFuel`: the recursion bound of the decoder was reached. -/
inductive Err where
  | bounds
  | dataOverflow
  | sizeOverflow
  | invalidCast
  | outOfFuel
  deriving DecidableEq, Repr

instance instDecidableEqExcept {ε α : Type} [DecidableEq ε] [DecidableEq α] :
    DecidableEq (Except ε α) := fun a b =>
  match a, b with
  | .ok x, .ok y =>
    if h : x = y then isTrue (by rw [h]) else isFalse (fun e => h (by cases e; rfl))
  | .error x, .error y =>
    if h : x = y then isTrue (by rw [h]) else isFalse (fun e => h (by cases e; rfl))
  | .ok _, .error _ => isFalse (fun e => by cases e)
  | .error _, .ok _ => isFalse (fun e => by cases e)

/-- Modelled from the spec: the Binary Cursor (`Bitstream`), "an ordered byte
sequence plus a read/write offset"; the class itself is not in the sources. -/
structure Bitstream where
  data : List Byte
  cursor : Nat
  deriving DecidableEq, Repr

namespace Bitstream

/-- Modelled from the spec: `tell() -> offset`. -/
def tell (s : Bitstream) : Nat := s.cursor

/-- Modelled from the spec: `seek(offset)`; "seek to an out-of-range offset fails". -/
def seek (s : Bitstream) (pos : Nat) : Except Err Bitstream :=
  if pos ≤ s.data.length then .ok { s with cursor := pos } else .error .bounds

/-- Modelled from the spec: `skip(n)`; "skip past the end fails with a bounds error". -/
def skipBytes (s : Bitstream) (n : Nat) : Except Err Bitstream :=
  if s.cursor + n ≤ s.data.length then .ok { s with cursor := s.cursor + n }
  else .error .bounds

/-- Modelled from the spec: `writeBytes`; writes at the cursor, replacing what is
there and appending beyond the end ("does resize (append) on write"). -/
def writeBytes (s : Bitstream) (bytes : List Byte) : Bitstream :=
  { data := s.data.take s.cursor ++ bytes ++ s.data.drop (s.cursor + bytes.length)
    cursor := s.cursor + bytes.length }

/-- Modelled from the spec: a sequential read. The decoder `dec` looks at the bytes
from the cursor on and reports the value and how many bytes it took; reading past the
end of the buffer is a bounds error. -/
def readWith {α : Type} (dec : List Byte → Option (α × Nat)) (s : Bitstream) :
    Except Err (α × Bitstream) :=
  match dec (s.data.drop s.cursor) with
  | some (a, n) =>
    if s.cursor + n ≤ s.data.length then .ok (a, { s with cursor := s.cursor + n })
    else .error .bounds
  | none => .error .bounds

end Bitstream

/-! ## Fixed-width primitives -/

/-- The four bytes of a `uint32_t`, least significant first. -/
def u32Bytes (n : Nat) : List Byte :=
  [⟨n % 256, Nat.mod_lt _ (by decide)⟩, ⟨n / 256 % 256, Nat.mod_lt _ (by decide)⟩,
   ⟨n / 65536 % 256, Nat.mod_lt _ (by decide)⟩,
   ⟨n / 16777216 % 256, Nat.mod_lt _ (by decide)⟩]

/-- Decoder of a `uint32_t` from the head of a byte sequence. -/
def decU32 : List Byte → Option (Nat × Nat)
  | b0 :: b1 :: b2 :: b3 :: _ =>
    some (b0.val + 256 * b1.val + 65536 * b2.val + 16777216 * b3.val, 4)
  | _ => none

/-- The call `rtti_write(v, stream)` of a plain value whose encoding is `bytes`: the
bytes go to the stream and their count comes back as a `uint32_t`. -/
def rtti_write_bytes (bytes : List Byte) (stream : Bitstream) : Nat × Bitstream :=
  (bytes.length % 4294967296, stream.writeBytes bytes)

/-- The call `rtti_size(v)` of a plain value whose encoding is `bytes`. -/
def rtti_size_bytes (bytes : List Byte) : Nat := bytes.length % 4294967296

/-- The call `rtti_write(v, stream)` for a `uint32_t` (or a 32-bit enum). -/
def rtti_write_u32 (v : Nat) (stream : Bitstream) : Nat × Bitstream :=
  rtti_write_bytes (u32Bytes v) stream

/-- The call `rtti_read(v, stream)` for a `uint32_t` (or a 32-bit enum). -/
def rtti_read_u32 (stream : Bitstream) : Except Err (Nat × Bitstream) :=
  stream.readWith decU32

/-- Modelled from the spec: `rtti_write_with_size_header` (declared in
`Reflection/BsRTTIPlain.h`, not in the sources). It reserves a 32-bit placeholder,
runs the payload writer `t`, overwrites the placeholder with "the total number of
bytes written for payload plus the 4-byte header itself", "by seeking back to the
placeholder offset, writing the true value, then seeking forward past the payload";
"if the computed size of any record would exceed the 32-bit header's range, encoding
fails fatally" and "must never silently truncate". The bytes written are counted on
the cursor; the sum the payload writer returns plays no part. -/
def rtti_write_with_size_header (stream : Bitstream)
    (t : Bitstream → Except Err (Nat × Bitstream)) : Except Err (Nat × Bitstream) :=
  let sizePos := stream.tell
  let stream := stream.writeBytes (u32Bytes 0)
  match t stream with
  | .error e => .error e
  | .ok (_, stream) =>
    let endPos := stream.tell
    let size := endPos - sizePos
    if size > UINT32_MAX then .error .sizeOverflow
    else
      match stream.seek sizePos with
      | .error e => .error e
      | .ok stream =>
        let stream := stream.writeBytes (u32Bytes size)
        match stream.seek endPos with
        | .error e => .error e
        | .ok stream => .ok (size, stream)

/-! ## External collaborators -/

/-- The codecs and string helpers the header uses but does not define:
`RTTIPlainType<Path>` (`RTTI/BsPathRTTI.h`), `RTTIPlainType<WString>` and
`RTTIPlainType<std::time_t>` (`Reflection/BsRTTIPlain.h`), `UTF8::toWide`,
`UTF8::fromWide`, `UTF8::toLower` (`String/BsUnicode.h`) and `bs_hash`.
For each plain type, `…Bytes v` is what `rtti_write(v, stream)` puts on the stream
and `…Read` is the decoder run by `rtti_read`. -/
structure Env where
  pathBytes : Path → List Byte
  pathRead : List Byte → Option (Path × Nat)
  wstringBytes : WString → List Byte
  wstringRead : List Byte → Option (WString × Nat)
  timeBytes : Int → List Byte
  timeRead : List Byte → Option (Int × Nat)
  toWide : String8 → WString
  fromWide : WString → String8
  toLower : String8 → String8
  bs_hash : String8 → Nat

/-! ## Data model -/

/-- Modelled from the spec: the tag of the File variant; the enumeration
`ProjectLibrary::LibraryEntryType { File, Directory }` is declared outside the
sources, its enumerators number from zero in declaration order. -/
def LibraryEntryType.File : Nat := 0

/-- Modelled from the spec: the tag of the Directory variant. -/
def LibraryEntryType.Directory : Nat := 1

/-- Fields of `ProjectLibrary::LibraryEntry`, the base of both node kinds. `type` is
the enum's 32-bit underlying value, `parent` the address held by the raw
`DirectoryEntry*` (`none` for `nullptr`). -/
structure LibraryEntry where
  type : Nat
  path : Path
  elementName : String8
  elementNameHash : Nat
  parent : Option Nat
  deriving DecidableEq, Repr

/-- Fields of `ProjectLibrary::FileEntry`. -/
structure FileEntry extends LibraryEntry where
  lastUpdateTime : Int
  deriving DecidableEq, Repr

/-- What a `USPtr<LibraryEntry>` in `mChildren` holds: the address of the heap
object and the object itself, a `FileEntry` or a `DirectoryEntry`. -/
inductive Node where
  | file (addr : Nat) (entry : FileEntry)
  | dir (addr : Nat) (entry : LibraryEntry) (mChildren : List Node)
  deriving Repr

/-- Fields of `ProjectLibrary::DirectoryEntry`. -/
structure DirectoryEntry extends LibraryEntry where
  mChildren : List Node
  deriving Repr

/-- Modelled from the spec: the default-constructed `LibraryEntry` ("an empty,
default-constructed instance"); the constructor is defined outside the sources. -/
def LibraryEntry.empty : LibraryEntry :=
  { type := LibraryEntryType.Directory, path := [], elementName := [],
    elementNameHash := 0, parent := none }

/-- Modelled from the spec: the default-constructed `FileEntry`. -/
def FileEntry.empty : FileEntry :=
  { toLibraryEntry := LibraryEntry.empty, lastUpdateTime := 0 }

/-- Modelled from the spec: the default-constructed `DirectoryEntry`, without
children. -/
def DirectoryEntry.empty : DirectoryEntry :=
  { toLibraryEntry := LibraryEntry.empty, mChildren := [] }

/-- The `LibraryEntry` base of a child. -/
def Node.base : Node → LibraryEntry
  | .file _ f => f.toLibraryEntry
  | .dir _ e _ => e

/-- The address a child pointer holds. -/
def Node.addr : Node → Nat
  | .file a _ => a
  | .dir a _ _ => a

/-- The aggregate `ProjectLibraryEntries`: it owns the root through `mRootEntry`. -/
structure ProjectLibraryEntries where
  mRootEntry : Option (Nat × DirectoryEntry)

/-! ## `RTTIPlainType<ProjectLibrary::FileEntry>` -/

/-- The lambda of `FileEntry::toMemory`: writes tag, path, wide name and timestamp
and returns their sizes summed in a `uint32_t`. -/
def FileEntry.writePayload (env : Env) (data : FileEntry) (stream : Bitstream) :
    Except Err (Nat × Bitstream) :=
  let size := 0
  let elemName := env.toWide data.elementName
  let type := data.type % 4294967296
  let (n, stream) := rtti_write_u32 type stream
  let size := (size + n) % 4294967296
  let (n, stream) := rtti_write_bytes (env.pathBytes data.path) stream
  let size := (size + n) % 4294967296
  let (n, stream) := rtti_write_bytes (env.wstringBytes elemName) stream
  let size := (size + n) % 4294967296
  let (n, stream) := rtti_write_bytes (env.timeBytes data.lastUpdateTime) stream
  let size := (size + n) % 4294967296
  .ok (size, stream)

/-- Embeds `RTTIPlainType<FileEntry>::toMemory`: returns the size and the stream. -/
def FileEntry.toMemory (env : Env) (data : FileEntry) (stream : Bitstream) :
    Except Err (Nat × Bitstream) :=
  rtti_write_with_size_header stream (FileEntry.writePayload env data)

/-- Embeds `RTTIPlainType<FileEntry>::fromMemory`: returns the size read from the header,
the filled entry and the stream. -/
def FileEntry.fromMemory (env : Env) (data : FileEntry) (stream : Bitstream) :
    Except Err (Nat × FileEntry × Bitstream) :=
  match rtti_read_u32 stream with
  | .error e => .error e
  | .ok (size, stream) =>
    match rtti_read_u32 stream with
    | .error e => .error e
    | .ok (type, stream) =>
      let data := { data with type := type }
      match stream.readWith env.pathRead with
      | .error e => .error e
      | .ok (path, stream) =>
        let data := { data with path := path }
        match stream.readWith env.wstringRead with
        | .error e => .error e
        | .ok (elemName, stream) =>
          let data := { data with elementName := env.fromWide elemName }
          let data :=
            { data with elementNameHash := env.bs_hash (env.toLower data.elementName) }
          match stream.readWith env.timeRead with
          | .error e => .error e
          | .ok (time, stream) =>
            let data := { data with lastUpdateTime := time }
            .ok (size, data, stream)

/-- Embeds `RTTIPlainType<FileEntry>::getDynamicSize`; `debug` is `BS_DEBUG_MODE`. -/
def FileEntry.getDynamicSize (env : Env) (debug : Bool) (data : FileEntry) :
    Except Err Nat :=
  let elemName := env.toWide data.elementName
  let dataSize := (4 + 4 + rtti_size_bytes (env.pathBytes data.path)
    + rtti_size_bytes (env.wstringBytes elemName)
    + rtti_size_bytes (env.timeBytes data.lastUpdateTime)) % 18446744073709551616
  if debug && decide (dataSize > UINT32_MAX) then .error .dataOverflow
  else .ok (dataSize % 4294967296)

/-! ## `RTTIPlainType<ProjectLibrary::DirectoryEntry>` -/

/-- The lambda of `DirectoryEntry::toMemory` up to the loop: tag, path, wide name
and child count; `writeKids` is the loop over `mChildren`, entered with the size
accumulated so far. -/
def DirectoryEntry.writePayload (env : Env) (data : LibraryEntry) (count : Nat)
    (writeKids : Nat → Bitstream → Except Err (Nat × Bitstream)) (stream : Bitstream) :
    Except Err (Nat × Bitstream) :=
  let size := 0
  let elemName := env.toWide data.elementName
  let (n, stream) := rtti_write_u32 data.type stream
  let size := (size + n) % 4294967296
  let (n, stream) := rtti_write_bytes (env.pathBytes data.path) stream
  let size := (size + n) % 4294967296
  let (n, stream) := rtti_write_bytes (env.wstringBytes elemName) stream
  let size := (size + n) % 4294967296
  let numChildren := count % 4294967296
  let (n, stream) := rtti_write_u32 numChildren stream
  let size := (size + n) % 4294967296
  writeKids size stream

mutual
/-- The call `rtti_write(*child, stream)` on a child after the `static_cast`: the
`toMemory` of its class. -/
def Node.toMemory (env : Env) : Node → Bitstream → Except Err (Nat × Bitstream)
  | .file _ f, stream => FileEntry.toMemory env f stream
  | .dir _ e ch, stream =>
    rtti_write_with_size_header stream
      (DirectoryEntry.writePayload env e ch.length
        (fun size stream => writeChildren env ch size stream))
/-- The loop `for(auto& child : data.mChildren)` of `DirectoryEntry::toMemory`: the
child's `type` field selects the cast; a tag that is neither File nor Directory
writes nothing. -/
def writeChildren (env : Env) : List Node → Nat → Bitstream → Except Err (Nat × Bitstream)
  | [], size, stream => .ok (size, stream)
  | child :: rest, size, stream =>
    if child.base.type = LibraryEntryType.File then
      match child with
      | .file _ _ =>
        match Node.toMemory env child stream with
        | .error e => .error e
        | .ok (n, stream) => writeChildren env rest ((size + n) % 4294967296) stream
      | .dir _ _ _ => .error .invalidCast
    else if child.base.type = LibraryEntryType.Directory then
      match child with
      | .dir _ _ _ =>
        match Node.toMemory env child stream with
        | .error e => .error e
        | .ok (n, stream) => writeChildren env rest ((size + n) % 4294967296) stream
      | .file _ _ => .error .invalidCast
    else writeChildren env rest size stream
end

/-- Embeds `RTTIPlainType<DirectoryEntry>::toMemory`. -/
def DirectoryEntry.toMemory (env : Env) (data : DirectoryEntry) (stream : Bitstream) :
    Except Err (Nat × Bitstream) :=
  rtti_write_with_size_header stream
    (DirectoryEntry.writePayload env data.toLibraryEntry data.mChildren.length
      (fun size stream => writeChildren env data.mChildren size stream))

mutual
/-- The call `rtti_size(*child)` on a child after the `static_cast`: the
`getDynamicSize` of its class. -/
def Node.getDynamicSize (env : Env) (debug : Bool) : Node → Except Err Nat
  | .file _ f => FileEntry.getDynamicSize env debug f
  | .dir _ e ch =>
    let elemName := env.toWide e.elementName
    let dataSize := (4 + 4 + rtti_size_bytes (env.pathBytes e.path)
      + rtti_size_bytes (env.wstringBytes elemName)) % 18446744073709551616
    let dataSize := (dataSize + 4) % 18446744073709551616
    match sizeChildren env debug ch dataSize with
    | .error err => .error err
    | .ok dataSize =>
      if debug && decide (dataSize > UINT32_MAX) then .error .dataOverflow
      else .ok (dataSize % 4294967296)
/-- The loop `for(auto& child : data.mChildren)` of
`DirectoryEntry::getDynamicSize`, accumulating in a `uint64_t`. -/
def sizeChildren (env : Env) (debug : Bool) : List Node → Nat → Except Err Nat
  | [], dataSize => .ok dataSize
  | child :: rest, dataSize =>
    if child.base.type = LibraryEntryType.File then
      match child with
      | .file _ _ =>
        match Node.getDynamicSize env debug child with
        | .error e => .error e
        | .ok n => sizeChildren env debug rest ((dataSize + n) % 18446744073709551616)
      | .dir _ _ _ => .error .invalidCast
    else if child.base.type = LibraryEntryType.Directory then
      match child with
      | .dir _ _ _ =>
        match Node.getDynamicSize env debug child with
        | .error e => .error e
        | .ok n => sizeChildren env debug rest ((dataSize + n) % 18446744073709551616)
      | .file _ _ => .error .invalidCast
    else sizeChildren env debug rest dataSize
end

/-- Embeds `RTTIPlainType<DirectoryEntry>::getDynamicSize`; `debug` is `BS_DEBUG_MODE`. -/
def DirectoryEntry.getDynamicSize (env : Env) (debug : Bool) (data : DirectoryEntry) :
    Except Err Nat :=
  Node.getDynamicSize env debug (.dir 0 data.toLibraryEntry data.mChildren)

/-- The peek of `DirectoryEntry::fromMemory`: remember the offset, skip the size
header, read the tag, seek back. Returns the tag and the stream. `prevLoc` is a
`uint32_t`: it holds the offset `tell()` gives modulo `2^32`. -/
def peekChildType (stream : Bitstream) : Except Err (Nat × Bitstream) :=
  let prevLoc := stream.tell % 4294967296
  match stream.skipBytes 4 with
  | .error e => .error e
  | .ok stream =>
    match rtti_read_u32 stream with
    | .error e => .error e
    | .ok (childType, stream) =>
      match stream.seek prevLoc with
      | .error e => .error e
      | .ok stream => .ok (childType, stream)

/-- The loop `for (UINT32 i = 0; i < numChildren; i++)` of
`DirectoryEntry::fromMemory`. `self` is `&data`, `next` the next address
`bs_ushared_ptr_new` hands out, `readDir` the `rtti_read` of a `DirectoryEntry`. -/
def readChildren (env : Env)
    (readDir : Nat → DirectoryEntry → Nat → Bitstream →
      Except Err (Nat × DirectoryEntry × Nat × Bitstream))
    (self : Nat) : Nat → DirectoryEntry → Nat → Bitstream →
      Except Err (DirectoryEntry × Nat × Bitstream)
  | 0, data, next, stream => .ok (data, next, stream)
  | n + 1, data, next, stream =>
    match peekChildType stream with
    | .error e => .error e
    | .ok (childType, stream) =>
      if childType = LibraryEntryType.File then
        let addr := next
        match FileEntry.fromMemory env FileEntry.empty stream with
        | .error e => .error e
        | .ok (_, childResEntry, stream) =>
          let childResEntry := { childResEntry with parent := some self }
          let data := { data with mChildren := data.mChildren ++ [Node.file addr childResEntry] }
          readChildren env readDir self n data (next + 1) stream
      else if childType = LibraryEntryType.Directory then
        let addr := next
        match readDir addr DirectoryEntry.empty (next + 1) stream with
        | .error e => .error e
        | .ok (_, childDirEntry, next, stream) =>
          let childDirEntry := { childDirEntry with parent := some self }
          let data := { data with mChildren := data.mChildren ++
            [Node.dir addr childDirEntry.toLibraryEntry childDirEntry.mChildren] }
          readChildren env readDir self n data next stream
      else readChildren env readDir self n data next stream

/-- Embeds `RTTIPlainType<DirectoryEntry>::fromMemory` with a bound on the nesting of
directories. `self` is the address of `data`. Returns the size read from the header,
the filled entry, the allocator and the stream. -/
def DirectoryEntry.fromMemoryAux (env : Env) : Nat → Nat → DirectoryEntry → Nat → Bitstream →
    Except Err (Nat × DirectoryEntry × Nat × Bitstream)
  | 0, _, _, _, _ => .error .outOfFuel
  | fuel + 1, self, data, next, stream =>
    match rtti_read_u32 stream with
    | .error e => .error e
    | .ok (size, stream) =>
      match rtti_read_u32 stream with
      | .error e => .error e
      | .ok (type, stream) =>
        let data := { data with type := type }
        match stream.readWith env.pathRead with
        | .error e => .error e
        | .ok (path, stream) =>
          let data := { data with path := path }
          match stream.readWith env.wstringRead with
          | .error e => .error e
          | .ok (elemName, stream) =>
            let data := { data with elementName := env.fromWide elemName }
            let data :=
              { data with elementNameHash := env.bs_hash (env.toLower data.elementName) }
            match rtti_read_u32 stream with
            | .error e => .error e
            | .ok (numChildren, stream) =>
              match readChildren env (DirectoryEntry.fromMemoryAux env fuel) self
                  numChildren data next stream with
              | .error e => .error e
              | .ok (data, next, stream) => .ok (size, data, next, stream)

/-- Embeds `RTTIPlainType<DirectoryEntry>::fromMemory` with the bytes left in the
stream, plus one, as the bound on the nesting: every nested directory record starts
with a size header of its own, so the bound is not reached as long as the peek's
`uint32_t` holds every offset, as it does on a stream of at most `2^32` bytes. -/
def DirectoryEntry.fromMemory (env : Env) (self : Nat) (data : DirectoryEntry) (next : Nat)
    (stream : Bitstream) : Except Err (Nat × DirectoryEntry × Nat × Bitstream) :=
  DirectoryEntry.fromMemoryAux env (stream.data.length - stream.cursor + 1) self data next stream

/-! ## `ProjectLibraryEntriesRTTI` -/

/-- The assignment `child->parent = p` through a child pointer. -/
def Node.setParent (p : Option Nat) : Node → Node
  | .file a f => .file a { f with parent := p }
  | .dir a e ch => .dir a { e with parent := p } ch

/-- Embeds `ProjectLibraryEntriesRTTI::setRootElement`: the root is copied into a new heap
object at address `next`, then every direct child is pointed at it. -/
def setRootElement (_obj : ProjectLibraryEntries) (val : DirectoryEntry) (next : Nat) :
    ProjectLibraryEntries × Nat :=
  let addr := next
  let root : DirectoryEntry := val
  let root := { root with mChildren := root.mChildren.map (Node.setParent (some addr)) }
  ({ mRootEntry := some (addr, root) }, next + 1)

/-! ## A reference instantiation of the external collaborators -/

/-- Little-endian bytes of the low `k` octets of `n`. -/
def leBytes : Nat → Nat → List Byte
  | 0, _ => []
  | k + 1, n => ⟨n % 256, Nat.mod_lt _ (by decide)⟩ :: leBytes k (n / 256)

/-- Value of a little-endian byte sequence. -/
def leValue : List Byte → Nat
  | [] => 0
  | b :: bs => b.val + 256 * leValue bs

/-- Two bytes per wide code unit, least significant first. -/
def wideUnitBytes : WString → List Byte
  | [] => []
  | c :: cs => ⟨c % 256, Nat.mod_lt _ (by decide)⟩ ::
      ⟨c / 256 % 256, Nat.mod_lt _ (by decide)⟩ :: wideUnitBytes cs

/-- Wide code units from pairs of bytes. -/
def wideUnits : List Byte → WString
  | b0 :: b1 :: bs => (b0.val + 256 * b1.val) :: wideUnits bs
  | _ => []

/-- A framed byte string: 32-bit total size, then the bytes. -/
def framedBytes (payload : List Byte) : List Byte :=
  u32Bytes (payload.length + 4) ++ payload

/-- Decoder of a framed byte string. -/
def framedRead (bytes : List Byte) : Option (List Byte × Nat) :=
  match decU32 bytes with
  | some (n, _) =>
    if 4 ≤ n ∧ n ≤ bytes.length then some ((bytes.drop 4).take (n - 4), n) else none
  | none => none

/-- Reference collaborators: paths and wide strings are framed records, timestamps
are eight bytes in two's complement, a narrow string widens code unit by code unit,
lower-casing acts on the ASCII capitals, and the hash is a polynomial over the
bytes. -/
def env0 : Env where
  pathBytes := framedBytes
  pathRead := framedRead
  wstringBytes := fun w => framedBytes (wideUnitBytes w)
  wstringRead := fun bytes =>
    match framedRead bytes with
    | some (payload, n) => some (wideUnits payload, n)
    | none => none
  timeBytes := fun t => leBytes 8 (t % 18446744073709551616).toNat
  timeRead := fun bytes =>
    if 8 ≤ bytes.length then
      let v := leValue (bytes.take 8)
      some (if v < 9223372036854775808 then (v : Int) else (v : Int) - 18446744073709551616, 8)
    else none
  toWide := fun s => s.map (fun b => b.val)
  fromWide := fun w => w.map (fun c => ⟨c % 256, Nat.mod_lt _ (by decide)⟩)
  toLower := fun s => s.map (fun b => if 65 ≤ b.val ∧ b.val ≤ 90 then b + 32 else b)
  bs_hash := fun s => s.foldl (fun h b => (h * 31 + b.val) % 18446744073709551616) 7

/-! ## Layout, persisted content and well-formedness -/

/-- A stream whose cursor stands at the end of its data (a stream being appended to). -/
def Bitstream.atEnd (l : List Byte) : Bitstream := ⟨l, l.length⟩

/-- A stream holding `pre ++ rest` with the cursor between the two. -/
def Bitstream.split (pre rest : List Byte) : Bitstream := ⟨pre ++ rest, pre.length⟩

/-- Fields of a file record after its size header: tag, path, wide name, timestamp. -/
def FileEntry.payloadBytes (env : Env) (f : FileEntry) : List Byte :=
  u32Bytes f.type ++ (env.pathBytes f.path ++
    (env.wstringBytes (env.toWide f.elementName) ++ env.timeBytes f.lastUpdateTime))

/-- Fields of a directory record between its size header and its children: tag, path,
wide name, child count. -/
def LibraryEntry.fieldBytes (env : Env) (e : LibraryEntry) (count : Nat) : List Byte :=
  u32Bytes e.type ++ (env.pathBytes e.path ++
    (env.wstringBytes (env.toWide e.elementName) ++ u32Bytes count))

mutual
/-- Everything of a record after its size header. -/
def Node.payloadBytes (env : Env) : Node → List Byte
  | .file _ f => FileEntry.payloadBytes env f
  | .dir _ e ch => LibraryEntry.fieldBytes env e ch.length ++ childrenBytes env ch
/-- The records of a sequence of children, one after the other. -/
def childrenBytes (env : Env) : List Node → List Byte
  | [] => []
  | c :: cs =>
    (u32Bytes ((Node.payloadBytes env c).length + 4) ++ Node.payloadBytes env c)
      ++ childrenBytes env cs
end

/-- A whole record: the size header, counting itself, then the payload. -/
def Node.recordBytes (env : Env) (n : Node) : List Byte :=
  u32Bytes ((n.payloadBytes env).length + 4) ++ n.payloadBytes env

/-- A directory as the node it is when some directory owns it. -/
def DirectoryEntry.toNode (addr : Nat) (d : DirectoryEntry) : Node :=
  .dir addr d.toLibraryEntry d.mChildren

/-- The bytes `toMemory` of the node's class puts on an empty stream. -/
def Node.encode (env : Env) (n : Node) : List Byte :=
  match Node.toMemory env n ⟨[], 0⟩ with
  | .ok (_, stream) => stream.data
  | .error _ => []

/-- The persisted content of a tree: everything but addresses, back-references and
name hashes. -/
inductive Persisted where
  | file (type : Nat) (path : Path) (elementName : String8) (lastUpdateTime : Int)
  | dir (type : Nat) (path : Path) (elementName : String8) (children : List Persisted)

mutual
/-- Persisted content of a node. -/
def Node.persisted : Node → Persisted
  | .file _ f => .file f.type f.path f.elementName f.lastUpdateTime
  | .dir _ e ch => .dir e.type e.path e.elementName (persistedChildren ch)
/-- Persisted content of a sequence of children, in order. -/
def persistedChildren : List Node → List Persisted
  | [] => []
  | c :: cs => Node.persisted c :: persistedChildren cs
end

/-- Persisted content of a file entry. -/
def FileEntry.persisted (f : FileEntry) : Persisted :=
  .file f.type f.path f.elementName f.lastUpdateTime

/-- Persisted content of a directory entry. -/
def DirectoryEntry.persisted (d : DirectoryEntry) : Persisted :=
  .dir d.type d.path d.elementName (persistedChildren d.mChildren)

mutual
/-- The property `P` holds of a node and of every node below it. -/
def Node.Forall (P : Node → Prop) : Node → Prop
  | .file a f => P (.file a f)
  | .dir a e ch => P (.dir a e ch) ∧ ChildrenForall P ch
/-- The property `P` holds of every node of a forest. -/
def ChildrenForall (P : Node → Prop) : List Node → Prop
  | [] => True
  | c :: cs => Node.Forall P c ∧ ChildrenForall P cs
end

/-- The `type` field of a child names the class of the object: File for a
`FileEntry`, Directory for a `DirectoryEntry`. -/
def Node.TagMatches : Node → Prop
  | .file _ f => f.type = LibraryEntryType.File
  | .dir _ e _ => e.type = LibraryEntryType.Directory

/-- A plain value survives its codec: the decoder, run on the value's bytes followed
by anything, gives the value back and takes exactly those bytes. -/
def RoundTrips {α : Type} (bytes : α → List Byte) (read : List Byte → Option (α × Nat))
    (a : α) : Prop :=
  ∀ rest, read (bytes a ++ rest) = some (a, (bytes a).length)

/-- The identity fields of an entry survive the external codecs: the path its codec,
the widened name the wide-string codec, and the name the conversion to wide
characters and back (as a valid UTF-8 string does). -/
def LibraryEntry.FieldsRoundTrip (env : Env) (e : LibraryEntry) : Prop :=
  RoundTrips env.pathBytes env.pathRead e.path ∧
  RoundTrips env.wstringBytes env.wstringRead (env.toWide e.elementName) ∧
  env.fromWide (env.toWide e.elementName) = e.elementName

/-- The fields of a node survive the external codecs. -/
def Node.FieldsRoundTrip (env : Env) : Node → Prop
  | .file _ f => f.toLibraryEntry.FieldsRoundTrip env ∧
      RoundTrips env.timeBytes env.timeRead f.lastUpdateTime
  | .dir _ e _ => e.FieldsRoundTrip env

mutual
/-- The record size as the source computes it, not truncated: header, tag, the
`rtti_size` of path and wide name, then timestamp, or child count and children. -/
def Node.computedSize (env : Env) : Node → Nat
  | .file _ f => 4 + 4 + rtti_size_bytes (env.pathBytes f.path)
      + rtti_size_bytes (env.wstringBytes (env.toWide f.elementName))
      + rtti_size_bytes (env.timeBytes f.lastUpdateTime)
  | .dir _ e ch => 4 + 4 + rtti_size_bytes (env.pathBytes e.path)
      + rtti_size_bytes (env.wstringBytes (env.toWide e.elementName)) + 4
      + childrenComputedSize env ch
/-- Sum of the computed sizes of a sequence of children. -/
def childrenComputedSize (env : Env) : List Node → Nat
  | [] => 0
  | c :: cs => Node.computedSize env c + childrenComputedSize env cs
end

/-- The number of bytes of a whole record, header included. -/
def Node.recordSize (env : Env) (n : Node) : Nat := (n.recordBytes env).length

/-! ## Decoding: results and invariants -/

/-- The base fields `fromMemory` leaves in an entry decoded from the record of `e`:
the persisted fields of `e`, the hash recomputed from the name, and the
back-reference `parent` untouched by the fields' decoding. -/
def LibraryEntry.decoded (env : Env) (e : LibraryEntry) (parent : Option Nat) : LibraryEntry :=
  { type := e.type, path := e.path, elementName := e.elementName,
    elementNameHash := env.bs_hash (env.toLower e.elementName), parent := parent }

/-- The file entry `fromMemory` leaves when decoding the record of `f`. -/
def FileEntry.decoded (env : Env) (f : FileEntry) (parent : Option Nat) : FileEntry :=
  { toLibraryEntry := f.toLibraryEntry.decoded env parent, lastUpdateTime := f.lastUpdateTime }

/-- What the recursive call of the loop has to deliver on the record of a directory
child that ends within the first `2^32` bytes of the stream: the header value, an
entry with the child's persisted fields and with children of the same persisted
content appended, and the cursor behind the record. -/
def DecodesDir (env : Env)
    (readDir : Nat → DirectoryEntry → Nat → Bitstream →
      Except Err (Nat × DirectoryEntry × Nat × Bitstream))
    (e : LibraryEntry) (k : List Node) : Prop :=
  ∀ (addr : Nat) (data : DirectoryEntry) (next : Nat) (pre rest : List Byte) (h : Nat),
    h < 4294967296 →
    pre.length + (4 + (Node.payloadBytes env (.dir 0 e k)).length) ≤ 4294967296 →
    ∃ k' next', readDir addr data next
        (Bitstream.split pre (u32Bytes h ++ (Node.payloadBytes env (.dir 0 e k) ++ rest)))
      = .ok (h, { toLibraryEntry := e.decoded env data.parent,
                  mChildren := data.mChildren ++ k' }, next',
          Bitstream.split (pre ++ (u32Bytes h ++ Node.payloadBytes env (.dir 0 e k))) rest) ∧
      persistedChildren k' = persistedChildren k

mutual
/-- Every node below this one points back at the directory that holds it. -/
def Node.ParentsOk : Node → Prop
  | .file _ _ => True
  | .dir a _ ch => ChildrenParentsOk a ch
/-- Every node of the forest owned by the directory at address `owner` points back at
it, and so on below. -/
def ChildrenParentsOk (owner : Nat) : List Node → Prop
  | [] => True
  | c :: cs => Node.parentIs owner c ∧ Node.ParentsOk c ∧ ChildrenParentsOk owner cs
/-- The back-reference of a child holds the address `owner`. -/
def Node.parentIs (owner : Nat) : Node → Prop
  | .file _ f => f.parent = some owner
  | .dir _ e _ => e.parent = some owner
end

/-- The cached hash of a node is the hash of its lower-cased name. -/
def Node.HashFresh (env : Env) (n : Node) : Prop :=
  n.base.elementNameHash = env.bs_hash (env.toLower n.base.elementName)

/-- The child count `DirectoryEntry::fromMemory` reads from a stream: the `uint32_t`
that follows the size header, the tag, the path and the wide name. -/
def DirectoryEntry.readCount (env : Env) (stream : Bitstream) : Except Err Nat :=
  match rtti_read_u32 stream with
  | .error e => .error e
  | .ok (_, stream) =>
    match rtti_read_u32 stream with
    | .error e => .error e
    | .ok (_, stream) =>
      match stream.readWith env.pathRead with
      | .error e => .error e
      | .ok (_, stream) =>
        match stream.readWith env.wstringRead with
        | .error e => .error e
        | .ok (_, stream) =>
          match rtti_read_u32 stream with
          | .error e => .error e
          | .ok (numChildren, _) => .ok numChildren

/-- The fields of an entry are short enough for the framed codecs of the reference
collaborators. -/
def LibraryEntry.Small (e : LibraryEntry) : Prop :=
  e.path.length + 4 < 4294967296 ∧ 2 * e.elementName.length + 4 < 4294967296

/-- The fields of a node are within what the reference collaborators encode: short
path and name, a timestamp of 64 bits. -/
def Node.Small : Node → Prop
  | .file _ f => f.toLibraryEntry.Small ∧
      -9223372036854775808 ≤ f.lastUpdateTime ∧ f.lastUpdateTime < 9223372036854775808
  | .dir _ e _ => e.Small

mutual
/-- The addresses of a node and of the nodes below it, parent before children. -/
def Node.addrs : Node → List Nat
  | .file a _ => [a]
  | .dir a _ ch => a :: childrenAddrs ch
/-- The addresses of the nodes of a forest, in the order they are decoded. -/
def childrenAddrs : List Node → List Nat
  | [] => []
  | c :: cs => Node.addrs c ++ childrenAddrs cs
end

/-! ## Streams being written, records being consumed -/

/-- A later state of a stream that is being written: the cursor lies within the data,
has not moved back, and the bytes before the earlier cursor are as they were. -/
def Bitstream.Extends (s s' : Bitstream) : Prop :=
  s'.cursor ≤ s'.data.length ∧ s.cursor ≤ s'.cursor ∧
    s'.data.take s.cursor = s.data.take s.cursor

/-- Decoding the record of a node, as `toMemory` of its class writes it, with the
`fromMemory` of that class into a fresh entry, wherever the record stands within the
first `2^32` bytes of a stream: the value returned is the record's byte count and the
cursor ends on the first byte after the record. -/
def Node.ConsumesRecord (env : Env) (c : Node) : Prop :=
  ∀ (self next : Nat) (pre rest : List Byte),
    pre.length + (c.encode env).length ≤ 4294967296 →
    match c with
    | .file _ _ =>
      ∃ g, FileEntry.fromMemory env FileEntry.empty (Bitstream.split pre (c.encode env ++ rest))
        = .ok ((c.encode env).length, g, Bitstream.split (pre ++ c.encode env) rest)
    | .dir _ _ _ =>
      ∃ g next1, DirectoryEntry.fromMemory env self DirectoryEntry.empty next
          (Bitstream.split pre (c.encode env ++ rest))
        = .ok ((c.encode env).length, g, next1, Bitstream.split (pre ++ c.encode env) rest)

/-! ## Sample trees and streams -/

/-- The file `a.txt` of the scenario: path `/root/a.txt`, timestamp 1000; its cached
hash and back-reference are stale on purpose. -/
def sampleFileA : FileEntry :=
  { type := LibraryEntryType.File
    path := [47, 114, 111, 111, 116, 47, 97, 46, 116, 120, 116]
    elementName := [97, 46, 116, 120, 116]
    elementNameHash := 5
    parent := none
    lastUpdateTime := 1000 }

/-- The file `b.txt` of the scenario: path `/root/sub/b.txt`, timestamp 2000. -/
def sampleFileB : FileEntry :=
  { type := LibraryEntryType.File
    path := [47, 114, 111, 111, 116, 47, 115, 117, 98, 47, 98, 46, 116, 120, 116]
    elementName := [98, 46, 116, 120, 116]
    elementNameHash := 0
    parent := none
    lastUpdateTime := 2000 }

/-- A file whose name starts with a two-byte UTF-8 sequence (U+00E9). -/
def sampleFileC : FileEntry :=
  { type := LibraryEntryType.File
    path := [47, 114, 111, 111, 116, 47, 195, 169]
    elementName := [195, 169]
    elementNameHash := 0
    parent := none
    lastUpdateTime := 3 }

/-- The directory `sub` of the scenario, holding `b.txt` and an empty directory. -/
def sampleSub : Node :=
  .dir 21
    { type := LibraryEntryType.Directory, path := [47, 114, 111, 111, 116, 47, 115, 117, 98],
      elementName := [115, 117, 98], elementNameHash := 0, parent := none }
    [.file 22 sampleFileB,
     .dir 23 { type := LibraryEntryType.Directory, path := [], elementName := [101],
               elementNameHash := 0, parent := none } []]

/-- The directory `root` of the scenario: `a.txt`, `sub`, and the non-ASCII file. -/
def sampleRoot : DirectoryEntry :=
  { type := LibraryEntryType.Directory
    path := [47, 114, 111, 111, 116]
    elementName := [114, 111, 111, 116]
    elementNameHash := 0
    parent := none
    mChildren := [.file 20 sampleFileA, sampleSub, .file 24 sampleFileC] }

/-- A path of `2^31` bytes. -/
def bigPath : Path := List.replicate 2147483648 0

/-- A file with a path of `2^31` bytes; its record fits 32 bits. -/
def bigFile : FileEntry :=
  { type := LibraryEntryType.File, path := bigPath, elementName := [],
    elementNameHash := 0, parent := none, lastUpdateTime := 0 }

/-- A directory of two such files; its record takes `2^32 + 68` bytes. -/
def bigDir : DirectoryEntry :=
  { type := LibraryEntryType.Directory, path := [], elementName := [],
    elementNameHash := 0, parent := none,
    mChildren := [.file 1 bigFile, .file 2 bigFile] }

/-- The bytes `toMemory` writes for the scenario tree on an empty stream. -/
def sampleBytes : List Byte := Node.encode env0 (sampleRoot.toNode 0)

/-- The scenario tree as `fromMemory` rebuilds it at address 100 with the allocator at
0: hashes recomputed, back-references set, children at the addresses handed out. -/
def sampleDecoded : DirectoryEntry :=
  { type := LibraryEntryType.Directory
    path := [47, 114, 111, 111, 116]
    elementName := [114, 111, 111, 116]
    elementNameHash := 9971049
    parent := none
    mChildren :=
      [.file 0 { sampleFileA with elementNameHash := 291471292, parent := some 100 },
       .dir 1
        { type := LibraryEntryType.Directory,
          path := [47, 114, 111, 111, 116, 47, 115, 117, 98],
          elementName := [115, 117, 98], elementNameHash := 322777, parent := some 100 }
        [.file 2 { sampleFileB with elementNameHash := 292394813, parent := some 1 },
         .dir 3 { type := LibraryEntryType.Directory, path := [], elementName := [101],
                  elementNameHash := 318, parent := some 1 } []],
       .file 4 { sampleFileC with elementNameHash := 12941, parent := some 100 }] }

/-- A file record declaring 26 bytes: the 24 bytes of an empty-named file with
timestamp 0, then two bytes a later version might have added. -/
def trailerFileBytes : List Byte :=
  [26, 0, 0, 0, 0, 0, 0, 0, 4, 0, 0, 0, 4, 0, 0, 0, 0, 0, 0, 0, 0, 0, 0, 0, 170, 187]

/-- A directory record with two file children, the first being `trailerFileBytes`, the
second a plain file record of 24 bytes with timestamp 7. -/
def trailerDirBytes : List Byte :=
  [70, 0, 0, 0, 1, 0, 0, 0, 4, 0, 0, 0, 4, 0, 0, 0, 2, 0, 0, 0] ++ trailerFileBytes
    ++ [24, 0, 0, 0, 0, 0, 0, 0, 4, 0, 0, 0, 4, 0, 0, 0, 7, 0, 0, 0, 0, 0, 0, 0]

/-- The scenario tree with other addresses, back-references and hashes. -/
def sampleRootMoved : DirectoryEntry :=
  { type := LibraryEntryType.Directory
    path := [47, 114, 111, 111, 116]
    elementName := [114, 111, 111, 116]
    elementNameHash := 77
    parent := some 5
    mChildren :=
      [.file 30 { sampleFileA with elementNameHash := 1, parent := some 9 },
       .dir 31
        { type := LibraryEntryType.Directory,
          path := [47, 114, 111, 111, 116, 47, 115, 117, 98],
          elementName := [115, 117, 98], elementNameHash := 2, parent := some 8 }
        [.file 32 { sampleFileB with elementNameHash := 3, parent := none },
         .dir 33 { type := LibraryEntryType.Directory, path := [], elementName := [101],
                   elementNameHash := 4, parent := some 31 } []],
       .file 34 { sampleFileC with elementNameHash := 5, parent := some 30 }] }

/-- A name of `2^30` bytes. -/
def hugeName : String8 := List.replicate 1073741824 0

/-- A file whose path and widened name take `2^31` bytes each: its computed record
size is `2^32 + 24`. -/
def hugeFile : FileEntry :=
  { type := LibraryEntryType.File, path := bigPath, elementName := hugeName,
    elementNameHash := 0, parent := none, lastUpdateTime := 0 }

/-- The stream of the scenario while `toMemory` of the root runs, at the moment its
loop reaches the child `sub`: the placeholder of the root's header, the root's fields
and the record of `a.txt`, 78 bytes, with the cursor at the end. -/
def sampleMidStream : Bitstream := Bitstream.atEnd (u32Bytes 0 ++ (sampleBytes.take 78).drop 4)

/-- The stream of the scenario when the loop of the root has run: the placeholder of
the root's header, then everything `toMemory` writes behind it. -/
def sampleLoopEnd : Bitstream := Bitstream.atEnd (u32Bytes 0 ++ sampleBytes.drop 4)

/-! ## Facts about the stream and the record layout -/

theorem u32Bytes_length (n : Nat) : (u32Bytes n).length = 4 := rfl

theorem decU32_u32Bytes (n : Nat) (h : n < 4294967296) (rest : List Byte) :
    decU32 (u32Bytes n ++ rest) = some (n, 4) := by
  simp only [u32Bytes, decU32, List.cons_append, List.nil_append, Option.some.injEq,
    Prod.mk.injEq, and_true]
  omega

theorem u32Bytes_mod (n : Nat) : u32Bytes (n % 4294967296) = u32Bytes n := by
  simp only [u32Bytes, List.cons.injEq, Fin.mk.injEq, and_true]
  omega

theorem writeBytes_atEnd (l bytes : List Byte) :
    (Bitstream.atEnd l).writeBytes bytes = Bitstream.atEnd (l ++ bytes) := by
  simp [Bitstream.atEnd, Bitstream.writeBytes]

theorem rtti_write_bytes_atEnd (l bytes : List Byte) :
    rtti_write_bytes bytes (Bitstream.atEnd l)
      = (bytes.length % 4294967296, Bitstream.atEnd (l ++ bytes)) := by
  simp [rtti_write_bytes, writeBytes_atEnd]

theorem rtti_write_u32_atEnd (l : List Byte) (v : Nat) :
    rtti_write_u32 v (Bitstream.atEnd l) = (4, Bitstream.atEnd (l ++ u32Bytes v)) := by
  simp [rtti_write_u32, rtti_write_bytes_atEnd, u32Bytes_length]

theorem readWith_split {α : Type} (dec : List Byte → Option (α × Nat)) (pre bytes rest : List Byte)
    (a : α) (h : dec (bytes ++ rest) = some (a, bytes.length)) :
    (Bitstream.split pre (bytes ++ rest)).readWith dec
      = .ok (a, Bitstream.split (pre ++ bytes) rest) := by
  simp [Bitstream.split, Bitstream.readWith, h]

theorem rtti_read_u32_split (pre rest : List Byte) (n : Nat) (h : n < 4294967296) :
    rtti_read_u32 (Bitstream.split pre (u32Bytes n ++ rest))
      = .ok (n, Bitstream.split (pre ++ u32Bytes n) rest) := by
  unfold rtti_read_u32
  exact readWith_split decU32 pre (u32Bytes n) rest n (decU32_u32Bytes n h rest)

theorem rtti_write_with_size_header_atEnd (l payload : List Byte) (p : Nat)
    (t : Bitstream → Except Err (Nat × Bitstream))
    (ht : t (Bitstream.atEnd (l ++ u32Bytes 0))
      = .ok (p, Bitstream.atEnd (l ++ u32Bytes 0 ++ payload)))
    (hfit : payload.length + 4 ≤ UINT32_MAX) :
    rtti_write_with_size_header (Bitstream.atEnd l) t
      = .ok (payload.length + 4,
          Bitstream.atEnd (l ++ (u32Bytes (payload.length + 4) ++ payload))) := by
  unfold rtti_write_with_size_header
  simp only [writeBytes_atEnd, ht]
  have e : (Bitstream.atEnd (l ++ u32Bytes 0 ++ payload)).tell - (Bitstream.atEnd l).tell
      = payload.length + 4 := by
    simp only [Bitstream.atEnd, Bitstream.tell, List.length_append, u32Bytes_length]
    omega
  simp only [e]
  have h1 : ¬ (payload.length + 4 > UINT32_MAX) := by omega
  simp only [h1, if_false]
  simp [Bitstream.atEnd, Bitstream.seek, Bitstream.tell, Bitstream.writeBytes,
    u32Bytes_length]

/-- A record whose bytes do not fit the 32-bit header: the framing fails. -/
theorem rtti_write_with_size_header_overflow (l payload : List Byte) (p : Nat)
    (t : Bitstream → Except Err (Nat × Bitstream))
    (ht : t (Bitstream.atEnd (l ++ u32Bytes 0))
      = .ok (p, Bitstream.atEnd (l ++ u32Bytes 0 ++ payload)))
    (hover : UINT32_MAX < payload.length + 4) :
    rtti_write_with_size_header (Bitstream.atEnd l) t = .error .sizeOverflow := by
  unfold rtti_write_with_size_header
  simp only [writeBytes_atEnd, ht]
  have e : (Bitstream.atEnd (l ++ u32Bytes 0 ++ payload)).tell - (Bitstream.atEnd l).tell
      = payload.length + 4 := by
    simp only [Bitstream.atEnd, Bitstream.tell, List.length_append, u32Bytes_length]
    omega
  simp only [e]
  rw [if_pos hover]

/-- Induction over a tree: a property of every file that passes from the children of
a directory to the directory holds of every node. -/
theorem Node.induction {P : Node → Prop} (hfile : ∀ a f, P (.file a f))
    (hdir : ∀ a e ch, (∀ c ∈ ch, P c) → P (.dir a e ch)) : ∀ n, P n := by
  intro n
  refine Node.rec (motive_1 := P) (motive_2 := fun l => ∀ c ∈ l, P c)
    hfile (fun a e ch ih => hdir a e ch ih) ?_ ?_ n
  · intro c hc; cases hc
  · intro hd tl ihd itl c hc
    rcases List.mem_cons.mp hc with h | h
    · rw [h]; exact ihd
    · exact itl c h

theorem childrenForall_iff (P : Node → Prop) (ch : List Node) :
    ChildrenForall P ch ↔ ∀ c ∈ ch, c.Forall P := by
  induction ch with
  | nil => simp [ChildrenForall]
  | cons c cs ih => simp [ChildrenForall, ih]

theorem childrenBytes_cons (env : Env) (c : Node) (cs : List Node) :
    childrenBytes env (c :: cs) = c.recordBytes env ++ childrenBytes env cs := by
  simp [childrenBytes, Node.recordBytes]

theorem recordBytes_length (env : Env) (n : Node) :
    (n.recordBytes env).length = (n.payloadBytes env).length + 4 := by
  simp [Node.recordBytes, u32Bytes_length]; omega

theorem recordBytes_le_childrenBytes (env : Env) (ch : List Node) (c : Node) (hc : c ∈ ch) :
    (c.recordBytes env).length ≤ (childrenBytes env ch).length := by
  induction ch with
  | nil => cases hc
  | cons d ds ih =>
    rw [childrenBytes_cons, List.length_append]
    rcases List.mem_cons.mp hc with h | h
    · rw [h]; omega
    · have := ih h; omega

theorem file_writePayload_atEnd (env : Env) (f : FileEntry) (l : List Byte) :
    FileEntry.writePayload env f (Bitstream.atEnd l)
      = .ok ((FileEntry.payloadBytes env f).length % 4294967296,
          Bitstream.atEnd (l ++ FileEntry.payloadBytes env f)) := by
  simp only [FileEntry.writePayload, rtti_write_u32_atEnd, rtti_write_bytes_atEnd,
    FileEntry.payloadBytes, u32Bytes_mod, List.append_assoc, List.length_append, u32Bytes_length]
  congr 2
  omega

theorem writeChildren_atEnd (env : Env) (ch : List Node)
    (htag : ∀ c ∈ ch, c.TagMatches)
    (ih : ∀ c ∈ ch, ∀ l, Node.toMemory env c (Bitstream.atEnd l)
      = .ok ((c.recordBytes env).length, Bitstream.atEnd (l ++ c.recordBytes env))) :
    ∀ size l, size < 4294967296 → writeChildren env ch size (Bitstream.atEnd l)
      = .ok ((size + (childrenBytes env ch).length) % 4294967296,
          Bitstream.atEnd (l ++ childrenBytes env ch)) := by
  induction ch with
  | nil =>
    intro size l hs
    simp [writeChildren, childrenBytes]
    omega
  | cons c cs ihc =>
    intro size l hs
    have hc := ih c (List.mem_cons_self _ _)
    have htc := htag c (List.mem_cons_self _ _)
    have ihcs := ihc (fun d hd => htag d (List.mem_cons_of_mem _ hd))
      (fun d hd => ih d (List.mem_cons_of_mem _ hd))
    cases c with
    | file a f =>
      have ht : f.type = LibraryEntryType.File := htc
      simp only [writeChildren, Node.base, ht, if_true, hc]
      rw [ihcs _ _ (Nat.mod_lt _ (by decide)), childrenBytes_cons]
      simp only [List.append_assoc, List.length_append]
      congr 2
      omega
    | dir a e k =>
      have ht : e.type = LibraryEntryType.Directory := htc
      have hne : ¬ (LibraryEntryType.Directory = LibraryEntryType.File) := by decide
      simp only [writeChildren, Node.base, ht, hne, if_true, if_false, hc]
      rw [ihcs _ _ (Nat.mod_lt _ (by decide)), childrenBytes_cons]
      simp only [List.append_assoc, List.length_append]
      congr 2
      omega

theorem dir_writePayload_atEnd (env : Env) (e : LibraryEntry) (ch : List Node)
    (htag : ∀ c ∈ ch, c.TagMatches)
    (ih : ∀ c ∈ ch, ∀ l, Node.toMemory env c (Bitstream.atEnd l)
      = .ok ((c.recordBytes env).length, Bitstream.atEnd (l ++ c.recordBytes env)))
    (l : List Byte) :
    DirectoryEntry.writePayload env e ch.length
        (fun size stream => writeChildren env ch size stream) (Bitstream.atEnd l)
      = .ok ((Node.payloadBytes env (.dir 0 e ch)).length % 4294967296,
          Bitstream.atEnd (l ++ Node.payloadBytes env (.dir 0 e ch))) := by
  simp only [DirectoryEntry.writePayload, rtti_write_u32_atEnd, rtti_write_bytes_atEnd,
    u32Bytes_mod]
  rw [writeChildren_atEnd env ch htag ih _ _ (Nat.mod_lt _ (by decide))]
  simp only [Node.payloadBytes, LibraryEntry.fieldBytes, List.append_assoc, List.length_append,
    u32Bytes_length]
  congr 2
  omega

theorem node_toMemory_atEnd (env : Env) : ∀ n : Node, n.Forall Node.TagMatches →
    (n.recordBytes env).length < 4294967296 → ∀ l, Node.toMemory env n (Bitstream.atEnd l)
      = .ok ((n.recordBytes env).length, Bitstream.atEnd (l ++ n.recordBytes env)) := by
  intro n
  induction n using Node.induction with
  | hfile a f =>
    intro _ hfit l
    rw [recordBytes_length] at hfit
    simp only [Node.payloadBytes] at hfit
    simp only [Node.toMemory, FileEntry.toMemory]
    rw [rtti_write_with_size_header_atEnd l (FileEntry.payloadBytes env f)
      ((FileEntry.payloadBytes env f).length % 4294967296) _
      (by rw [file_writePayload_atEnd])
      (by simp only [UINT32_MAX]; omega)]
    simp [Node.recordBytes, Node.payloadBytes, u32Bytes_length]
    omega
  | hdir a e ch ih =>
    intro hall hfit l
    simp only [Node.Forall] at hall
    have hkids := (childrenForall_iff _ _).mp hall.2
    have hlen : (Node.payloadBytes env (.dir 0 e ch)).length
        = (Node.payloadBytes env (.dir a e ch)).length := by simp [Node.payloadBytes]
    have hpay : Node.payloadBytes env (.dir 0 e ch) = Node.payloadBytes env (.dir a e ch) := by
      simp [Node.payloadBytes]
    rw [recordBytes_length] at hfit
    have hsub : ∀ c ∈ ch, (c.recordBytes env).length < 4294967296 := by
      intro c hc
      have h1 := recordBytes_le_childrenBytes env ch c hc
      simp only [Node.payloadBytes, List.length_append] at hfit
      omega
    have ih2 : ∀ c ∈ ch, ∀ l, Node.toMemory env c (Bitstream.atEnd l)
        = .ok ((c.recordBytes env).length, Bitstream.atEnd (l ++ c.recordBytes env)) :=
      fun c hc => ih c hc (hkids c hc) (hsub c hc)
    have htag : ∀ c ∈ ch, c.TagMatches := by
      intro c hc
      have := hkids c hc
      cases c with
      | file b f => simpa [Node.Forall] using this
      | dir b g k => simp only [Node.Forall] at this; exact this.1
    simp only [Node.toMemory]
    rw [rtti_write_with_size_header_atEnd l (Node.payloadBytes env (.dir a e ch))
      ((Node.payloadBytes env (.dir a e ch)).length % 4294967296) _
      (by rw [dir_writePayload_atEnd env e ch htag ih2, hpay])
      (by simp only [UINT32_MAX]; omega)]
    simp [Node.recordBytes, u32Bytes_length]
    omega

theorem recordSize_eq (env : Env) (n : Node) :
    n.recordSize env = (n.payloadBytes env).length + 4 := recordBytes_length env n

theorem childrenComputedSize_le (env : Env) (ch : List Node) (c : Node) (hc : c ∈ ch) :
    c.computedSize env ≤ childrenComputedSize env ch := by
  induction ch with
  | nil => cases hc
  | cons d ds ih =>
    simp only [childrenComputedSize]
    rcases List.mem_cons.mp hc with h | h
    · rw [h]; omega
    · have := ih h; omega

/-- The children's computed sizes add up to the bytes of their records when each
record fits 32 bits. -/
theorem childrenComputedSize_eq (env : Env) (ch : List Node)
    (ih : ∀ c ∈ ch, c.computedSize env = c.recordSize env) :
    childrenComputedSize env ch = (childrenBytes env ch).length := by
  induction ch with
  | nil => simp [childrenComputedSize, childrenBytes]
  | cons d ds ihd =>
    rw [childrenBytes_cons, List.length_append]
    simp only [childrenComputedSize]
    rw [ih d (List.mem_cons_self _ _), ihd (fun c hc => ih c (List.mem_cons_of_mem _ hc))]
    rfl

theorem computedSize_eq_recordSize (env : Env) : ∀ n : Node,
    n.recordSize env < 4294967296 → n.computedSize env = n.recordSize env := by
  intro n
  induction n using Node.induction with
  | hfile a f =>
    intro h
    rw [recordSize_eq] at *
    simp only [Node.payloadBytes, FileEntry.payloadBytes, List.length_append, u32Bytes_length,
      Node.computedSize, rtti_size_bytes] at *
    omega
  | hdir a e ch ih =>
    intro h
    rw [recordSize_eq] at *
    simp only [Node.payloadBytes, LibraryEntry.fieldBytes, List.length_append, u32Bytes_length,
      Node.computedSize, rtti_size_bytes] at *
    have hsub : ∀ c ∈ ch, c.computedSize env = c.recordSize env := by
      intro c hc
      apply ih c hc
      have := recordBytes_le_childrenBytes env ch c hc
      simp only [Node.recordSize]
      omega
    rw [childrenComputedSize_eq env ch hsub]
    omega

theorem tagMatches_of_forall (c : Node) (h : c.Forall Node.TagMatches) : c.TagMatches := by
  cases c with
  | file b f => simpa [Node.Forall] using h
  | dir b g k => simp only [Node.Forall] at h; exact h.1

/-- In a release build the loop of `getDynamicSize` agrees, modulo `2^32`, with the
untruncated sum. -/
theorem sizeChildren_release (env : Env) (ch : List Node)
    (htag : ∀ c ∈ ch, c.TagMatches)
    (ih : ∀ c ∈ ch, Node.getDynamicSize env false c = .ok (c.computedSize env % 4294967296)) :
    ∀ acc, ∃ r, sizeChildren env false ch acc = .ok r ∧
      r % 4294967296 = (acc + childrenComputedSize env ch) % 4294967296 := by
  induction ch with
  | nil => intro acc; exact ⟨acc, by simp [sizeChildren], by simp [childrenComputedSize]⟩
  | cons c cs ihc =>
    intro acc
    have hc := ih c (List.mem_cons_self _ _)
    have htc := htag c (List.mem_cons_self _ _)
    have ihcs := ihc (fun d hd => htag d (List.mem_cons_of_mem _ hd))
      (fun d hd => ih d (List.mem_cons_of_mem _ hd))
    obtain ⟨r, hr, hmod⟩ := ihcs ((acc + c.computedSize env % 4294967296) % 18446744073709551616)
    refine ⟨r, ?_, ?_⟩
    · cases c with
      | file a f =>
        have ht : f.type = LibraryEntryType.File := htc
        simp only [sizeChildren, Node.base, ht, if_true, hc, hr]
      | dir a e k =>
        have ht : e.type = LibraryEntryType.Directory := htc
        have hne : ¬ (LibraryEntryType.Directory = LibraryEntryType.File) := by decide
        simp only [sizeChildren, Node.base, ht, hne, if_true, if_false, hc, hr]
    · simp only [childrenComputedSize]
      omega

theorem Node.getDynamicSize_release (env : Env) : ∀ n : Node, n.Forall Node.TagMatches →
    Node.getDynamicSize env false n = .ok (n.computedSize env % 4294967296) := by
  intro n
  induction n using Node.induction with
  | hfile a f =>
    intro _
    simp only [Node.getDynamicSize, FileEntry.getDynamicSize, Node.computedSize, Bool.false_and,
      Bool.false_eq_true, if_false, Except.ok.injEq]
    omega
  | hdir a e ch ih =>
    intro hall
    simp only [Node.Forall] at hall
    have hkids := (childrenForall_iff _ _).mp hall.2
    obtain ⟨r, hr, hmod⟩ := sizeChildren_release env ch
      (fun c hc => tagMatches_of_forall c (hkids c hc)) (fun c hc => ih c hc (hkids c hc))
      ((((4 + 4 + rtti_size_bytes (env.pathBytes e.path)
      + rtti_size_bytes (env.wstringBytes (env.toWide e.elementName))) % 18446744073709551616)
        + 4) % 18446744073709551616)
    simp only [Node.getDynamicSize, hr, Node.computedSize, Bool.false_and,
      Bool.false_eq_true, if_false, Except.ok.injEq]
    omega

/-- The loop of `getDynamicSize` when every child reports its computed size and the
sum stays within 64 bits. -/
theorem sizeChildren_exact (env : Env) (debug : Bool) (ch : List Node)
    (htag : ∀ c ∈ ch, c.TagMatches)
    (ih : ∀ c ∈ ch, Node.getDynamicSize env debug c = .ok (c.computedSize env)) :
    ∀ acc, acc + childrenComputedSize env ch < 18446744073709551616 →
      sizeChildren env debug ch acc = .ok (acc + childrenComputedSize env ch) := by
  induction ch with
  | nil => intro acc _; simp [sizeChildren, childrenComputedSize]
  | cons c cs ihc =>
    intro acc hacc
    have hc := ih c (List.mem_cons_self _ _)
    have htc := htag c (List.mem_cons_self _ _)
    have ihcs := ihc (fun d hd => htag d (List.mem_cons_of_mem _ hd))
      (fun d hd => ih d (List.mem_cons_of_mem _ hd))
    simp only [childrenComputedSize] at hacc ⊢
    have hmod : (acc + c.computedSize env) % 18446744073709551616 = acc + c.computedSize env :=
      Nat.mod_eq_of_lt (by omega)
    cases c with
    | file a f =>
      have ht : f.type = LibraryEntryType.File := htc
      simp only [sizeChildren, Node.base, ht, if_true, hc, hmod]
      rw [ihcs _ (by omega)]
      simp only [Except.ok.injEq]; omega
    | dir a e k =>
      have ht : e.type = LibraryEntryType.Directory := htc
      have hne : ¬ (LibraryEntryType.Directory = LibraryEntryType.File) := by decide
      simp only [sizeChildren, Node.base, ht, hne, if_true, if_false, hc, hmod]
      rw [ihcs _ (by omega)]
      simp only [Except.ok.injEq]; omega

/-- Whatever the build, a record within 32 bits gets its computed size. -/
theorem Node.getDynamicSize_fits (env : Env) (debug : Bool) : ∀ n : Node,
    n.Forall Node.TagMatches → n.computedSize env ≤ UINT32_MAX →
    Node.getDynamicSize env debug n = .ok (n.computedSize env) := by
  intro n
  induction n using Node.induction with
  | hfile a f =>
    intro _ hfit
    simp only [Node.computedSize, UINT32_MAX] at hfit
    have h1 : (4 + 4 + rtti_size_bytes (env.pathBytes f.path)
      + rtti_size_bytes (env.wstringBytes (env.toWide f.elementName))
      + rtti_size_bytes (env.timeBytes f.lastUpdateTime)) % 18446744073709551616
        = 4 + 4 + rtti_size_bytes (env.pathBytes f.path)
      + rtti_size_bytes (env.wstringBytes (env.toWide f.elementName))
      + rtti_size_bytes (env.timeBytes f.lastUpdateTime) := Nat.mod_eq_of_lt (by omega)
    simp only [Node.getDynamicSize, FileEntry.getDynamicSize, Node.computedSize, h1, UINT32_MAX]
    have h2 : ¬ (4 + 4 + rtti_size_bytes (env.pathBytes f.path)
      + rtti_size_bytes (env.wstringBytes (env.toWide f.elementName))
      + rtti_size_bytes (env.timeBytes f.lastUpdateTime) > 4294967295) := by omega
    simp only [h2, decide_False, Bool.and_false, Bool.false_eq_true, if_false, Except.ok.injEq]
    omega
  | hdir a e ch ih =>
    intro hall hfit
    simp only [Node.Forall] at hall
    have hkids := (childrenForall_iff _ _).mp hall.2
    simp only [Node.computedSize, UINT32_MAX] at hfit
    have hsub : ∀ c ∈ ch, Node.getDynamicSize env debug c = .ok (c.computedSize env) := by
      intro c hc
      apply ih c hc (hkids c hc)
      have := childrenComputedSize_le env ch c hc
      simp only [UINT32_MAX]; omega
    have h1 : ((4 + 4 + rtti_size_bytes (env.pathBytes e.path)
      + rtti_size_bytes (env.wstringBytes (env.toWide e.elementName))) % 18446744073709551616
        + 4) % 18446744073709551616
        = 4 + 4 + rtti_size_bytes (env.pathBytes e.path)
      + rtti_size_bytes (env.wstringBytes (env.toWide e.elementName)) + 4 := by omega
    simp only [Node.getDynamicSize, h1]
    rw [sizeChildren_exact env debug ch (fun c hc => tagMatches_of_forall c (hkids c hc)) hsub _
      (by omega)]
    have h2 : ¬ (4 + 4 + rtti_size_bytes (env.pathBytes e.path)
      + rtti_size_bytes (env.wstringBytes (env.toWide e.elementName)) + 4
      + childrenComputedSize env ch > 4294967295) := by omega
    simp only [Node.computedSize, UINT32_MAX, h2, decide_False, Bool.and_false,
      Bool.false_eq_true, if_false, Except.ok.injEq]
    omega

/-- In a debug build one oversized child aborts the loop of `getDynamicSize`. -/
theorem sizeChildren_debug_overflow (env : Env) (ch : List Node)
    (htag : ∀ c ∈ ch, c.TagMatches)
    (ih : ∀ c ∈ ch, (c.computedSize env ≤ UINT32_MAX →
        Node.getDynamicSize env true c = .ok (c.computedSize env)) ∧
      (UINT32_MAX < c.computedSize env → Node.getDynamicSize env true c = .error .dataOverflow))
    (hbig : ∃ c ∈ ch, UINT32_MAX < c.computedSize env) :
    ∀ acc, sizeChildren env true ch acc = .error .dataOverflow := by
  induction ch with
  | nil => obtain ⟨c, hc, _⟩ := hbig; cases hc
  | cons c cs ihc =>
    intro acc
    have hc := ih c (List.mem_cons_self _ _)
    have htc := htag c (List.mem_cons_self _ _)
    have hne : ¬ (LibraryEntryType.Directory = LibraryEntryType.File) := by decide
    by_cases hcfit : c.computedSize env ≤ UINT32_MAX
    · have hok := hc.1 hcfit
      have hbig2 : ∃ d ∈ cs, UINT32_MAX < d.computedSize env := by
        obtain ⟨d, hd, hdbig⟩ := hbig
        rcases List.mem_cons.mp hd with h | h
        · rw [h] at hdbig; omega
        · exact ⟨d, h, hdbig⟩
      have ihcs := ihc (fun d hd => htag d (List.mem_cons_of_mem _ hd))
        (fun d hd => ih d (List.mem_cons_of_mem _ hd)) hbig2
      cases c with
      | file a f =>
        have ht : f.type = LibraryEntryType.File := htc
        simp only [sizeChildren, Node.base, ht, if_true, hok, ihcs]
      | dir a e k =>
        have ht : e.type = LibraryEntryType.Directory := htc
        simp only [sizeChildren, Node.base, ht, hne, if_true, if_false, hok, ihcs]
    · have herr := hc.2 (by omega)
      cases c with
      | file a f =>
        have ht : f.type = LibraryEntryType.File := htc
        simp only [sizeChildren, Node.base, ht, if_true, herr]
      | dir a e k =>
        have ht : e.type = LibraryEntryType.Directory := htc
        simp only [sizeChildren, Node.base, ht, hne, if_true, if_false, herr]

/-- In a debug build a record whose computed size is beyond 32 bits (and within the
64 bits of the accumulator) raises the data-overflow exception. -/
theorem Node.getDynamicSize_debug_overflow (env : Env) : ∀ n : Node,
    n.Forall Node.TagMatches → UINT32_MAX < n.computedSize env →
    n.computedSize env < 18446744073709551616 →
    Node.getDynamicSize env true n = .error .dataOverflow := by
  intro n
  induction n using Node.induction with
  | hfile a f =>
    intro _ hbig h64
    simp only [Node.computedSize, UINT32_MAX] at hbig h64
    have h1 : (4 + 4 + rtti_size_bytes (env.pathBytes f.path)
      + rtti_size_bytes (env.wstringBytes (env.toWide f.elementName))
      + rtti_size_bytes (env.timeBytes f.lastUpdateTime)) % 18446744073709551616
        = 4 + 4 + rtti_size_bytes (env.pathBytes f.path)
      + rtti_size_bytes (env.wstringBytes (env.toWide f.elementName))
      + rtti_size_bytes (env.timeBytes f.lastUpdateTime) := Nat.mod_eq_of_lt (by omega)
    simp only [Node.getDynamicSize, FileEntry.getDynamicSize, h1, UINT32_MAX]
    have h2 : (4 + 4 + rtti_size_bytes (env.pathBytes f.path)
      + rtti_size_bytes (env.wstringBytes (env.toWide f.elementName))
      + rtti_size_bytes (env.timeBytes f.lastUpdateTime) > 4294967295) := by omega
    simp only [h2, decide_True, Bool.and_self, if_true]
  | hdir a e ch ih =>
    intro hall hbig h64
    simp only [Node.Forall] at hall
    have hkids := (childrenForall_iff _ _).mp hall.2
    have htag : ∀ c ∈ ch, c.TagMatches := fun c hc => tagMatches_of_forall c (hkids c hc)
    simp only [Node.computedSize, UINT32_MAX] at hbig h64
    have hsub : ∀ c ∈ ch, (c.computedSize env ≤ UINT32_MAX →
        Node.getDynamicSize env true c = .ok (c.computedSize env)) ∧
      (UINT32_MAX < c.computedSize env →
        Node.getDynamicSize env true c = .error .dataOverflow) := by
      intro c hc
      refine ⟨Node.getDynamicSize_fits env true c (hkids c hc), fun hb => ?_⟩
      apply ih c hc (hkids c hc) hb
      have := childrenComputedSize_le env ch c hc
      omega
    have h1 : ((4 + 4 + rtti_size_bytes (env.pathBytes e.path)
      + rtti_size_bytes (env.wstringBytes (env.toWide e.elementName))) % 18446744073709551616
        + 4) % 18446744073709551616
        = 4 + 4 + rtti_size_bytes (env.pathBytes e.path)
      + rtti_size_bytes (env.wstringBytes (env.toWide e.elementName)) + 4 := by omega
    simp only [Node.getDynamicSize, h1]
    by_cases hall_fit : ∀ c ∈ ch, c.computedSize env ≤ UINT32_MAX
    · rw [sizeChildren_exact env true ch htag (fun c hc => (hsub c hc).1 (hall_fit c hc)) _
        (by omega)]
      have h2 : (4 + 4 + rtti_size_bytes (env.pathBytes e.path)
        + rtti_size_bytes (env.wstringBytes (env.toWide e.elementName)) + 4
        + childrenComputedSize env ch > 4294967295) := by omega
      simp only [UINT32_MAX, h2, decide_True, Bool.and_self, if_true]
    · have hex : ∃ c ∈ ch, UINT32_MAX < c.computedSize env := by
        by_contra hcon
        apply hall_fit
        intro c hc
        by_contra hlt
        exact hcon ⟨c, hc, by omega⟩
      rw [sizeChildren_debug_overflow env ch htag hsub hex]

/-- What `toMemory` does with a directory whose children's records each fit 32 bits,
whatever its own tag: when its record fits too, the record goes out in full and its
size is the header and the result. -/
theorem Node.toMemory_dir_fits (env : Env) (a : Nat) (e : LibraryEntry) (ch : List Node)
    (hkids : ∀ c ∈ ch, c.Forall Node.TagMatches)
    (hsub : ∀ c ∈ ch, c.recordSize env < 4294967296)
    (hfit : (Node.payloadBytes env (.dir a e ch)).length + 4 ≤ UINT32_MAX)
    (l : List Byte) :
    Node.toMemory env (.dir a e ch) (Bitstream.atEnd l)
      = .ok ((Node.payloadBytes env (.dir a e ch)).length + 4,
          Bitstream.atEnd (l ++ (u32Bytes ((Node.payloadBytes env (.dir a e ch)).length + 4)
            ++ Node.payloadBytes env (.dir a e ch)))) := by
  have hpay : Node.payloadBytes env (.dir 0 e ch) = Node.payloadBytes env (.dir a e ch) := by
    simp [Node.payloadBytes]
  have ih2 : ∀ c ∈ ch, ∀ l, Node.toMemory env c (Bitstream.atEnd l)
      = .ok ((c.recordBytes env).length, Bitstream.atEnd (l ++ c.recordBytes env)) :=
    fun c hc => node_toMemory_atEnd env c (hkids c hc) (hsub c hc)
  simp only [Node.toMemory]
  rw [rtti_write_with_size_header_atEnd l (Node.payloadBytes env (.dir a e ch))
    ((Node.payloadBytes env (.dir a e ch)).length % 4294967296) _
    (by rw [dir_writePayload_atEnd env e ch
      (fun c hc => tagMatches_of_forall c (hkids c hc)) ih2, hpay])
    hfit]

/-- A directory whose children's records each fit 32 bits while its own does not:
`toMemory` writes the payload and fails on the header. -/
theorem Node.toMemory_dir_overflow (env : Env) (a : Nat) (e : LibraryEntry) (ch : List Node)
    (hkids : ∀ c ∈ ch, c.Forall Node.TagMatches)
    (hsub : ∀ c ∈ ch, c.recordSize env < 4294967296)
    (hover : UINT32_MAX < (Node.payloadBytes env (.dir a e ch)).length + 4)
    (l : List Byte) :
    Node.toMemory env (.dir a e ch) (Bitstream.atEnd l) = .error .sizeOverflow := by
  have hpay : Node.payloadBytes env (.dir 0 e ch) = Node.payloadBytes env (.dir a e ch) := by
    simp [Node.payloadBytes]
  have ih2 : ∀ c ∈ ch, ∀ l, Node.toMemory env c (Bitstream.atEnd l)
      = .ok ((c.recordBytes env).length, Bitstream.atEnd (l ++ c.recordBytes env)) :=
    fun c hc => node_toMemory_atEnd env c (hkids c hc) (hsub c hc)
  simp only [Node.toMemory]
  rw [rtti_write_with_size_header_overflow l (Node.payloadBytes env (.dir a e ch))
    ((Node.payloadBytes env (.dir a e ch)).length % 4294967296) _
    (by rw [dir_writePayload_atEnd env e ch
      (fun c hc => tagMatches_of_forall c (hkids c hc)) ih2, hpay])
    hover]

theorem DirectoryEntry.toMemory_eq (env : Env) (d : DirectoryEntry) (a : Nat) (s : Bitstream) :
    DirectoryEntry.toMemory env d s = Node.toMemory env (d.toNode a) s := by
  simp [DirectoryEntry.toMemory, DirectoryEntry.toNode, Node.toMemory]

theorem DirectoryEntry.getDynamicSize_eq (env : Env) (debug : Bool) (d : DirectoryEntry) (a : Nat) :
    DirectoryEntry.getDynamicSize env debug d = Node.getDynamicSize env debug (d.toNode a) := by
  simp [DirectoryEntry.getDynamicSize, DirectoryEntry.toNode, Node.getDynamicSize]

theorem payloadBytes_dir_addr (env : Env) (a b : Nat) (e : LibraryEntry) (ch : List Node) :
    Node.payloadBytes env (.dir a e ch) = Node.payloadBytes env (.dir b e ch) := by
  simp [Node.payloadBytes]

/-- A directory record within 32 bits, its children carrying the tags of their
classes: `toMemory` appends exactly the record and returns its size. -/
theorem dir_toMemory_atEnd (env : Env) (d : DirectoryEntry) (a : Nat)
    (hkids : ChildrenForall Node.TagMatches d.mChildren)
    (hfit : (d.toNode a).recordSize env < 4294967296) (l : List Byte) :
    DirectoryEntry.toMemory env d (Bitstream.atEnd l)
      = .ok ((d.toNode a).recordSize env, Bitstream.atEnd (l ++ (d.toNode a).recordBytes env)) := by
  have hk := (childrenForall_iff _ _).mp hkids
  have hfit2 := hfit
  rw [recordSize_eq] at hfit2
  have hsub : ∀ c ∈ d.mChildren, c.recordSize env < 4294967296 := by
    intro c hc
    have h1 := recordBytes_le_childrenBytes env d.mChildren c hc
    simp only [DirectoryEntry.toNode, Node.payloadBytes, List.length_append] at hfit2
    simp only [Node.recordSize]
    omega
  rw [DirectoryEntry.toMemory_eq env d a]
  simp only [DirectoryEntry.toNode] at *
  rw [Node.toMemory_dir_fits env a _ _ hk hsub (by simp only [UINT32_MAX]; omega)]
  rw [recordSize_eq]
  simp [Node.recordBytes]

/-- A file record within 32 bits: `toMemory` appends exactly the record and returns
its size. -/
theorem file_toMemory_atEnd (env : Env) (f : FileEntry) (a : Nat)
    (hfit : (Node.file a f).recordSize env < 4294967296) (l : List Byte) :
    FileEntry.toMemory env f (Bitstream.atEnd l)
      = .ok ((Node.file a f).recordSize env,
          Bitstream.atEnd (l ++ (Node.file a f).recordBytes env)) := by
  rw [recordSize_eq] at hfit ⊢
  simp only [Node.payloadBytes] at hfit ⊢
  simp only [FileEntry.toMemory]
  rw [rtti_write_with_size_header_atEnd l (FileEntry.payloadBytes env f)
    ((FileEntry.payloadBytes env f).length % 4294967296) _
    (by rw [file_writePayload_atEnd])
    (by simp only [UINT32_MAX]; omega)]
  simp [Node.recordBytes, Node.payloadBytes]

theorem rtti_write_with_size_header_error (s : Bitstream) (e : Err)
    (t : Bitstream → Except Err (Nat × Bitstream))
    (ht : t (s.writeBytes (u32Bytes 0)) = .error e) :
    rtti_write_with_size_header s t = .error e := by
  unfold rtti_write_with_size_header
  simp only [ht]

theorem dir_writePayload_error (env : Env) (e : LibraryEntry) (count : Nat)
    (writeKids : Nat → Bitstream → Except Err (Nat × Bitstream)) (l : List Byte) (err : Err)
    (hk : ∀ sz, writeKids sz (Bitstream.atEnd (l ++ LibraryEntry.fieldBytes env e count))
      = .error err) :
    DirectoryEntry.writePayload env e count writeKids (Bitstream.atEnd l) = .error err := by
  simp only [DirectoryEntry.writePayload, rtti_write_u32_atEnd, rtti_write_bytes_atEnd,
    u32Bytes_mod]
  have h := hk (((((0 + 4) % 4294967296 + (env.pathBytes e.path).length % 4294967296)
    % 4294967296 + (env.wstringBytes (env.toWide e.elementName)).length % 4294967296)
    % 4294967296 + 4) % 4294967296)
  simp only [LibraryEntry.fieldBytes, List.append_assoc] at h ⊢
  exact h

theorem writeChildren_overflow_atEnd (env : Env) (ch : List Node)
    (htag : ∀ c ∈ ch, c.TagMatches)
    (hok : ∀ c ∈ ch, c.recordSize env < 4294967296 → ∀ l,
      Node.toMemory env c (Bitstream.atEnd l)
        = .ok ((c.recordBytes env).length, Bitstream.atEnd (l ++ c.recordBytes env)))
    (herr : ∀ c ∈ ch, 4294967296 ≤ c.recordSize env → ∀ l,
      Node.toMemory env c (Bitstream.atEnd l) = .error .sizeOverflow)
    (hex : ∃ c ∈ ch, 4294967296 ≤ c.recordSize env) :
    ∀ size l, writeChildren env ch size (Bitstream.atEnd l) = .error .sizeOverflow := by
  induction ch with
  | nil => obtain ⟨c, hc, _⟩ := hex; cases hc
  | cons c cs ihc =>
    intro size l
    have htc := htag c (List.mem_cons_self _ _)
    by_cases hfit : c.recordSize env < 4294967296
    · have h1 := hok c (List.mem_cons_self _ _) hfit l
      have hex2 : ∃ d ∈ cs, 4294967296 ≤ d.recordSize env := by
        obtain ⟨d, hd, hbig⟩ := hex
        rcases List.mem_cons.mp hd with h | h
        · subst h; omega
        · exact ⟨d, h, hbig⟩
      have ihcs := ihc (fun d hd => htag d (List.mem_cons_of_mem _ hd))
        (fun d hd => hok d (List.mem_cons_of_mem _ hd))
        (fun d hd => herr d (List.mem_cons_of_mem _ hd)) hex2
      cases c with
      | file a f =>
        have ht : f.type = LibraryEntryType.File := htc
        simp only [writeChildren, Node.base, ht, if_true, h1]
        exact ihcs _ _
      | dir a e k =>
        have ht : e.type = LibraryEntryType.Directory := htc
        have hne : ¬ (LibraryEntryType.Directory = LibraryEntryType.File) := by decide
        simp only [writeChildren, Node.base, ht, hne, if_true, if_false, h1]
        exact ihcs _ _
    · have h1 := herr c (List.mem_cons_self _ _) (by omega) l
      cases c with
      | file a f =>
        have ht : f.type = LibraryEntryType.File := htc
        simp only [writeChildren, Node.base, ht, if_true, h1]
      | dir a e k =>
        have ht : e.type = LibraryEntryType.Directory := htc
        have hne : ¬ (LibraryEntryType.Directory = LibraryEntryType.File) := by decide
        simp only [writeChildren, Node.base, ht, hne, if_true, if_false, h1]

/-- One level of the overflow: a directory, whatever its own tag, whose record does
not fit 32 bits, given what `toMemory` does with each of its children. -/
theorem dir_toMemory_overflow_step (env : Env) (a : Nat) (e : LibraryEntry) (ch : List Node)
    (hkids : ∀ c ∈ ch, c.Forall Node.TagMatches)
    (herr : ∀ c ∈ ch, 4294967296 ≤ c.recordSize env → ∀ l,
      Node.toMemory env c (Bitstream.atEnd l) = .error .sizeOverflow)
    (hover : 4294967296 ≤ (Node.dir a e ch).recordSize env) (l : List Byte) :
    Node.toMemory env (.dir a e ch) (Bitstream.atEnd l) = .error .sizeOverflow := by
  by_cases hall : ∀ c ∈ ch, c.recordSize env < 4294967296
  · rw [recordSize_eq] at hover
    exact Node.toMemory_dir_overflow env a e ch hkids hall
      (by simp only [UINT32_MAX]; omega) l
  · have hex : ∃ c ∈ ch, 4294967296 ≤ c.recordSize env := by
      by_contra hcon
      apply hall
      intro c hc
      by_contra hlt
      exact hcon ⟨c, hc, by omega⟩
    simp only [Node.toMemory]
    apply rtti_write_with_size_header_error
    rw [writeBytes_atEnd]
    apply dir_writePayload_error
    intro sz
    exact writeChildren_overflow_atEnd env ch
      (fun c hc => tagMatches_of_forall c (hkids c hc))
      (fun c hc hfit => node_toMemory_atEnd env c (hkids c hc) hfit)
      herr hex sz _

/-- A record that does not fit 32 bits is not written: `toMemory` fails on the size. -/
theorem node_toMemory_overflow (env : Env) : ∀ n : Node, n.Forall Node.TagMatches →
    4294967296 ≤ n.recordSize env → ∀ l,
    Node.toMemory env n (Bitstream.atEnd l) = .error .sizeOverflow := by
  intro n
  induction n using Node.induction with
  | hfile a f =>
    intro _ hover l
    rw [recordSize_eq] at hover
    simp only [Node.payloadBytes] at hover
    simp only [Node.toMemory, FileEntry.toMemory]
    exact rtti_write_with_size_header_overflow l (FileEntry.payloadBytes env f)
      ((FileEntry.payloadBytes env f).length % 4294967296) _
      (by rw [file_writePayload_atEnd]) (by simp only [UINT32_MAX]; omega)
  | hdir a e ch ih =>
    intro hall hover l
    simp only [Node.Forall] at hall
    have hkids := (childrenForall_iff _ _).mp hall.2
    exact dir_toMemory_overflow_step env a e ch hkids
      (fun c hc hbig => ih c hc (hkids c hc) hbig) hover l

/-- A directory entry, its children carrying the tags of their classes, whose record
does not fit 32 bits: `toMemory` fails on the size. -/
theorem dir_toMemory_overflow (env : Env) (d : DirectoryEntry) (a : Nat)
    (hkids : ChildrenForall Node.TagMatches d.mChildren)
    (hover : 4294967296 ≤ (d.toNode a).recordSize env) (l : List Byte) :
    DirectoryEntry.toMemory env d (Bitstream.atEnd l) = .error .sizeOverflow := by
  have hk := (childrenForall_iff _ _).mp hkids
  rw [DirectoryEntry.toMemory_eq env d a]
  exact dir_toMemory_overflow_step env a _ _ hk
    (fun c hc hbig => node_toMemory_overflow env c (hk c hc) hbig) hover l

/-- A file entry whose record does not fit 32 bits: `toMemory` fails on the size. -/
theorem file_toMemory_overflow (env : Env) (f : FileEntry) (a : Nat)
    (hover : 4294967296 ≤ (Node.file a f).recordSize env) (l : List Byte) :
    FileEntry.toMemory env f (Bitstream.atEnd l) = .error .sizeOverflow := by
  rw [recordSize_eq] at hover
  simp only [Node.payloadBytes] at hover
  simp only [FileEntry.toMemory]
  exact rtti_write_with_size_header_overflow l (FileEntry.payloadBytes env f)
    ((FileEntry.payloadBytes env f).length % 4294967296) _
    (by rw [file_writePayload_atEnd]) (by simp only [UINT32_MAX]; omega)

theorem Node.encode_eq (env : Env) (n : Node) (htag : n.Forall Node.TagMatches)
    (hfit : n.recordSize env < 4294967296) : n.encode env = n.recordBytes env := by
  have h := node_toMemory_atEnd env n htag hfit []
  simp only [Bitstream.atEnd, List.length_nil, List.nil_append] at h
  simp [Node.encode, h]

theorem map_encode_join (env : Env) (ch : List Node)
    (hkids : ∀ c ∈ ch, c.Forall Node.TagMatches)
    (hsub : ∀ c ∈ ch, c.recordSize env < 4294967296) :
    (ch.map (Node.encode env)).flatten = childrenBytes env ch := by
  induction ch with
  | nil => simp [childrenBytes]
  | cons c cs ih =>
    rw [List.map_cons, List.flatten_cons, childrenBytes_cons,
      Node.encode_eq env c (hkids c (List.mem_cons_self _ _)) (hsub c (List.mem_cons_self _ _)),
      ih (fun d hd => hkids d (List.mem_cons_of_mem _ hd))
        (fun d hd => hsub d (List.mem_cons_of_mem _ hd))]

/-- A fact that holds of every record within 32 bits whose nodes carry the tags of
their classes holds of every node below such a record. -/
theorem forall_of_fits (env : Env) (Q : Node → Prop)
    (hQ : ∀ n : Node, n.Forall Node.TagMatches → n.recordSize env < 4294967296 → Q n) :
    ∀ n : Node, n.Forall Node.TagMatches → n.recordSize env < 4294967296 → n.Forall Q := by
  intro n
  induction n using Node.induction with
  | hfile a f =>
    intro ht hfit
    simp only [Node.Forall]
    exact hQ _ ht hfit
  | hdir a e ch ih =>
    intro ht hfit
    have hall := ht
    simp only [Node.Forall] at hall ⊢
    have hkids := (childrenForall_iff _ _).mp hall.2
    refine ⟨hQ _ ht hfit, (childrenForall_iff _ _).mpr ?_⟩
    intro c hc
    apply ih c hc (hkids c hc)
    have h1 := recordBytes_le_childrenBytes env ch c hc
    rw [recordSize_eq] at hfit
    simp only [Node.payloadBytes, List.length_append] at hfit
    simp only [Node.recordSize]
    omega

theorem Node.getDynamicSize_eq_encode (env : Env) (debug : Bool) (n : Node)
    (ht : n.Forall Node.TagMatches) (hfit : n.recordSize env < 4294967296) :
    Node.getDynamicSize env debug n = .ok (n.encode env).length := by
  rw [Node.encode_eq env n ht hfit]
  have h := computedSize_eq_recordSize env n hfit
  rw [Node.getDynamicSize_fits env debug n ht (by simp only [UINT32_MAX]; omega), h]
  rfl

/-- C2. Size prediction is exact. For a file entry and for a directory tree whose
records fit 32 bits (the children carrying the tags of their classes),
`getDynamicSize` returns, in either build, the number of bytes `toMemory` appends to
the stream, header included; and below a directory the same holds of every node:
its `getDynamicSize` is the length of its own `toMemory` output. -/
theorem C2_getDynamicSize_predicts_toMemory (env : Env) (debug : Bool) (f : FileEntry)
    (d : DirectoryEntry) (l : List Byte)
    (hf : (Node.file 0 f).recordSize env < 4294967296)
    (hkids : ChildrenForall Node.TagMatches d.mChildren)
    (hd : (d.toNode 0).recordSize env < 4294967296) :
    (∃ bytes, FileEntry.toMemory env f (Bitstream.atEnd l)
        = .ok (bytes.length, Bitstream.atEnd (l ++ bytes)) ∧
      FileEntry.getDynamicSize env debug f = .ok bytes.length) ∧
    (∃ bytes, DirectoryEntry.toMemory env d (Bitstream.atEnd l)
        = .ok (bytes.length, Bitstream.atEnd (l ++ bytes)) ∧
      DirectoryEntry.getDynamicSize env debug d = .ok bytes.length) ∧
    ChildrenForall (fun c => Node.getDynamicSize env debug c = .ok (c.encode env).length)
      d.mChildren := by
  have hk := (childrenForall_iff _ _).mp hkids
  have hd2 := hd
  rw [recordSize_eq] at hd2
  simp only [DirectoryEntry.toNode, Node.payloadBytes, List.length_append] at hd2
  refine ⟨⟨(Node.file 0 f).recordBytes env, file_toMemory_atEnd env f 0 hf l, ?_⟩,
    ⟨(d.toNode 0).recordBytes env, dir_toMemory_atEnd env d 0 hkids hd l, ?_⟩, ?_⟩
  · have h := computedSize_eq_recordSize env _ hf
    have hfile : FileEntry.getDynamicSize env debug f
        = Node.getDynamicSize env debug (.file 0 f) := by simp [Node.getDynamicSize]
    rw [hfile]
    have hc : (Node.file 0 f).computedSize env ≤ UINT32_MAX := by
      simp only [UINT32_MAX]; omega
    have hfits : ∀ n : Node, n.computedSize env ≤ UINT32_MAX → ∀ a g, n = .file a g →
        Node.getDynamicSize env debug n = .ok (n.computedSize env) := by
      intro n hn a g hng
      subst hng
      simp only [Node.computedSize, UINT32_MAX] at hn
      have h1 : (4 + 4 + rtti_size_bytes (env.pathBytes g.path)
        + rtti_size_bytes (env.wstringBytes (env.toWide g.elementName))
        + rtti_size_bytes (env.timeBytes g.lastUpdateTime)) % 18446744073709551616
          = 4 + 4 + rtti_size_bytes (env.pathBytes g.path)
        + rtti_size_bytes (env.wstringBytes (env.toWide g.elementName))
        + rtti_size_bytes (env.timeBytes g.lastUpdateTime) := Nat.mod_eq_of_lt (by omega)
      simp only [Node.getDynamicSize, FileEntry.getDynamicSize, Node.computedSize, h1, UINT32_MAX]
      have h2 : ¬ (4 + 4 + rtti_size_bytes (env.pathBytes g.path)
        + rtti_size_bytes (env.wstringBytes (env.toWide g.elementName))
        + rtti_size_bytes (env.timeBytes g.lastUpdateTime) > 4294967295) := by omega
      simp only [h2, decide_False, Bool.and_false, Bool.false_eq_true, if_false, Except.ok.injEq]
      omega
    rw [hfits _ hc 0 f rfl, h]
    rfl
  · rw [DirectoryEntry.getDynamicSize_eq env debug d 0]
    have h := computedSize_eq_recordSize env _ hd
    have hsub : ∀ c ∈ d.mChildren, Node.getDynamicSize env debug c = .ok (c.computedSize env) := by
      intro c hc
      apply Node.getDynamicSize_fits env debug c (hk c hc)
      have h1 := recordBytes_le_childrenBytes env d.mChildren c hc
      have h2 : c.recordSize env < 4294967296 := by simp only [Node.recordSize]; omega
      rw [computedSize_eq_recordSize env c h2]
      simp only [UINT32_MAX]; omega
    have hc : (d.toNode 0).computedSize env ≤ 4294967295 := by omega
    simp only [DirectoryEntry.toNode] at h hc ⊢
    simp only [Node.computedSize] at hc
    have h1 : ((4 + 4 + rtti_size_bytes (env.pathBytes d.path)
      + rtti_size_bytes (env.wstringBytes (env.toWide d.elementName))) % 18446744073709551616
        + 4) % 18446744073709551616
        = 4 + 4 + rtti_size_bytes (env.pathBytes d.path)
      + rtti_size_bytes (env.wstringBytes (env.toWide d.elementName)) + 4 := by omega
    simp only [Node.getDynamicSize, h1]
    rw [sizeChildren_exact env debug d.mChildren
      (fun c hc => tagMatches_of_forall c (hk c hc)) hsub _ (by omega)]
    have h2 : ¬ (4 + 4 + rtti_size_bytes (env.pathBytes d.path)
      + rtti_size_bytes (env.wstringBytes (env.toWide d.elementName)) + 4
      + childrenComputedSize env d.mChildren > 4294967295) := by omega
    simp only [UINT32_MAX, h2, decide_False, Bool.and_false,
      Bool.false_eq_true, if_false, Except.ok.injEq]
    simp only [Node.computedSize, Node.recordSize] at h
    omega
  · rw [childrenForall_iff]
    intro c hc
    apply forall_of_fits env _ (Node.getDynamicSize_eq_encode env debug) c (hk c hc)
    have h1 := recordBytes_le_childrenBytes env d.mChildren c hc
    simp only [Node.recordSize]
    omega

theorem sampleRoot_tagged : ChildrenForall Node.TagMatches sampleRoot.mChildren := by
  simp [ChildrenForall, Node.Forall, Node.TagMatches, sampleRoot, sampleSub, sampleFileA,
    sampleFileB, sampleFileC]

/-- Witness of C2 on the scenario tree with the reference collaborators. -/
theorem C2_getDynamicSize_predicts_toMemory_witness :
    (Node.file 0 sampleFileA).recordSize env0 < 4294967296 ∧
    ChildrenForall Node.TagMatches sampleRoot.mChildren ∧
    (sampleRoot.toNode 0).recordSize env0 < 4294967296 ∧
    ((∃ bytes, FileEntry.toMemory env0 sampleFileA (Bitstream.atEnd [])
        = .ok (bytes.length, Bitstream.atEnd ([] ++ bytes)) ∧
      FileEntry.getDynamicSize env0 true sampleFileA = .ok bytes.length) ∧
    (∃ bytes, DirectoryEntry.toMemory env0 sampleRoot (Bitstream.atEnd [])
        = .ok (bytes.length, Bitstream.atEnd ([] ++ bytes)) ∧
      DirectoryEntry.getDynamicSize env0 true sampleRoot = .ok bytes.length) ∧
    ChildrenForall (fun c => Node.getDynamicSize env0 true c = .ok (c.encode env0).length)
      sampleRoot.mChildren) :=
  have h1 : (Node.file 0 sampleFileA).recordSize env0 < 4294967296 := by decide
  have h3 : (sampleRoot.toNode 0).recordSize env0 < 4294967296 := by decide
  ⟨h1, sampleRoot_tagged, h3,
    C2_getDynamicSize_predicts_toMemory env0 true sampleFileA sampleRoot [] h1
      sampleRoot_tagged h3⟩

/-- C3. Wire layout of a directory record. For every directory tree `d`, the children
carrying the tags of their classes, `toMemory` appends exactly
`[u32 S][tag][path][wide name][u32 child count][record of child 0]…`, the children's
records in array order and each the child's own `toMemory` output; `S`, the header
value and also the value returned, is the byte length of the whole record, header
included, and the count is `mChildren.size()`. The one other outcome is that of a
record beyond the range of the 32-bit header: `toMemory` fails and no record is
produced. -/
theorem C3_directory_record_layout (env : Env) (d : DirectoryEntry) (l : List Byte)
    (hkids : ChildrenForall Node.TagMatches d.mChildren) :
    (∃ S, S < 4294967296 ∧
      DirectoryEntry.toMemory env d (Bitstream.atEnd l)
        = .ok (S, Bitstream.atEnd (l ++ (u32Bytes S ++ (u32Bytes d.type ++ (env.pathBytes d.path ++
          (env.wstringBytes (env.toWide d.elementName) ++ (u32Bytes d.mChildren.length ++
            (d.mChildren.map (Node.encode env)).flatten))))))) ∧
      S = (u32Bytes S ++ (u32Bytes d.type ++ (env.pathBytes d.path ++
          (env.wstringBytes (env.toWide d.elementName) ++ (u32Bytes d.mChildren.length ++
            (d.mChildren.map (Node.encode env)).flatten))))).length) ∨
    (4294967296 ≤ (d.toNode 0).recordSize env ∧
      DirectoryEntry.toMemory env d (Bitstream.atEnd l) = .error .sizeOverflow) := by
  by_cases hfit : (d.toNode 0).recordSize env < 4294967296
  · left
    have hk := (childrenForall_iff _ _).mp hkids
    have hfit2 := hfit
    rw [recordSize_eq] at hfit2
    simp only [DirectoryEntry.toNode, Node.payloadBytes, List.length_append] at hfit2
    have hsub : ∀ c ∈ d.mChildren, c.recordSize env < 4294967296 := by
      intro c hc
      have h1 := recordBytes_le_childrenBytes env d.mChildren c hc
      simp only [Node.recordSize]
      omega
    rw [map_encode_join env d.mChildren hk hsub]
    refine ⟨(d.toNode 0).recordSize env, hfit, ?_, ?_⟩
    · rw [dir_toMemory_atEnd env d 0 hkids hfit, recordSize_eq]
      simp only [Node.recordBytes, DirectoryEntry.toNode, Node.payloadBytes,
        LibraryEntry.fieldBytes, List.append_assoc]
    · simp only [Node.recordSize, Node.recordBytes, DirectoryEntry.toNode, Node.payloadBytes,
        LibraryEntry.fieldBytes, List.length_append, u32Bytes_length]
      omega
  · right
    exact ⟨by omega, dir_toMemory_overflow env d 0 hkids (by omega) l⟩

theorem bigPath_length : bigPath.length = 2147483648 := by
  rw [bigPath, List.length_replicate]

theorem wideUnitBytes_length (w : WString) : (wideUnitBytes w).length = 2 * w.length := by
  induction w with
  | nil => rfl
  | cons c cs ih => simp only [wideUnitBytes, List.length_cons, ih]; omega

theorem leBytes_length (k n : Nat) : (leBytes k n).length = k := by
  induction k generalizing n with
  | zero => rfl
  | succ k ih => simp only [leBytes, List.length_cons, ih]

theorem env0_file_payload_length (f : FileEntry) :
    (FileEntry.payloadBytes env0 f).length
      = 4 + ((f.path.length + 4) + ((2 * f.elementName.length + 4) + 8)) := by
  simp only [FileEntry.payloadBytes, env0, framedBytes, List.length_append, u32Bytes_length,
    wideUnitBytes_length, leBytes_length, List.length_map]
  omega

theorem env0_dir_field_length (e : LibraryEntry) (count : Nat) :
    (LibraryEntry.fieldBytes env0 e count).length
      = 4 + ((e.path.length + 4) + ((2 * e.elementName.length + 4) + 4)) := by
  simp only [LibraryEntry.fieldBytes, env0, framedBytes, List.length_append, u32Bytes_length,
    wideUnitBytes_length, List.length_map]
  omega

theorem bigFile_payload_length (a : Nat) :
    (Node.payloadBytes env0 (.file a bigFile)).length = 2147483668 := by
  have h := env0_file_payload_length bigFile
  have hp : bigFile.path.length = 2147483648 := bigPath_length
  have hn : bigFile.elementName.length = 0 := rfl
  simp only [Node.payloadBytes]
  omega

theorem childrenBytes_cons_length (env : Env) (c : Node) (cs : List Node) :
    (childrenBytes env (c :: cs)).length
      = (Node.payloadBytes env c).length + 4 + (childrenBytes env cs).length := by
  rw [childrenBytes_cons, List.length_append, recordBytes_length]

theorem bigDir_children_length : (childrenBytes env0 bigDir.mChildren).length = 4294967344 := by
  have h1 := bigFile_payload_length 1
  have h2 := bigFile_payload_length 2
  have e : bigDir.mChildren = [.file 1 bigFile, .file 2 bigFile] := rfl
  rw [e, childrenBytes_cons_length, childrenBytes_cons_length, h1, h2]
  rfl

theorem payloadBytes_dir_length (env : Env) (a : Nat) (e : LibraryEntry) (ch : List Node) :
    (Node.payloadBytes env (.dir a e ch)).length
      = (LibraryEntry.fieldBytes env e ch.length).length + (childrenBytes env ch).length := by
  rw [Node.payloadBytes, List.length_append]

theorem bigDir_payload_length :
    (Node.payloadBytes env0 (.dir 0 bigDir.toLibraryEntry bigDir.mChildren)).length
      = 4294967360 := by
  rw [payloadBytes_dir_length, env0_dir_field_length, bigDir_children_length]
  rfl

theorem bigDir_children_tagged : ∀ c ∈ bigDir.mChildren, c.Forall Node.TagMatches := by
  intro c hc
  simp only [bigDir, List.mem_cons, List.mem_singleton, List.not_mem_nil, or_false] at hc
  rcases hc with h | h <;> subst h <;> simp [Node.Forall, Node.TagMatches, bigFile]

theorem bigDir_children_fit : ∀ c ∈ bigDir.mChildren, c.recordSize env0 < 4294967296 := by
  intro c hc
  simp only [bigDir, List.mem_cons, List.mem_singleton, List.not_mem_nil, or_false] at hc
  rcases hc with h | h <;> subst h <;> rw [recordSize_eq, bigFile_payload_length] <;> decide

/-- The oversized directory, a directory of two files with paths of `2^31` bytes whose
record takes `2^32 + 68` bytes: `toMemory` fails on the size. -/
theorem bigDir_toMemory_overflow (l : List Byte) :
    DirectoryEntry.toMemory env0 bigDir (Bitstream.atEnd l) = .error .sizeOverflow := by
  rw [DirectoryEntry.toMemory_eq env0 bigDir 0, DirectoryEntry.toNode]
  exact Node.toMemory_dir_overflow env0 0 bigDir.toLibraryEntry bigDir.mChildren
    bigDir_children_tagged bigDir_children_fit
    (by rw [bigDir_payload_length]; decide) l

/-- Witness of C3 on the scenario tree, whose record fits 32 bits. -/
theorem C3_directory_record_layout_witness :
    ChildrenForall Node.TagMatches sampleRoot.mChildren ∧
    (sampleRoot.toNode 0).recordSize env0 < 4294967296 ∧
    ((∃ S, S < 4294967296 ∧
      DirectoryEntry.toMemory env0 sampleRoot (Bitstream.atEnd [])
        = .ok (S, Bitstream.atEnd ([] ++ (u32Bytes S ++ (u32Bytes sampleRoot.type ++
          (env0.pathBytes sampleRoot.path ++
          (env0.wstringBytes (env0.toWide sampleRoot.elementName) ++
          (u32Bytes sampleRoot.mChildren.length ++
            (sampleRoot.mChildren.map (Node.encode env0)).flatten))))))) ∧
      S = (u32Bytes S ++ (u32Bytes sampleRoot.type ++ (env0.pathBytes sampleRoot.path ++
          (env0.wstringBytes (env0.toWide sampleRoot.elementName) ++
          (u32Bytes sampleRoot.mChildren.length ++
            (sampleRoot.mChildren.map (Node.encode env0)).flatten))))).length) ∨
    (4294967296 ≤ (sampleRoot.toNode 0).recordSize env0 ∧
      DirectoryEntry.toMemory env0 sampleRoot (Bitstream.atEnd []) = .error .sizeOverflow)) :=
  ⟨sampleRoot_tagged, by decide,
    C3_directory_record_layout env0 sampleRoot [] sampleRoot_tagged⟩

theorem skipBytes_split (pre bytes rest : List Byte) :
    (Bitstream.split pre (bytes ++ rest)).skipBytes bytes.length
      = .ok (Bitstream.split (pre ++ bytes) rest) := by
  simp [Bitstream.split, Bitstream.skipBytes]

theorem seek_split (pre mid rest : List Byte) :
    (Bitstream.split (pre ++ mid) rest).seek pre.length
      = .ok (Bitstream.split pre (mid ++ rest)) := by
  simp [Bitstream.split, Bitstream.seek]

theorem peekChildType_split (pre rest : List Byte) (h t : Nat) (ht : t < 4294967296)
    (hpre : pre.length < 4294967296) :
    peekChildType (Bitstream.split pre (u32Bytes h ++ (u32Bytes t ++ rest)))
      = .ok (t, Bitstream.split pre (u32Bytes h ++ (u32Bytes t ++ rest))) := by
  have h1 := skipBytes_split pre (u32Bytes h) (u32Bytes t ++ rest)
  rw [u32Bytes_length] at h1
  have h2 := rtti_read_u32_split (pre ++ u32Bytes h) rest t ht
  have h3 := seek_split pre (u32Bytes h ++ u32Bytes t) rest
  simp only [List.append_assoc] at h2 h3
  simp only [peekChildType, h1, h2, Bitstream.tell]
  have hc : (Bitstream.split pre (u32Bytes h ++ (u32Bytes t ++ rest))).cursor = pre.length := rfl
  rw [hc, Nat.mod_eq_of_lt hpre, h3]

/-- The peek on a record that starts at any offset: the cursor comes back at the
offset modulo `2^32`. -/
theorem peekChildType_split_wrapped (pre rest : List Byte) (h t : Nat) (ht : t < 4294967296) :
    peekChildType (Bitstream.split pre (u32Bytes h ++ (u32Bytes t ++ rest)))
      = .ok (t, ⟨pre ++ (u32Bytes h ++ (u32Bytes t ++ rest)), pre.length % 4294967296⟩) := by
  have h1 := skipBytes_split pre (u32Bytes h) (u32Bytes t ++ rest)
  rw [u32Bytes_length] at h1
  have h2 := rtti_read_u32_split (pre ++ u32Bytes h) rest t ht
  simp only [List.append_assoc] at h2
  simp only [peekChildType, h1, h2, Bitstream.tell]
  have hc : (Bitstream.split pre (u32Bytes h ++ (u32Bytes t ++ rest))).cursor = pre.length := rfl
  rw [hc]
  have hle : pre.length % 4294967296
      ≤ (Bitstream.split (pre ++ (u32Bytes h ++ u32Bytes t)) rest).data.length := by
    have := Nat.mod_le pre.length 4294967296
    simp only [Bitstream.split, List.length_append]
    omega
  simp only [Bitstream.seek, if_pos hle]
  simp only [Bitstream.split, List.append_assoc]

theorem FileEntry.fromMemory_split (env : Env) (f data : FileEntry) (h : Nat)
    (pre rest : List Byte) (hh : h < 4294967296) (ht : f.type < 4294967296)
    (hrt : f.toLibraryEntry.FieldsRoundTrip env)
    (htime : RoundTrips env.timeBytes env.timeRead f.lastUpdateTime) :
    FileEntry.fromMemory env data
        (Bitstream.split pre (u32Bytes h ++ (FileEntry.payloadBytes env f ++ rest)))
      = .ok (h, { toLibraryEntry := f.toLibraryEntry.decoded env data.parent,
                  lastUpdateTime := f.lastUpdateTime },
          Bitstream.split (pre ++ (u32Bytes h ++ FileEntry.payloadBytes env f)) rest) := by
  obtain ⟨hpath, hname, hconv⟩ := hrt
  simp only [FileEntry.payloadBytes, List.append_assoc]
  simp only [FileEntry.fromMemory]
  rw [rtti_read_u32_split pre _ h hh]
  simp only []
  rw [rtti_read_u32_split _ _ f.type ht]
  simp only []
  rw [readWith_split env.pathRead _ _ _ f.path (hpath _)]
  simp only []
  rw [readWith_split env.wstringRead _ _ _ _ (hname _)]
  simp only []
  rw [readWith_split env.timeRead _ _ _ _ (htime _)]
  simp only [hconv, LibraryEntry.decoded, List.append_assoc]

theorem persistedChildren_append (xs ys : List Node) :
    persistedChildren (xs ++ ys) = persistedChildren xs ++ persistedChildren ys := by
  induction xs with
  | nil => simp [persistedChildren]
  | cons x xs ih => simp [persistedChildren, ih]

theorem persistedChildren_length (xs : List Node) :
    (persistedChildren xs).length = xs.length := by
  induction xs with
  | nil => simp [persistedChildren]
  | cons x xs ih => simp [persistedChildren, ih]

theorem childrenBytes_cons_append (env : Env) (c : Node) (cs : List Node) (rest : List Byte) :
    childrenBytes env (c :: cs) ++ rest
      = u32Bytes ((Node.payloadBytes env c).length + 4)
          ++ (Node.payloadBytes env c ++ (childrenBytes env cs ++ rest)) := by
  simp only [childrenBytes, List.append_assoc]

theorem peekChildType_record (env : Env) (c : Node) (pre rest : List Byte) (h : Nat)
    (ht : c.base.type < 4294967296) (hpre : pre.length < 4294967296) :
    peekChildType (Bitstream.split pre (u32Bytes h ++ (Node.payloadBytes env c ++ rest)))
      = .ok (c.base.type,
          Bitstream.split pre (u32Bytes h ++ (Node.payloadBytes env c ++ rest))) := by
  cases c with
  | file a f =>
    simp only [Node.payloadBytes, FileEntry.payloadBytes, List.append_assoc, Node.base]
    exact peekChildType_split pre _ h f.type ht hpre
  | dir a e k =>
    simp only [Node.payloadBytes, LibraryEntry.fieldBytes, List.append_assoc, Node.base]
    exact peekChildType_split pre _ h e.type ht hpre

theorem readChildren_split (env : Env)
    (readDir : Nat → DirectoryEntry → Nat → Bitstream →
      Except Err (Nat × DirectoryEntry × Nat × Bitstream))
    (self : Nat) (ch : List Node)
    (htag : ∀ c ∈ ch, c.TagMatches) (hrt : ∀ c ∈ ch, c.FieldsRoundTrip env)
    (hfit : ∀ c ∈ ch, c.recordSize env < 4294967296)
    (ihdir : ∀ c ∈ ch, ∀ a e k, c = .dir a e k → DecodesDir env readDir e k) :
    ∀ (data : DirectoryEntry) (next : Nat) (pre rest : List Byte),
      pre.length + (childrenBytes env ch).length ≤ 4294967296 →
      ∃ ch' next', readChildren env readDir self ch.length data next
          (Bitstream.split pre (childrenBytes env ch ++ rest))
        = .ok ({ data with mChildren := data.mChildren ++ ch' }, next',
            Bitstream.split (pre ++ childrenBytes env ch) rest) ∧
        persistedChildren ch' = persistedChildren ch := by
  induction ch with
  | nil =>
    intro data next pre rest _
    exact ⟨[], next, by simp [readChildren, childrenBytes], rfl⟩
  | cons c cs ihc =>
    intro data next pre rest hoff
    rw [childrenBytes_cons_length] at hoff
    have hpre : pre.length < 4294967296 := by omega
    have htc := htag c (List.mem_cons_self _ _)
    have hrc := hrt c (List.mem_cons_self _ _)
    have hfc := hfit c (List.mem_cons_self _ _)
    have ihcs := ihc (fun d hd => htag d (List.mem_cons_of_mem _ hd))
      (fun d hd => hrt d (List.mem_cons_of_mem _ hd))
      (fun d hd => hfit d (List.mem_cons_of_mem _ hd))
      (fun d hd => ihdir d (List.mem_cons_of_mem _ hd))
    rw [recordSize_eq] at hfc
    cases c with
    | file a f =>
      have ht : f.type = LibraryEntryType.File := htc
      have ht32 : (Node.file a f).base.type < 4294967296 := by
        simp only [Node.base, ht]; decide
      obtain ⟨hfields, htime⟩ := hrc
      have hfm := FileEntry.fromMemory_split env f FileEntry.empty
        ((Node.payloadBytes env (.file a f)).length + 4) pre (childrenBytes env cs ++ rest)
        hfc (by rw [ht]; decide) hfields htime
      obtain ⟨ch', next', hrd, hper⟩ := ihcs
        { data with mChildren := data.mChildren ++ [Node.file next (f.decoded env (some self))] }
        (next + 1)
        (pre ++ (u32Bytes ((Node.payloadBytes env (.file a f)).length + 4)
          ++ FileEntry.payloadBytes env f)) rest
        (by
          simp only [Node.payloadBytes] at hoff
          simp only [List.length_append, u32Bytes_length]
          omega)
      refine ⟨Node.file next (f.decoded env (some self)) :: ch', next', ?_, ?_⟩
      · rw [List.length_cons, readChildren, childrenBytes_cons_append,
          peekChildType_record env _ pre _ _ ht32 hpre]
        simp only [Node.base]
        rw [if_pos ht]
        have hp : Node.payloadBytes env (.file a f) = FileEntry.payloadBytes env f := by
          simp only [Node.payloadBytes]
        rw [hp] at hfm ⊢
        rw [hfm]
        simp only []
        refine Eq.trans hrd ?_
        simp only [List.append_assoc, List.singleton_append, childrenBytes, hp]
      · simp only [persistedChildren, hper, Node.persisted, LibraryEntry.decoded,
          FileEntry.decoded]
    | dir a e k =>
      have ht : e.type = LibraryEntryType.Directory := htc
      have hne : ¬ (e.type = LibraryEntryType.File) := by rw [ht]; decide
      have ht32 : (Node.dir a e k).base.type < 4294967296 := by
        simp only [Node.base, ht]; decide
      have hdec := ihdir (.dir a e k) (List.mem_cons_self _ _) a e k rfl
      have hpay : Node.payloadBytes env (.dir a e k) = Node.payloadBytes env (.dir 0 e k) :=
        payloadBytes_dir_addr env a 0 e k
      rw [hpay] at hfc hoff
      obtain ⟨k', next1, hrdir, hperk⟩ := hdec next DirectoryEntry.empty (next + 1) pre
        (childrenBytes env cs ++ rest) ((Node.payloadBytes env (.dir 0 e k)).length + 4) hfc
        (by omega)
      obtain ⟨ch', next', hrd, hper⟩ := ihcs
        { data with mChildren := data.mChildren ++
          [Node.dir next (e.decoded env (some self)) k'] }
        next1
        (pre ++ (u32Bytes ((Node.payloadBytes env (.dir 0 e k)).length + 4)
          ++ Node.payloadBytes env (.dir 0 e k))) rest
        (by
          simp only [List.length_append, u32Bytes_length]
          omega)
      refine ⟨Node.dir next (e.decoded env (some self)) k' :: ch', next', ?_, ?_⟩
      · rw [List.length_cons, readChildren, childrenBytes_cons_append,
          peekChildType_record env _ pre _ _ ht32 hpre]
        simp only [Node.base]
        rw [if_neg hne, if_pos ht, hpay, hrdir]
        simp only []
        refine Eq.trans ?_ (Eq.trans hrd ?_)
        · simp only [DirectoryEntry.empty, LibraryEntry.empty, LibraryEntry.decoded,
            List.nil_append]
        · simp only [List.append_assoc, List.singleton_append, childrenBytes, hpay]
      · simp only [persistedChildren, hper, Node.persisted, LibraryEntry.decoded, hperk]

theorem length_le_childrenBytes (env : Env) (k : List Node) :
    k.length ≤ (childrenBytes env k).length := by
  induction k with
  | nil => simp
  | cons c cs ih =>
    rw [childrenBytes_cons_length, List.length_cons]
    omega

theorem fieldBytes_length_ge (env : Env) (e : LibraryEntry) (n : Nat) :
    8 ≤ (LibraryEntry.fieldBytes env e n).length := by
  simp only [LibraryEntry.fieldBytes, List.length_append, u32Bytes_length]
  omega

/-- One level of `fromMemory` on the record of a directory, given what the loop needs
of the level below. -/
theorem fromMemoryAux_dir (env : Env) (fuel : Nat) (e : LibraryEntry) (k : List Node)
    (het : e.type < 4294967296) (hk32 : k.length < 4294967296)
    (hrt : e.FieldsRoundTrip env)
    (htag : ∀ c ∈ k, c.TagMatches) (hrtk : ∀ c ∈ k, c.FieldsRoundTrip env)
    (hfit : ∀ c ∈ k, c.recordSize env < 4294967296)
    (ihdir : ∀ c ∈ k, ∀ a g j, c = .dir a g j →
      DecodesDir env (DirectoryEntry.fromMemoryAux env fuel) g j) :
    DecodesDir env (DirectoryEntry.fromMemoryAux env (fuel + 1)) e k := by
  intro addr data next pre rest h hh hoff
  obtain ⟨hpath, hname, hconv⟩ := hrt
  obtain ⟨k', next', hrd, hper⟩ := readChildren_split env (DirectoryEntry.fromMemoryAux env fuel)
    addr k htag hrtk hfit ihdir
    { toLibraryEntry := e.decoded env data.parent, mChildren := data.mChildren } next
    (pre ++ (u32Bytes h ++ LibraryEntry.fieldBytes env e k.length)) rest
    (by
      simp only [Node.payloadBytes, List.length_append, u32Bytes_length] at hoff ⊢
      omega)
  refine ⟨k', next', ?_, hper⟩
  simp only [Node.payloadBytes, LibraryEntry.fieldBytes, List.append_assoc] at hrd ⊢
  simp only [DirectoryEntry.fromMemoryAux]
  rw [rtti_read_u32_split pre _ h hh]
  simp only []
  rw [rtti_read_u32_split _ _ e.type het]
  simp only []
  rw [readWith_split env.pathRead _ _ _ e.path (hpath _)]
  simp only []
  rw [readWith_split env.wstringRead _ _ _ _ (hname _)]
  simp only []
  rw [rtti_read_u32_split _ _ k.length hk32]
  simp only [hconv, List.append_assoc]
  simp only [LibraryEntry.decoded] at hrd ⊢
  rw [hrd]

theorem Node.Forall.root {P : Node → Prop} {c : Node} (h : c.Forall P) : P c := by
  cases c with
  | file b f => simpa [Node.Forall] using h
  | dir b g k => simp only [Node.Forall] at h; exact h.1

theorem Node.Forall.children {P : Node → Prop} {a : Nat} {e : LibraryEntry} {k : List Node}
    (h : (Node.dir a e k).Forall P) : ∀ c ∈ k, c.Forall P := by
  simp only [Node.Forall] at h
  exact (childrenForall_iff _ _).mp h.2

theorem recordSize_child_lt (env : Env) (a : Nat) (e : LibraryEntry) (k : List Node) (c : Node)
    (hc : c ∈ k) : c.recordSize env + 12 ≤ (Node.dir a e k).recordSize env := by
  have h1 := recordBytes_le_childrenBytes env k c hc
  have h2 := fieldBytes_length_ge env e k.length
  rw [recordSize_eq (n := .dir a e k), payloadBytes_dir_length]
  simp only [Node.recordSize]
  omega

theorem length_lt_of_fits (env : Env) (a : Nat) (e : LibraryEntry) (k : List Node)
    (hfit : (Node.dir a e k).recordSize env < 4294967296) : k.length < 4294967296 := by
  have h1 := length_le_childrenBytes env k
  rw [recordSize_eq, payloadBytes_dir_length] at hfit
  omega

/-- With fuel for the bytes of the record, `fromMemory` decodes the record of a
directory node whose tree is tagged, round-trips its fields and fits 32 bits. -/
theorem decodesDir_of_fits (env : Env) : ∀ n : Node, n.Forall Node.TagMatches →
    n.Forall (Node.FieldsRoundTrip env) → n.recordSize env < 4294967296 →
    ∀ fuel, n.recordSize env ≤ fuel → ∀ a e k, n = .dir a e k →
      DecodesDir env (DirectoryEntry.fromMemoryAux env fuel) e k := by
  intro n
  induction n using Node.induction with
  | hfile b f =>
    intro _ _ _ fuel _ a e k h
    cases h
  | hdir b g ch ih =>
    intro htag hrt hfit fuel hfuel a e k heq
    cases heq
    have hpos := recordSize_eq env (.dir b g ch)
    obtain ⟨f, rfl⟩ : ∃ f, fuel = f + 1 := ⟨fuel - 1, by omega⟩
    have ht : g.type = LibraryEntryType.Directory := htag.root
    have hsub : ∀ c ∈ ch, c.recordSize env < 4294967296 := by
      intro c hc
      have := recordSize_child_lt env b g ch c hc
      omega
    apply fromMemoryAux_dir env f g ch (by rw [ht]; decide)
      (length_lt_of_fits env b g ch hfit) hrt.root
      (fun c hc => (htag.children c hc).root) (fun c hc => (hrt.children c hc).root) hsub
    intro c hc a' g' j heq
    apply ih c hc (htag.children c hc) (hrt.children c hc) (hsub c hc) f _ a' g' j heq
    have := recordSize_child_lt env b g ch c hc
    omega

/-- Decoding with `fromMemory` succeeds on the record of a directory entry that ends
within the first `2^32` bytes of the stream, whatever the header says the record's
size is. -/
theorem DirectoryEntry.fromMemory_decodes (env : Env) (d : DirectoryEntry)
    (htype : d.type < 4294967296)
    (hroot : d.toLibraryEntry.FieldsRoundTrip env)
    (htag : ChildrenForall Node.TagMatches d.mChildren)
    (hrt : ChildrenForall (Node.FieldsRoundTrip env) d.mChildren)
    (hfit : (d.toNode 0).recordSize env < 4294967296) :
    DecodesDir env (DirectoryEntry.fromMemory env) d.toLibraryEntry d.mChildren := by
  have htag2 := (childrenForall_iff _ _).mp htag
  have hrt2 := (childrenForall_iff _ _).mp hrt
  simp only [DirectoryEntry.toNode] at hfit
  have hsub : ∀ c ∈ d.mChildren, c.recordSize env < 4294967296 := by
    intro c hc
    have := recordSize_child_lt env 0 d.toLibraryEntry d.mChildren c hc
    omega
  intro addr data next pre rest h hh hoff
  have hfuel : (Bitstream.split pre (u32Bytes h ++
      (Node.payloadBytes env (.dir 0 d.toLibraryEntry d.mChildren) ++ rest))).data.length
      - (Bitstream.split pre (u32Bytes h ++
      (Node.payloadBytes env (.dir 0 d.toLibraryEntry d.mChildren) ++ rest))).cursor + 1
      = ((Node.dir 0 d.toLibraryEntry d.mChildren).recordSize env + rest.length) + 1 := by
    rw [recordSize_eq]
    simp only [Bitstream.split, List.length_append, u32Bytes_length]
    omega
  simp only [DirectoryEntry.fromMemory]
  rw [hfuel]
  apply fromMemoryAux_dir env _ d.toLibraryEntry d.mChildren htype
    (length_lt_of_fits env 0 _ _ hfit) hroot
    (fun c hc => (htag2 c hc).root) (fun c hc => (hrt2 c hc).root) hsub _ addr data next pre rest
    h hh hoff
  intro c hc a' g' j heq
  apply decodesDir_of_fits env c (htag2 c hc) (hrt2 c hc) (hsub c hc) _ _ a' g' j heq
  have := recordSize_child_lt env 0 d.toLibraryEntry d.mChildren c hc
  omega

/-- A directory record that ends within the first `2^32` bytes of the stream, in
terms of its payload. -/
theorem recordEnd_le (env : Env) (d : DirectoryEntry) (l : List Byte)
    (hoff : l.length + (d.toNode 0).recordSize env ≤ 4294967296) :
    l.length + (4 + (Node.payloadBytes env (.dir 0 d.toLibraryEntry d.mChildren)).length)
      ≤ 4294967296 := by
  rw [recordSize_eq] at hoff
  simp only [DirectoryEntry.toNode] at hoff
  omega

/-! ## The reference collaborators keep their contracts -/

theorem framed_roundTrips (p : List Byte) (h : p.length + 4 < 4294967296) :
    RoundTrips framedBytes framedRead p := by
  intro rest
  have hd := decU32_u32Bytes (p.length + 4) h (p ++ rest)
  simp only [framedBytes, framedRead, List.append_assoc, hd, List.length_append, u32Bytes_length]
  rw [if_pos (by omega)]
  have h4 : List.drop 4 (u32Bytes (p.length + 4) ++ (p ++ rest)) = p ++ rest := by
    exact List.drop_left' (u32Bytes_length _)
  rw [h4, Nat.add_sub_cancel, List.take_left]
  simp only [Option.some.injEq, Prod.mk.injEq, true_and]
  omega

theorem wideUnits_wideUnitBytes (w : WString) (h : ∀ c ∈ w, c < 65536) :
    wideUnits (wideUnitBytes w) = w := by
  induction w with
  | nil => rfl
  | cons c cs ih =>
    have hc := h c (List.mem_cons_self _ _)
    simp only [wideUnitBytes, wideUnits, ih (fun d hd => h d (List.mem_cons_of_mem _ hd)),
      List.cons.injEq, and_true]
    omega

theorem env0_wstring_roundTrips (w : WString) (h : ∀ c ∈ w, c < 65536)
    (hlen : 2 * w.length + 4 < 4294967296) :
    RoundTrips env0.wstringBytes env0.wstringRead w := by
  intro rest
  have hf := framed_roundTrips (wideUnitBytes w) (by rw [wideUnitBytes_length]; omega) rest
  simp only [env0, hf, wideUnits_wideUnitBytes w h]

theorem env0_name_roundTrips (s : String8) (hlen : 2 * s.length + 4 < 4294967296) :
    RoundTrips env0.wstringBytes env0.wstringRead (env0.toWide s) ∧
    env0.fromWide (env0.toWide s) = s := by
  constructor
  · apply env0_wstring_roundTrips
    · intro c hc
      simp only [env0, List.mem_map] at hc
      obtain ⟨b, _, rfl⟩ := hc
      have := b.isLt
      omega
    · simp only [env0, List.length_map]; exact hlen
  · simp only [env0, List.map_map]
    conv => rhs; rw [← List.map_id s]
    apply List.map_congr_left
    intro b _
    apply Fin.ext
    simp only [Function.comp_apply, id_eq]
    exact Nat.mod_eq_of_lt b.isLt

theorem leValue_leBytes (k n : Nat) : leValue (leBytes k n) = n % 256 ^ k := by
  induction k generalizing n with
  | zero => simp [leBytes, leValue, Nat.mod_one]
  | succ k ih =>
    simp only [leBytes, leValue, ih]
    rw [pow_succ', Nat.mod_mul]

theorem env0_time_roundTrips (t : Int) (hlo : -9223372036854775808 ≤ t)
    (hhi : t < 9223372036854775808) :
    RoundTrips env0.timeBytes env0.timeRead t := by
  intro rest
  have h8 : (leBytes 8 (t % 18446744073709551616).toNat).length = 8 := leBytes_length _ _
  have htake : List.take 8 (leBytes 8 (t % 18446744073709551616).toNat ++ rest)
      = leBytes 8 (t % 18446744073709551616).toNat := by
    conv => lhs; rw [← h8]
    exact List.take_left _ _
  simp only [env0, List.length_append, h8, htake, leValue_leBytes]
  rw [if_pos (by omega)]
  have hmod : (t % 18446744073709551616).toNat % 256 ^ 8 = (t % 18446744073709551616).toNat := by
    apply Nat.mod_eq_of_lt
    have : (256 : Nat) ^ 8 = 18446744073709551616 := by norm_num
    omega
  rw [hmod]
  simp only [Option.some.injEq, Prod.mk.injEq, and_true]
  split <;> omega

theorem file_toMemory_congr (env : Env) (f g : FileEntry)
    (h : f.persisted = g.persisted) : FileEntry.toMemory env f = FileEntry.toMemory env g := by
  simp only [FileEntry.persisted, Persisted.file.injEq] at h
  obtain ⟨h1, h2, h3, h4⟩ := h
  have hw : FileEntry.writePayload env f = FileEntry.writePayload env g := by
    funext st
    simp only [FileEntry.writePayload, h1, h2, h3, h4]
  funext s
  simp only [FileEntry.toMemory, hw]

theorem file_getDynamicSize_congr (env : Env) (debug : Bool) (f g : FileEntry)
    (h : f.persisted = g.persisted) :
    FileEntry.getDynamicSize env debug f = FileEntry.getDynamicSize env debug g := by
  simp only [FileEntry.persisted, Persisted.file.injEq] at h
  obtain ⟨h1, h2, h3, h4⟩ := h
  simp only [FileEntry.getDynamicSize, h2, h3, h4]

theorem writeChildren_congr (env : Env) (ch : List Node)
    (ih : ∀ c ∈ ch, ∀ m : Node, c.persisted = m.persisted →
      Node.toMemory env c = Node.toMemory env m) :
    ∀ ch2 : List Node, persistedChildren ch = persistedChildren ch2 →
      ch.length = ch2.length ∧ writeChildren env ch = writeChildren env ch2 := by
  induction ch with
  | nil =>
    intro ch2 h
    cases ch2 with
    | nil => exact ⟨rfl, rfl⟩
    | cons c2 cs2 => simp [persistedChildren] at h
  | cons c cs ihc =>
    intro ch2 h
    cases ch2 with
    | nil => simp [persistedChildren] at h
    | cons c2 cs2 =>
      simp only [persistedChildren, List.cons.injEq] at h
      obtain ⟨hc, hcs⟩ := h
      obtain ⟨hlen, hw⟩ := ihc (fun d hd => ih d (List.mem_cons_of_mem _ hd)) cs2 hcs
      have hm := ih c (List.mem_cons_self _ _) c2 hc
      refine ⟨by simp only [List.length_cons, hlen], ?_⟩
      funext size s
      cases c with
      | file a f =>
        cases c2 with
        | file a2 f2 =>
          have hp := hc
          simp only [Node.persisted, Persisted.file.injEq] at hp
          simp only [writeChildren, Node.base, hp.1, hm, hw]
        | dir a2 e2 k2 => simp [Node.persisted] at hc
      | dir a e k =>
        cases c2 with
        | file a2 f2 => simp [Node.persisted] at hc
        | dir a2 e2 k2 =>
          have hp := hc
          simp only [Node.persisted, Persisted.dir.injEq] at hp
          simp only [writeChildren, Node.base, hp.1, hm, hw]

theorem node_toMemory_congr (env : Env) : ∀ n m : Node, n.persisted = m.persisted →
    Node.toMemory env n = Node.toMemory env m := by
  intro n
  induction n using Node.induction with
  | hfile a f =>
    intro m h
    cases m with
    | file a2 f2 =>
      simp only [Node.toMemory]
      exact file_toMemory_congr env f f2 h
    | dir a2 e2 k2 => simp [Node.persisted] at h
  | hdir a e ch ih =>
    intro m h
    cases m with
    | file a2 f2 => simp [Node.persisted] at h
    | dir a2 e2 k2 =>
      simp only [Node.persisted, Persisted.dir.injEq] at h
      obtain ⟨h1, h2, h3, h4⟩ := h
      obtain ⟨hlen, hw⟩ := writeChildren_congr env ch ih k2 h4
      have hp : DirectoryEntry.writePayload env e ch.length
            (fun size stream => writeChildren env ch size stream)
          = DirectoryEntry.writePayload env e2 k2.length
            (fun size stream => writeChildren env k2 size stream) := by
        funext st
        simp only [DirectoryEntry.writePayload, h1, h2, h3, hlen, hw]
      funext s
      simp only [Node.toMemory, hp]

theorem sizeChildren_congr (env : Env) (debug : Bool) (ch : List Node)
    (ih : ∀ c ∈ ch, ∀ m : Node, c.persisted = m.persisted →
      Node.getDynamicSize env debug c = Node.getDynamicSize env debug m) :
    ∀ ch2 : List Node, persistedChildren ch = persistedChildren ch2 →
      sizeChildren env debug ch = sizeChildren env debug ch2 := by
  induction ch with
  | nil =>
    intro ch2 h
    cases ch2 with
    | nil => rfl
    | cons c2 cs2 => simp [persistedChildren] at h
  | cons c cs ihc =>
    intro ch2 h
    cases ch2 with
    | nil => simp [persistedChildren] at h
    | cons c2 cs2 =>
      simp only [persistedChildren, List.cons.injEq] at h
      obtain ⟨hc, hcs⟩ := h
      have hw := ihc (fun d hd => ih d (List.mem_cons_of_mem _ hd)) cs2 hcs
      have hm := ih c (List.mem_cons_self _ _) c2 hc
      funext acc
      cases c with
      | file a f =>
        cases c2 with
        | file a2 f2 =>
          have hp := hc
          simp only [Node.persisted, Persisted.file.injEq] at hp
          simp only [sizeChildren, Node.base, hp.1, hm, hw]
        | dir a2 e2 k2 => simp [Node.persisted] at hc
      | dir a e k =>
        cases c2 with
        | file a2 f2 => simp [Node.persisted] at hc
        | dir a2 e2 k2 =>
          have hp := hc
          simp only [Node.persisted, Persisted.dir.injEq] at hp
          simp only [sizeChildren, Node.base, hp.1, hm, hw]

theorem node_getDynamicSize_congr (env : Env) (debug : Bool) : ∀ n m : Node,
    n.persisted = m.persisted →
    Node.getDynamicSize env debug n = Node.getDynamicSize env debug m := by
  intro n
  induction n using Node.induction with
  | hfile a f =>
    intro m h
    cases m with
    | file a2 f2 =>
      simp only [Node.getDynamicSize]
      exact file_getDynamicSize_congr env debug f f2 h
    | dir a2 e2 k2 => simp [Node.persisted] at h
  | hdir a e ch ih =>
    intro m h
    cases m with
    | file a2 f2 => simp [Node.persisted] at h
    | dir a2 e2 k2 =>
      simp only [Node.persisted, Persisted.dir.injEq] at h
      obtain ⟨h1, h2, h3, h4⟩ := h
      have hw := sizeChildren_congr env debug ch ih k2 h4
      simp only [Node.getDynamicSize, h2, h3, hw]

theorem DirectoryEntry.persisted_toNode (d : DirectoryEntry) (a : Nat) :
    (d.toNode a).persisted = d.persisted := by
  simp only [DirectoryEntry.toNode, Node.persisted, DirectoryEntry.persisted]

/-- C10. Derived state is never persisted. Two file entries, and two directory
trees, with the same persisted content (type, path, name, timestamp, children
recursively), whatever their back-references, name hashes and addresses: `toMemory`
does the same to any stream and `getDynamicSize` returns the same, in either build. -/
theorem C10_derived_state_not_persisted (env : Env) (debug : Bool) (f g : FileEntry)
    (d d' : DirectoryEntry) (s : Bitstream)
    (hf : f.persisted = g.persisted) (hd : d.persisted = d'.persisted) :
    FileEntry.toMemory env f s = FileEntry.toMemory env g s ∧
    FileEntry.getDynamicSize env debug f = FileEntry.getDynamicSize env debug g ∧
    DirectoryEntry.toMemory env d s = DirectoryEntry.toMemory env d' s ∧
    DirectoryEntry.getDynamicSize env debug d = DirectoryEntry.getDynamicSize env debug d' := by
  have hn : (d.toNode 0).persisted = (d'.toNode 0).persisted := by
    rw [DirectoryEntry.persisted_toNode, DirectoryEntry.persisted_toNode, hd]
  refine ⟨by rw [file_toMemory_congr env f g hf],
    file_getDynamicSize_congr env debug f g hf, ?_, ?_⟩
  · rw [DirectoryEntry.toMemory_eq env d 0, DirectoryEntry.toMemory_eq env d' 0,
      node_toMemory_congr env _ _ hn]
  · rw [DirectoryEntry.getDynamicSize_eq env debug d 0,
      DirectoryEntry.getDynamicSize_eq env debug d' 0, node_getDynamicSize_congr env debug _ _ hn]

/-- Invariants of the decoding loop. `I n data` is to hold with `n` iterations to go:
it passes over a dropped child, over an appended file and over an appended directory
(of which `Q` is known from the recursive call); then it holds at the end. -/
theorem readChildren_invariant (env : Env)
    (readDir : Nat → DirectoryEntry → Nat → Bitstream →
      Except Err (Nat × DirectoryEntry × Nat × Bitstream))
    (self : Nat) (I : Nat → DirectoryEntry → Prop) (Q : Nat → DirectoryEntry → Prop)
    (hrec : ∀ addr next s size cd next' s',
      readDir addr DirectoryEntry.empty next s = .ok (size, cd, next', s') → Q addr cd)
    (hskip : ∀ n data, I (n + 1) data → I n data)
    (hfile : ∀ n data next s size f s', I (n + 1) data →
      FileEntry.fromMemory env FileEntry.empty s = .ok (size, f, s') →
      I n { data with mChildren := data.mChildren ++
        [Node.file next { f with parent := some self }] })
    (hdir : ∀ n data addr cd, I (n + 1) data → Q addr cd →
      I n { data with mChildren := data.mChildren ++
        [Node.dir addr { cd.toLibraryEntry with parent := some self } cd.mChildren] }) :
    ∀ n data next s d' next' s', I n data →
      readChildren env readDir self n data next s = .ok (d', next', s') → I 0 d' := by
  intro n
  induction n with
  | zero =>
    intro data next s d' next' s' hI h
    simp only [readChildren, Except.ok.injEq, Prod.mk.injEq] at h
    rw [← h.1]; exact hI
  | succ n ih =>
    intro data next s d' next' s' hI h
    simp only [readChildren] at h
    split at h
    · cases h
    · rename_i childType s1 hpeek
      split at h
      · split at h
        · cases h
        · rename_i sz f s2 hf
          exact ih _ _ _ _ _ _ (hfile n data next s1 sz f s2 hI hf) h
      · split at h
        · split at h
          · cases h
          · rename_i sz cd next1 s2 hd
            exact ih _ _ _ _ _ _ (hdir n data next cd hI (hrec _ _ _ _ _ _ _ hd)) h
        · exact ih _ _ _ _ _ _ (hskip n data hI) h

/-- A successful `fromMemory` of a file: the fields come from successful reads, the
hash from the name read. -/
theorem FileEntry.fromMemory_ok (env : Env) (data : FileEntry) (s : Bitstream) (size : Nat)
    (f : FileEntry) (s' : Bitstream)
    (h : FileEntry.fromMemory env data s = .ok (size, f, s')) :
    f.elementNameHash = env.bs_hash (env.toLower f.elementName) ∧ f.parent = data.parent ∧
    ∃ s1, rtti_read_u32 s = .ok (size, s1) := by
  simp only [FileEntry.fromMemory] at h
  split at h
  · cases h
  · rename_i sz s1 h1
    split at h
    · cases h
    · split at h
      · cases h
      · split at h
        · cases h
        · split at h
          · cases h
          · simp only [Except.ok.injEq, Prod.mk.injEq] at h
            obtain ⟨hs, hf, _⟩ := h
            subst hs
            subst hf
            exact ⟨rfl, rfl, s1, h1⟩

/-- A successful `fromMemory` of a directory with fuel `fuel + 1`: the base fields
come from successful reads, the hash from the name read, and the children from the
loop run on the count read. -/
theorem DirectoryEntry.fromMemoryAux_ok (env : Env) (fuel self : Nat) (data : DirectoryEntry)
    (next : Nat) (s : Bitstream) (size : Nat) (d' : DirectoryEntry) (next' : Nat)
    (s' : Bitstream)
    (h : DirectoryEntry.fromMemoryAux env (fuel + 1) self data next s
      = .ok (size, d', next', s')) :
    ∃ (base : LibraryEntry) (n : Nat) (s1 : Bitstream),
      base.elementNameHash = env.bs_hash (env.toLower base.elementName) ∧
      base.parent = data.parent ∧
      DirectoryEntry.readCount env s = .ok n ∧
      readChildren env (DirectoryEntry.fromMemoryAux env fuel) self n
        { toLibraryEntry := base, mChildren := data.mChildren } next s1
        = .ok (d', next', s') := by
  simp only [DirectoryEntry.fromMemoryAux] at h
  simp only [DirectoryEntry.readCount]
  split at h
  · cases h
  · rename_i sz s1 h1
    split at h
    · cases h
    · rename_i ty s2 h2
      split at h
      · cases h
      · rename_i p s3 h3
        split at h
        · cases h
        · rename_i w s4 h4
          split at h
          · cases h
          · rename_i n s5 h5
            split at h
            · cases h
            · rename_i d2 next2 s6 h6
              simp only [Except.ok.injEq, Prod.mk.injEq] at h
              obtain ⟨_, hd, hn, hs⟩ := h
              subst hd hn hs
              exact ⟨{ type := ty, path := p, elementName := env.fromWide w,
                       elementNameHash := env.bs_hash (env.toLower (env.fromWide w)),
                       parent := data.parent }, n, s5, rfl, rfl, rfl, h6⟩

theorem childrenParentsOk_append (owner : Nat) (xs : List Node) (c : Node) :
    ChildrenParentsOk owner (xs ++ [c])
      ↔ ChildrenParentsOk owner xs ∧ Node.parentIs owner c ∧ c.ParentsOk := by
  induction xs with
  | nil => simp [ChildrenParentsOk]
  | cons x xs ih =>
    rw [List.cons_append]
    simp only [ChildrenParentsOk]
    rw [ih]
    constructor
    · rintro ⟨h1, h2, h3, h4, h5⟩; exact ⟨⟨h1, h2, h3⟩, h4, h5⟩
    · rintro ⟨⟨h1, h2, h3⟩, h4, h5⟩; exact ⟨h1, h2, h3, h4, h5⟩

/-- After `fromMemory` every node decoded below `data` points back at the directory
holding it, provided the children `data` came with did. -/
theorem fromMemoryAux_parents (env : Env) : ∀ (fuel self : Nat) (data : DirectoryEntry)
    (next : Nat) (s : Bitstream) (size : Nat) (d' : DirectoryEntry) (next' : Nat)
    (s' : Bitstream), ChildrenParentsOk self data.mChildren →
    DirectoryEntry.fromMemoryAux env fuel self data next s = .ok (size, d', next', s') →
    ChildrenParentsOk self d'.mChildren := by
  intro fuel
  induction fuel with
  | zero =>
    intro self data next s size d' next' s' _ h
    simp [DirectoryEntry.fromMemoryAux] at h
  | succ fuel ih =>
    intro self data next s size d' next' s' hdata h
    obtain ⟨base, n, s1, _, _, _, hloop⟩ :=
      DirectoryEntry.fromMemoryAux_ok env fuel self data next s size d' next' s' h
    refine readChildren_invariant env (DirectoryEntry.fromMemoryAux env fuel) self
      (fun _ d => ChildrenParentsOk self d.mChildren)
      (fun addr cd => ChildrenParentsOk addr cd.mChildren)
      ?_ ?_ ?_ ?_ n { toLibraryEntry := base, mChildren := data.mChildren } next s1 d' next' s'
      hdata hloop
    · intro addr nx st sz cd nx' st' hr
      exact ih addr DirectoryEntry.empty nx st sz cd nx' st'
        (by simp [DirectoryEntry.empty, ChildrenParentsOk]) hr
    · intro _ d hI; exact hI
    · intro _ d nx st sz f st' hI _
      exact (childrenParentsOk_append self d.mChildren _).mpr
        ⟨hI, by simp [Node.parentIs], by simp [Node.ParentsOk]⟩
    · intro _ d addr cd hI hQ
      exact (childrenParentsOk_append self d.mChildren _).mpr
        ⟨hI, by simp [Node.parentIs], by simpa [Node.ParentsOk] using hQ⟩

theorem parentsOk_setParent (p : Option Nat) (c : Node) (h : c.ParentsOk) :
    (c.setParent p).ParentsOk := by
  cases c with
  | file a f => simp [Node.setParent, Node.ParentsOk]
  | dir a e k => simpa [Node.setParent, Node.ParentsOk] using h

theorem childrenParentsOk_map_setParent (owner r : Nat) (ch : List Node)
    (h : ChildrenParentsOk owner ch) :
    ChildrenParentsOk r (ch.map (Node.setParent (some r))) := by
  induction ch with
  | nil => simp [ChildrenParentsOk]
  | cons c cs ih =>
    simp only [ChildrenParentsOk] at h
    simp only [List.map_cons, ChildrenParentsOk]
    refine ⟨?_, parentsOk_setParent _ c h.2.1, ih h.2.2⟩
    cases c with
    | file a f => simp [Node.setParent, Node.parentIs]
    | dir a e k => simp [Node.setParent, Node.parentIs]

theorem persistedChildren_map_setParent (p : Option Nat) (ch : List Node) :
    persistedChildren (ch.map (Node.setParent p)) = persistedChildren ch := by
  induction ch with
  | nil => rfl
  | cons c cs ih =>
    simp only [List.map_cons, persistedChildren, ih, List.cons.injEq, and_true]
    cases c with
    | file a f => simp [Node.setParent, Node.persisted]
    | dir a e k => simp [Node.setParent, Node.persisted]

theorem childrenForall_append (P : Node → Prop) (xs : List Node) (c : Node) :
    ChildrenForall P (xs ++ [c]) ↔ ChildrenForall P xs ∧ c.Forall P := by
  simp only [childrenForall_iff, List.mem_append, List.mem_singleton]
  constructor
  · intro h
    exact ⟨fun d hd => h d (Or.inl hd), h c (Or.inr rfl)⟩
  · rintro ⟨h1, h2⟩ d (hd | hd)
    · exact h1 d hd
    · rw [hd]; exact h2

/-- After `fromMemory` of a directory the hash of the entry and of every node decoded
below it is the hash of the node's lower-cased name. -/
theorem fromMemoryAux_hash (env : Env) : ∀ (fuel self : Nat) (data : DirectoryEntry)
    (next : Nat) (s : Bitstream) (size : Nat) (d' : DirectoryEntry) (next' : Nat)
    (s' : Bitstream), ChildrenForall (Node.HashFresh env) data.mChildren →
    DirectoryEntry.fromMemoryAux env fuel self data next s = .ok (size, d', next', s') →
    d'.elementNameHash = env.bs_hash (env.toLower d'.elementName) ∧
    ChildrenForall (Node.HashFresh env) d'.mChildren := by
  intro fuel
  induction fuel with
  | zero =>
    intro self data next s size d' next' s' _ h
    simp [DirectoryEntry.fromMemoryAux] at h
  | succ fuel ih =>
    intro self data next s size d' next' s' hdata h
    obtain ⟨base, n, s1, hbase, _, _, hloop⟩ :=
      DirectoryEntry.fromMemoryAux_ok env fuel self data next s size d' next' s' h
    refine readChildren_invariant env (DirectoryEntry.fromMemoryAux env fuel) self
      (fun _ d => d.elementNameHash = env.bs_hash (env.toLower d.elementName) ∧
        ChildrenForall (Node.HashFresh env) d.mChildren)
      (fun _ cd => cd.elementNameHash = env.bs_hash (env.toLower cd.elementName) ∧
        ChildrenForall (Node.HashFresh env) cd.mChildren)
      ?_ ?_ ?_ ?_ n { toLibraryEntry := base, mChildren := data.mChildren } next s1 d' next' s'
      ⟨hbase, hdata⟩ hloop
    · intro addr nx st sz cd nx' st' hr
      exact ih addr DirectoryEntry.empty nx st sz cd nx' st'
        (by simp [DirectoryEntry.empty, ChildrenForall]) hr
    · intro _ d hI; exact hI
    · intro _ d nx st sz f st' hI hf
      have hfh := (FileEntry.fromMemory_ok env _ st sz f st' hf).1
      refine ⟨hI.1, (childrenForall_append _ _ _).mpr ⟨hI.2, ?_⟩⟩
      simp only [Node.Forall, Node.HashFresh, Node.base]
      exact hfh
    · intro _ d addr cd hI hQ
      refine ⟨hI.1, (childrenForall_append _ _ _).mpr ⟨hI.2, ?_⟩⟩
      simp only [Node.Forall, Node.HashFresh, Node.base]
      exact ⟨hQ.1, hQ.2⟩

theorem forall_imp_node {P Q : Node → Prop} (hPQ : ∀ n, P n → Q n) :
    ∀ n : Node, n.Forall P → n.Forall Q := by
  intro n
  induction n using Node.induction with
  | hfile a f =>
    intro h
    simp only [Node.Forall] at h ⊢
    exact hPQ _ h
  | hdir a e ch ih =>
    intro h
    have hk := h.children
    simp only [Node.Forall]
    exact ⟨hPQ _ h.root, (childrenForall_iff _ _).mpr (fun c hc => ih c hc (hk c hc))⟩

theorem childrenForall_imp {P Q : Node → Prop} (hPQ : ∀ n, P n → Q n) (ch : List Node)
    (h : ChildrenForall P ch) : ChildrenForall Q ch :=
  (childrenForall_iff _ _).mpr
    (fun c hc => forall_imp_node hPQ c ((childrenForall_iff _ _).mp h c hc))

theorem env0_fieldsRoundTrip (e : LibraryEntry) (h : e.Small) : e.FieldsRoundTrip env0 :=
  ⟨framed_roundTrips e.path h.1, env0_name_roundTrips e.elementName h.2⟩

theorem env0_node_fieldsRoundTrip (n : Node) (h : n.Small) : n.FieldsRoundTrip env0 := by
  cases n with
  | file a f =>
    exact ⟨env0_fieldsRoundTrip _ h.1, env0_time_roundTrips _ h.2.1 h.2.2⟩
  | dir a e k => exact env0_fieldsRoundTrip e h

theorem sampleRoot_small : ChildrenForall Node.Small sampleRoot.mChildren := by
  simp only [ChildrenForall, Node.Forall, Node.Small, LibraryEntry.Small, sampleRoot, sampleSub,
    sampleFileA, sampleFileB, sampleFileC, List.length_cons, List.length_nil]
  decide

theorem sampleRoot_fields : ChildrenForall (Node.FieldsRoundTrip env0) sampleRoot.mChildren :=
  childrenForall_imp env0_node_fieldsRoundTrip _ sampleRoot_small

theorem sampleRoot_base_fields : sampleRoot.toLibraryEntry.FieldsRoundTrip env0 :=
  env0_fieldsRoundTrip _ (by simp only [LibraryEntry.Small, sampleRoot]; decide)

/-- C1. Round trip. A directory tree whose children carry the tags of their classes,
whose fields survive the external codecs (names: the conversion to wide characters and
back, as valid UTF-8 does), and whose record fits 32 bits and is written within the
first `2^32` bytes of the stream: `fromMemory` into a fresh empty entry over the bytes
`toMemory` wrote returns the size `toMemory` returned and a tree with the same
persisted content at every node (type, path, name, timestamp, children in order),
hence as many children; an empty directory gives an empty child sequence. -/
theorem C1_round_trip (env : Env) (d : DirectoryEntry) (self next : Nat) (l : List Byte)
    (htype : d.type < 4294967296)
    (hroot : d.toLibraryEntry.FieldsRoundTrip env)
    (htag : ChildrenForall Node.TagMatches d.mChildren)
    (hrt : ChildrenForall (Node.FieldsRoundTrip env) d.mChildren)
    (hfit : (d.toNode 0).recordSize env < 4294967296)
    (hoff : l.length + (d.toNode 0).recordSize env ≤ 4294967296) :
    ∃ size bytes,
      DirectoryEntry.toMemory env d (Bitstream.atEnd l)
        = .ok (size, Bitstream.atEnd (l ++ bytes)) ∧
      ∃ d' next' s',
        DirectoryEntry.fromMemory env self DirectoryEntry.empty next (Bitstream.split l bytes)
          = .ok (size, d', next', s') ∧
        d'.persisted = d.persisted ∧
        d'.mChildren.length = d.mChildren.length ∧
        (d.mChildren = [] → d'.mChildren = []) := by
  refine ⟨_, _, dir_toMemory_atEnd env d 0 htag hfit l, ?_⟩
  obtain ⟨k', next', hdec, hper⟩ := DirectoryEntry.fromMemory_decodes env d htype hroot htag hrt
    hfit self DirectoryEntry.empty next l [] ((d.toNode 0).recordSize env) hfit
    (recordEnd_le env d l hoff)
  have hlen : k'.length = d.mChildren.length := by
    rw [← persistedChildren_length k', hper, persistedChildren_length]
  have hrb : Node.recordBytes env (d.toNode 0)
      = u32Bytes ((d.toNode 0).recordSize env)
          ++ Node.payloadBytes env (.dir 0 d.toLibraryEntry d.mChildren) := by
    rw [recordSize_eq]; rfl
  rw [List.append_nil, ← hrb] at hdec
  refine ⟨_, next', _, hdec, ?_, ?_, ?_⟩
  · simp only [DirectoryEntry.persisted, LibraryEntry.decoded, DirectoryEntry.empty,
      List.nil_append, hper]
  · simp only [DirectoryEntry.empty, List.nil_append, hlen]
  · intro hnil
    simp only [DirectoryEntry.empty, List.nil_append]
    rw [hnil] at hlen
    exact List.length_eq_zero.mp hlen

/-- Witness of C1 on the scenario tree, which holds a file with a non-ASCII name and an
empty directory. -/
theorem C1_round_trip_witness :
    sampleRoot.type < 4294967296 ∧
    sampleRoot.toLibraryEntry.FieldsRoundTrip env0 ∧
    ChildrenForall Node.TagMatches sampleRoot.mChildren ∧
    ChildrenForall (Node.FieldsRoundTrip env0) sampleRoot.mChildren ∧
    (sampleRoot.toNode 0).recordSize env0 < 4294967296 ∧
    ([] : List Byte).length + (sampleRoot.toNode 0).recordSize env0 ≤ 4294967296 ∧
    ∃ size bytes,
      DirectoryEntry.toMemory env0 sampleRoot (Bitstream.atEnd [])
        = .ok (size, Bitstream.atEnd ([] ++ bytes)) ∧
      ∃ d' next' s',
        DirectoryEntry.fromMemory env0 100 DirectoryEntry.empty 0 (Bitstream.split [] bytes)
          = .ok (size, d', next', s') ∧
        d'.persisted = sampleRoot.persisted ∧
        d'.mChildren.length = sampleRoot.mChildren.length ∧
        (sampleRoot.mChildren = [] → d'.mChildren = []) :=
  have h1 : sampleRoot.type < 4294967296 := by decide
  have h5 : (sampleRoot.toNode 0).recordSize env0 < 4294967296 := by decide
  have h6 : ([] : List Byte).length + (sampleRoot.toNode 0).recordSize env0 ≤ 4294967296 := by
    decide
  ⟨h1, sampleRoot_base_fields, sampleRoot_tagged, sampleRoot_fields, h5, h6,
    C1_round_trip env0 sampleRoot 100 0 [] h1 sampleRoot_base_fields sampleRoot_tagged
      sampleRoot_fields h5 h6⟩

/-- C8. Idempotence of re-serialization. For a well-formed directory tree within
32 bits, written within the first `2^32` bytes of the stream: `toMemory`, then
`fromMemory` into a fresh entry, then `toMemory` of the decoded tree puts the same
bytes on the stream as the first `toMemory`. -/
theorem C8_reserialization_idempotent (env : Env) (d : DirectoryEntry) (self next : Nat)
    (l : List Byte)
    (htype : d.type < 4294967296)
    (hroot : d.toLibraryEntry.FieldsRoundTrip env)
    (htag : ChildrenForall Node.TagMatches d.mChildren)
    (hrt : ChildrenForall (Node.FieldsRoundTrip env) d.mChildren)
    (hfit : (d.toNode 0).recordSize env < 4294967296)
    (hoff : l.length + (d.toNode 0).recordSize env ≤ 4294967296) :
    ∃ size bytes d' next' s',
      DirectoryEntry.toMemory env d (Bitstream.atEnd l)
        = .ok (size, Bitstream.atEnd (l ++ bytes)) ∧
      DirectoryEntry.fromMemory env self DirectoryEntry.empty next (Bitstream.split l bytes)
        = .ok (size, d', next', s') ∧
      DirectoryEntry.toMemory env d' (Bitstream.atEnd l)
        = .ok (size, Bitstream.atEnd (l ++ bytes)) := by
  have henc := dir_toMemory_atEnd env d 0 htag hfit l
  obtain ⟨k', next', hdec, hper⟩ := DirectoryEntry.fromMemory_decodes env d htype hroot htag hrt
    hfit self DirectoryEntry.empty next l [] ((d.toNode 0).recordSize env) hfit
    (recordEnd_le env d l hoff)
  have hrb : Node.recordBytes env (d.toNode 0)
      = u32Bytes ((d.toNode 0).recordSize env)
          ++ Node.payloadBytes env (.dir 0 d.toLibraryEntry d.mChildren) := by
    rw [recordSize_eq]; rfl
  rw [List.append_nil, ← hrb] at hdec
  refine ⟨_, _, _, next', _, henc, hdec, ?_⟩
  have hper : DirectoryEntry.persisted
      { toLibraryEntry := d.toLibraryEntry.decoded env DirectoryEntry.empty.parent,
        mChildren := DirectoryEntry.empty.mChildren ++ k' } = d.persisted := by
    simp only [DirectoryEntry.persisted, LibraryEntry.decoded, DirectoryEntry.empty,
      List.nil_append, hper]
  have hn := hper
  rw [← DirectoryEntry.persisted_toNode _ 0, ← DirectoryEntry.persisted_toNode d 0] at hn
  rw [DirectoryEntry.toMemory_eq env _ 0, node_toMemory_congr env _ _ hn,
    ← DirectoryEntry.toMemory_eq env d 0]
  exact henc

/-- Witness of C8 on the scenario tree. -/
theorem C8_reserialization_idempotent_witness :
    sampleRoot.type < 4294967296 ∧
    sampleRoot.toLibraryEntry.FieldsRoundTrip env0 ∧
    ChildrenForall Node.TagMatches sampleRoot.mChildren ∧
    ChildrenForall (Node.FieldsRoundTrip env0) sampleRoot.mChildren ∧
    (sampleRoot.toNode 0).recordSize env0 < 4294967296 ∧
    ([] : List Byte).length + (sampleRoot.toNode 0).recordSize env0 ≤ 4294967296 ∧
    ∃ size bytes d' next' s',
      DirectoryEntry.toMemory env0 sampleRoot (Bitstream.atEnd [])
        = .ok (size, Bitstream.atEnd ([] ++ bytes)) ∧
      DirectoryEntry.fromMemory env0 100 DirectoryEntry.empty 0 (Bitstream.split [] bytes)
        = .ok (size, d', next', s') ∧
      DirectoryEntry.toMemory env0 d' (Bitstream.atEnd [])
        = .ok (size, Bitstream.atEnd ([] ++ bytes)) :=
  have h1 : sampleRoot.type < 4294967296 := by decide
  have h5 : (sampleRoot.toNode 0).recordSize env0 < 4294967296 := by decide
  have h6 : ([] : List Byte).length + (sampleRoot.toNode 0).recordSize env0 ≤ 4294967296 := by
    decide
  ⟨h1, sampleRoot_base_fields, sampleRoot_tagged, sampleRoot_fields, h5, h6,
    C8_reserialization_idempotent env0 sampleRoot 100 0 [] h1 sampleRoot_base_fields
      sampleRoot_tagged sampleRoot_fields h5 h6⟩

theorem getDynamicSize_retag (env : Env) (debug : Bool) (a : Nat) (e : LibraryEntry)
    (ch : List Node) (t : Nat) :
    Node.getDynamicSize env debug (.dir a e ch)
      = Node.getDynamicSize env debug (.dir a { e with type := t } ch) := by
  simp only [Node.getDynamicSize]

theorem computedSize_retag (env : Env) (a : Nat) (e : LibraryEntry) (ch : List Node) (t : Nat) :
    Node.computedSize env (.dir a e ch) = Node.computedSize env (.dir a { e with type := t } ch) := by
  simp only [Node.computedSize]

theorem forall_tag_retag (a : Nat) (e : LibraryEntry) (ch : List Node)
    (h : ChildrenForall Node.TagMatches ch) :
    (Node.dir a { e with type := LibraryEntryType.Directory } ch).Forall Node.TagMatches := by
  simp only [Node.Forall, Node.TagMatches, true_and]
  exact h

theorem file_getDynamicSize_cases (env : Env) (f : FileEntry) :
    (UINT32_MAX < (Node.file 0 f).computedSize env →
      FileEntry.getDynamicSize env true f = .error .dataOverflow) ∧
    FileEntry.getDynamicSize env false f
      = .ok ((Node.file 0 f).computedSize env % 4294967296) := by
  have hlt : (Node.file 0 f).computedSize env < 18446744073709551616 := by
    simp only [Node.computedSize, rtti_size_bytes]; omega
  have hmod : (4 + 4 + rtti_size_bytes (env.pathBytes f.path)
      + rtti_size_bytes (env.wstringBytes (env.toWide f.elementName))
      + rtti_size_bytes (env.timeBytes f.lastUpdateTime)) % 18446744073709551616
        = (Node.file 0 f).computedSize env := by
    simp only [Node.computedSize] at hlt ⊢
    exact Nat.mod_eq_of_lt hlt
  constructor
  · intro hbig
    simp only [FileEntry.getDynamicSize, hmod, hbig, decide_True, Bool.and_self, if_true]
  · simp only [FileEntry.getDynamicSize, hmod, Bool.false_and, Bool.false_eq_true, if_false]

/-- The computed size of a record that fits 32 bits is within 32 bits: a computed
size beyond them is that of a record beyond them. -/
theorem recordSize_of_computedSize (env : Env) (n : Node)
    (h : UINT32_MAX < n.computedSize env) : 4294967296 ≤ n.recordSize env := by
  by_contra hlt
  have e := computedSize_eq_recordSize env n (by omega)
  simp only [UINT32_MAX] at h
  omega

/-- C6 (amended). Overflow policy as the code has it, for a file and for a directory
(children carrying the tags of their classes) whose computed record size exceeds
`2^32 - 1`, the directory's staying within the 64 bits in which it is summed.
`getDynamicSize` raises the data-overflow exception with `BS_DEBUG_MODE` on; with
`BS_DEBUG_MODE` off it returns the computed size truncated modulo `2^32`. `toMemory`
fails in either build: no size is written or returned. -/
theorem C6_overflow_policy (env : Env) (f : FileEntry) (d : DirectoryEntry) (l : List Byte)
    (hf : UINT32_MAX < (Node.file 0 f).computedSize env)
    (htag : ChildrenForall Node.TagMatches d.mChildren)
    (hd : UINT32_MAX < (d.toNode 0).computedSize env)
    (hd64 : (d.toNode 0).computedSize env < 18446744073709551616) :
    FileEntry.getDynamicSize env true f = .error .dataOverflow ∧
    FileEntry.getDynamicSize env false f
      = .ok ((Node.file 0 f).computedSize env % 4294967296) ∧
    DirectoryEntry.getDynamicSize env true d = .error .dataOverflow ∧
    DirectoryEntry.getDynamicSize env false d
      = .ok ((d.toNode 0).computedSize env % 4294967296) ∧
    FileEntry.toMemory env f (Bitstream.atEnd l) = .error .sizeOverflow ∧
    DirectoryEntry.toMemory env d (Bitstream.atEnd l) = .error .sizeOverflow := by
  have hfile := file_getDynamicSize_cases env f
  have htag2 := forall_tag_retag 0 d.toLibraryEntry d.mChildren htag
  have hfrec := recordSize_of_computedSize env _ hf
  have hdrec := recordSize_of_computedSize env _ hd
  simp only [DirectoryEntry.toNode] at hd hd64 ⊢
  rw [computedSize_retag env 0 _ _ LibraryEntryType.Directory] at hd hd64
  refine ⟨hfile.1 hf, hfile.2, ?_, ?_, file_toMemory_overflow env f 0 hfrec l,
    dir_toMemory_overflow env d 0 htag hdrec l⟩
  · rw [DirectoryEntry.getDynamicSize_eq env true d 0, DirectoryEntry.toNode,
      getDynamicSize_retag env true 0 _ _ LibraryEntryType.Directory]
    exact Node.getDynamicSize_debug_overflow env _ htag2 hd hd64
  · rw [DirectoryEntry.getDynamicSize_eq env false d 0, DirectoryEntry.toNode,
      getDynamicSize_retag env false 0 _ _ LibraryEntryType.Directory,
      computedSize_retag env 0 _ _ LibraryEntryType.Directory]
    exact Node.getDynamicSize_release env _ htag2

theorem bigFile_computedSize (a : Nat) :
    (Node.file a bigFile).computedSize env0 = 2147483672 := by
  have h : (Node.file a bigFile).recordSize env0 = 2147483672 := by
    rw [recordSize_eq, bigFile_payload_length]
  rw [computedSize_eq_recordSize env0 _ (by rw [h]; decide), h]

theorem bigDir_computedSize : (bigDir.toNode 0).computedSize env0 = 4294967364 := by
  have e : bigDir.toNode 0 = .dir 0 bigDir.toLibraryEntry [.file 1 bigFile, .file 2 bigFile] := rfl
  rw [e, Node.computedSize, childrenComputedSize, childrenComputedSize, childrenComputedSize,
    bigFile_computedSize, bigFile_computedSize]
  rfl

theorem bigDir_getDynamicSize_release :
    DirectoryEntry.getDynamicSize env0 false bigDir = .ok 68 := by
  have htag : ChildrenForall Node.TagMatches bigDir.mChildren :=
    (childrenForall_iff _ _).mpr bigDir_children_tagged
  have h := Node.getDynamicSize_release env0 _
    (forall_tag_retag 0 bigDir.toLibraryEntry bigDir.mChildren htag)
  rw [← getDynamicSize_retag, ← computedSize_retag] at h
  have e : Node.computedSize env0 (.dir 0 bigDir.toLibraryEntry bigDir.mChildren)
      = 4294967364 := bigDir_computedSize
  have e2 : 4294967364 % 4294967296 = 68 := by decide
  rw [e, e2] at h
  rw [DirectoryEntry.getDynamicSize_eq env0 false bigDir 0, DirectoryEntry.toNode]
  exact h

/-- Counterexample to C6 as stated: the directory of two files with paths of `2^31`
bytes has a computed record size of `2^32 + 68`; built without `BS_DEBUG_MODE`,
`getDynamicSize` does not fail: it returns `68`, the size modulo `2^32`. -/
theorem C6_overflow_policy_counterexample :
    ChildrenForall Node.TagMatches bigDir.mChildren ∧
    (bigDir.toNode 0).computedSize env0 = 4294967364 ∧
    DirectoryEntry.getDynamicSize env0 false bigDir = .ok 68 :=
  ⟨(childrenForall_iff _ _).mpr bigDir_children_tagged, bigDir_computedSize,
    bigDir_getDynamicSize_release⟩

/-- C5 (amended). What `fromMemory` does with the declared size. On a record made of
any header value `h`, the fields of a file (resp. of a directory tree, these ending
within the first `2^32` bytes of the stream) and anything after them, `fromMemory`
returns `h` unchanged and leaves the cursor right behind the fields it interprets: it
advances by four plus the byte count of those fields, whatever `h` declares. The
cursor therefore stands at the end of the record, and the next sibling is read from
its first byte, exactly when the declared size is that byte count. -/
theorem C5_forward_skip (env : Env) (f fdata : FileEntry) (d data : DirectoryEntry)
    (self next h : Nat) (pre rest : List Byte)
    (hh : h < 4294967296)
    (hft : f.type < 4294967296)
    (hff : f.toLibraryEntry.FieldsRoundTrip env)
    (hftime : RoundTrips env.timeBytes env.timeRead f.lastUpdateTime)
    (htype : d.type < 4294967296)
    (hroot : d.toLibraryEntry.FieldsRoundTrip env)
    (htag : ChildrenForall Node.TagMatches d.mChildren)
    (hrt : ChildrenForall (Node.FieldsRoundTrip env) d.mChildren)
    (hfit : (d.toNode 0).recordSize env < 4294967296)
    (hoff : pre.length + (d.toNode 0).recordSize env ≤ 4294967296) :
    (FileEntry.fromMemory env fdata
        (Bitstream.split pre (u32Bytes h ++ (FileEntry.payloadBytes env f ++ rest)))
      = .ok (h, f.decoded env fdata.parent,
          Bitstream.split (pre ++ (u32Bytes h ++ FileEntry.payloadBytes env f)) rest) ∧
     (Bitstream.split (pre ++ (u32Bytes h ++ FileEntry.payloadBytes env f)) rest).cursor
      = (Bitstream.split pre (u32Bytes h ++ (FileEntry.payloadBytes env f ++ rest))).cursor
        + (4 + (FileEntry.payloadBytes env f).length)) ∧
    (∃ k' next', DirectoryEntry.fromMemory env self data next
        (Bitstream.split pre (u32Bytes h ++ (Node.payloadBytes env (d.toNode 0) ++ rest)))
      = .ok (h, { toLibraryEntry := d.toLibraryEntry.decoded env data.parent,
                  mChildren := data.mChildren ++ k' }, next',
          Bitstream.split (pre ++ (u32Bytes h ++ Node.payloadBytes env (d.toNode 0))) rest) ∧
      persistedChildren k' = persistedChildren d.mChildren ∧
      (Bitstream.split (pre ++ (u32Bytes h ++ Node.payloadBytes env (d.toNode 0))) rest).cursor
      = (Bitstream.split pre (u32Bytes h ++ (Node.payloadBytes env (d.toNode 0) ++ rest))).cursor
        + (4 + (Node.payloadBytes env (d.toNode 0)).length)) := by
  refine ⟨⟨?_, ?_⟩, ?_⟩
  · have := FileEntry.fromMemory_split env f fdata h pre rest hh hft hff hftime
    simpa only [FileEntry.decoded] using this
  · simp only [Bitstream.split, List.length_append, u32Bytes_length]
  · obtain ⟨k', next', hdec, hper⟩ := DirectoryEntry.fromMemory_decodes env d htype hroot htag
      hrt hfit self data next pre rest h hh (recordEnd_le env d pre hoff)
    refine ⟨k', next', hdec, hper, ?_⟩
    simp only [Bitstream.split, List.length_append, u32Bytes_length]

/-- Counterexample to C5 as stated: a file record declaring 26 bytes, two of them
trailing. `fromMemory` returns 26 and leaves the cursor at 24, on the trailing bytes;
and a directory holding this record followed by a plain sibling record does not decode
the sibling: its `fromMemory` ends in a bounds error. -/
theorem C5_forward_skip_counterexample :
    FileEntry.fromMemory env0 FileEntry.empty ⟨trailerFileBytes, 0⟩
      = .ok (26, { type := 0, path := [], elementName := [], elementNameHash := 7,
                   parent := none, lastUpdateTime := 0 }, ⟨trailerFileBytes, 24⟩) ∧
    DirectoryEntry.fromMemory env0 100 DirectoryEntry.empty 0 ⟨trailerDirBytes, 0⟩
      = .error .bounds :=
  ⟨rfl, rfl⟩

/-- Witness of C5 (amended): the file `a.txt` and the scenario tree behind a header
declaring 1000 bytes and followed by two more bytes. -/
theorem C5_forward_skip_witness :
    (1000 : Nat) < 4294967296 ∧
    sampleFileA.type < 4294967296 ∧
    sampleFileA.toLibraryEntry.FieldsRoundTrip env0 ∧
    RoundTrips env0.timeBytes env0.timeRead sampleFileA.lastUpdateTime ∧
    sampleRoot.type < 4294967296 ∧
    sampleRoot.toLibraryEntry.FieldsRoundTrip env0 ∧
    ChildrenForall Node.TagMatches sampleRoot.mChildren ∧
    ChildrenForall (Node.FieldsRoundTrip env0) sampleRoot.mChildren ∧
    (sampleRoot.toNode 0).recordSize env0 < 4294967296 ∧
    ([] : List Byte).length + (sampleRoot.toNode 0).recordSize env0 ≤ 4294967296 ∧
    (FileEntry.fromMemory env0 FileEntry.empty
        (Bitstream.split [] (u32Bytes 1000 ++ (FileEntry.payloadBytes env0 sampleFileA ++ [1, 2])))
      = .ok (1000, sampleFileA.decoded env0 FileEntry.empty.parent,
          Bitstream.split ([] ++ (u32Bytes 1000 ++ FileEntry.payloadBytes env0 sampleFileA))
            [1, 2]) ∧
     (Bitstream.split ([] ++ (u32Bytes 1000 ++ FileEntry.payloadBytes env0 sampleFileA))
        [1, 2]).cursor
      = (Bitstream.split [] (u32Bytes 1000
          ++ (FileEntry.payloadBytes env0 sampleFileA ++ [1, 2]))).cursor
        + (4 + (FileEntry.payloadBytes env0 sampleFileA).length)) ∧
    (∃ k' next', DirectoryEntry.fromMemory env0 100 DirectoryEntry.empty 0
        (Bitstream.split [] (u32Bytes 1000
          ++ (Node.payloadBytes env0 (sampleRoot.toNode 0) ++ [1, 2])))
      = .ok (1000, { toLibraryEntry :=
                      sampleRoot.toLibraryEntry.decoded env0 DirectoryEntry.empty.parent,
                     mChildren := DirectoryEntry.empty.mChildren ++ k' }, next',
          Bitstream.split ([] ++ (u32Bytes 1000 ++ Node.payloadBytes env0 (sampleRoot.toNode 0)))
            [1, 2]) ∧
      persistedChildren k' = persistedChildren sampleRoot.mChildren ∧
      (Bitstream.split ([] ++ (u32Bytes 1000 ++ Node.payloadBytes env0 (sampleRoot.toNode 0)))
        [1, 2]).cursor
      = (Bitstream.split [] (u32Bytes 1000
          ++ (Node.payloadBytes env0 (sampleRoot.toNode 0) ++ [1, 2]))).cursor
        + (4 + (Node.payloadBytes env0 (sampleRoot.toNode 0)).length)) :=
  have h0 : (1000 : Nat) < 4294967296 := by decide
  have h1 : sampleFileA.type < 4294967296 := by decide
  have h2 : sampleFileA.toLibraryEntry.FieldsRoundTrip env0 :=
    env0_fieldsRoundTrip _ (by simp only [LibraryEntry.Small, sampleFileA]; decide)
  have h3 : RoundTrips env0.timeBytes env0.timeRead sampleFileA.lastUpdateTime :=
    env0_time_roundTrips _ (by decide) (by decide)
  have h4 : sampleRoot.type < 4294967296 := by decide
  have h5 : (sampleRoot.toNode 0).recordSize env0 < 4294967296 := by decide
  have h6 : ([] : List Byte).length + (sampleRoot.toNode 0).recordSize env0 ≤ 4294967296 := by
    decide
  ⟨h0, h1, h2, h3, h4, sampleRoot_base_fields, sampleRoot_tagged, sampleRoot_fields, h5, h6,
    C5_forward_skip env0 sampleFileA FileEntry.empty sampleRoot DirectoryEntry.empty 100 0 1000
      [] [1, 2] h0 h1 h2 h3 h4 sampleRoot_base_fields sampleRoot_tagged sampleRoot_fields h5
      h6⟩

theorem sample_decode :
    DirectoryEntry.fromMemory env0 100 DirectoryEntry.empty 0 ⟨sampleBytes, 0⟩
      = .ok (220, sampleDecoded, 5, ⟨sampleBytes, 220⟩) := by rfl

/-- The decode of the scenario tree's bytes with the bound `fromMemory` gives it: one
more than the 220 bytes of the stream. -/
theorem sample_decode_bounded :
    DirectoryEntry.fromMemoryAux env0 221 100 DirectoryEntry.empty 0 ⟨sampleBytes, 0⟩
      = .ok (220, sampleDecoded, 5, ⟨sampleBytes, 220⟩) := by rfl

/-- Witness of C10: the scenario tree against the same tree at other addresses, with
other back-references and other hashes. -/
theorem C10_derived_state_not_persisted_witness :
    sampleFileA.persisted
      = FileEntry.persisted { sampleFileA with elementNameHash := 99, parent := some 7 } ∧
    sampleRoot.persisted = sampleRootMoved.persisted ∧
    FileEntry.toMemory env0 sampleFileA ⟨[], 0⟩
      = FileEntry.toMemory env0 { sampleFileA with elementNameHash := 99, parent := some 7 }
          ⟨[], 0⟩ ∧
    FileEntry.getDynamicSize env0 true sampleFileA
      = FileEntry.getDynamicSize env0 true
          { sampleFileA with elementNameHash := 99, parent := some 7 } ∧
    DirectoryEntry.toMemory env0 sampleRoot ⟨[], 0⟩
      = DirectoryEntry.toMemory env0 sampleRootMoved ⟨[], 0⟩ ∧
    DirectoryEntry.getDynamicSize env0 true sampleRoot
      = DirectoryEntry.getDynamicSize env0 true sampleRootMoved :=
  have h1 : sampleFileA.persisted
      = FileEntry.persisted { sampleFileA with elementNameHash := 99, parent := some 7 } := rfl
  have h2 : sampleRoot.persisted = sampleRootMoved.persisted := rfl
  ⟨h1, h2, C10_derived_state_not_persisted env0 true sampleFileA _ sampleRoot sampleRootMoved
    ⟨[], 0⟩ h1 h2⟩

/-- C9. The hash is recomputed on decode. Whenever `fromMemory` of a file or of a
directory completes, at whatever depth of nesting, the entry's `elementNameHash` is `bs_hash(UTF8::toLower(name))`
of the name just decoded, whatever it was before, and so is the hash of every node
decoded below a directory (the children the entry came with having fresh hashes).
Hence on the record of a file `f`, resp. of a directory tree `d` that ends within the
first `2^32` bytes of the stream, with names that survive the conversion to wide
characters and back, `fromMemory` completes with the hash of the original name, no
hash being on the wire. -/
theorem C9_hash_recomputed (env : Env) (fdata f' : FileEntry) (fs fs' : Bitstream)
    (fsize fuel self next size next' : Nat) (data d' : DirectoryEntry) (s s' : Bitstream)
    (hf : FileEntry.fromMemory env fdata fs = .ok (fsize, f', fs'))
    (hdata : ChildrenForall (Node.HashFresh env) data.mChildren)
    (hd : DirectoryEntry.fromMemoryAux env fuel self data next s
      = .ok (size, d', next', s')) :
    f'.elementNameHash = env.bs_hash (env.toLower f'.elementName) ∧
    d'.elementNameHash = env.bs_hash (env.toLower d'.elementName) ∧
    ChildrenForall (Node.HashFresh env) d'.mChildren ∧
    (∀ (f : FileEntry) (h : Nat) (pre rest : List Byte), h < 4294967296 →
      f.type < 4294967296 → f.toLibraryEntry.FieldsRoundTrip env →
      RoundTrips env.timeBytes env.timeRead f.lastUpdateTime →
      ∃ g st, FileEntry.fromMemory env fdata
          (Bitstream.split pre (u32Bytes h ++ (FileEntry.payloadBytes env f ++ rest)))
        = .ok (h, g, st) ∧
        g.elementNameHash = env.bs_hash (env.toLower f.elementName)) ∧
    (∀ (d : DirectoryEntry) (h : Nat) (pre rest : List Byte), h < 4294967296 →
      d.type < 4294967296 → d.toLibraryEntry.FieldsRoundTrip env →
      ChildrenForall Node.TagMatches d.mChildren →
      ChildrenForall (Node.FieldsRoundTrip env) d.mChildren →
      (d.toNode 0).recordSize env < 4294967296 →
      pre.length + (d.toNode 0).recordSize env ≤ 4294967296 →
      ∃ g alloc st, DirectoryEntry.fromMemory env self data next
          (Bitstream.split pre (u32Bytes h ++ (Node.payloadBytes env (d.toNode 0) ++ rest)))
        = .ok (h, g, alloc, st) ∧
        g.elementNameHash = env.bs_hash (env.toLower d.elementName)) := by
  refine ⟨(FileEntry.fromMemory_ok env fdata fs fsize f' fs' hf).1,
    (fromMemoryAux_hash env _ self data next s size d' next' s' hdata hd).1,
    (fromMemoryAux_hash env _ self data next s size d' next' s' hdata hd).2, ?_, ?_⟩
  · intro f h pre rest hh hft hff hftime
    exact ⟨_, _, FileEntry.fromMemory_split env f fdata h pre rest hh hft hff hftime, rfl⟩
  · intro d h pre rest hh htype hroot htag hrt hfit hoff
    obtain ⟨k', alloc, hdec, _⟩ := DirectoryEntry.fromMemory_decodes env d htype hroot htag
      hrt hfit self data next pre rest h hh (recordEnd_le env d pre hoff)
    exact ⟨_, alloc, _, hdec, rfl⟩

/-- Witness of C9: the file record with two trailing bytes and the bytes of the
scenario tree, both decoded into fresh entries. -/
theorem C9_hash_recomputed_witness :
    FileEntry.fromMemory env0 FileEntry.empty ⟨trailerFileBytes, 0⟩
      = .ok (26, { type := 0, path := [], elementName := [], elementNameHash := 7,
                   parent := none, lastUpdateTime := 0 }, ⟨trailerFileBytes, 24⟩) ∧
    ChildrenForall (Node.HashFresh env0) DirectoryEntry.empty.mChildren ∧
    DirectoryEntry.fromMemoryAux env0 221 100 DirectoryEntry.empty 0 ⟨sampleBytes, 0⟩
      = .ok (220, sampleDecoded, 5, ⟨sampleBytes, 220⟩) ∧
    (7 : Nat) = env0.bs_hash (env0.toLower []) ∧
    sampleDecoded.elementNameHash = env0.bs_hash (env0.toLower sampleDecoded.elementName) ∧
    ChildrenForall (Node.HashFresh env0) sampleDecoded.mChildren :=
  have h1 : FileEntry.fromMemory env0 FileEntry.empty ⟨trailerFileBytes, 0⟩
      = .ok (26, { type := 0, path := [], elementName := [], elementNameHash := 7,
                   parent := none, lastUpdateTime := 0 }, ⟨trailerFileBytes, 24⟩) := rfl
  have h2 : ChildrenForall (Node.HashFresh env0) DirectoryEntry.empty.mChildren := by
    simp [DirectoryEntry.empty, ChildrenForall]
  have h := C9_hash_recomputed env0 FileEntry.empty _ ⟨trailerFileBytes, 0⟩
    ⟨trailerFileBytes, 24⟩ 26 221 100 0 220 5 DirectoryEntry.empty sampleDecoded
    ⟨sampleBytes, 0⟩ ⟨sampleBytes, 220⟩ h1 h2 sample_decode_bounded
  ⟨h1, h2, sample_decode_bounded, h.1, h.2.1, h.2.2.1⟩

theorem env0_file_computedSize (a : Nat) (f : FileEntry) :
    (Node.file a f).computedSize env0
      = 4 + 4 + (f.path.length + 4) % 4294967296
        + (2 * f.elementName.length + 4) % 4294967296 + 8 := by
  simp only [Node.computedSize, rtti_size_bytes, env0, framedBytes, List.length_append,
    u32Bytes_length, wideUnitBytes_length, leBytes_length, List.length_map]
  omega

theorem hugeName_length : hugeName.length = 1073741824 := by
  rw [hugeName, List.length_replicate]

theorem hugeFile_computedSize : (Node.file 0 hugeFile).computedSize env0 = 4294967320 := by
  have hp : hugeFile.path.length = 2147483648 := bigPath_length
  have hn : hugeFile.elementName.length = 1073741824 := hugeName_length
  rw [env0_file_computedSize, hp, hn]

/-- Witness of C6 (amended): the file with a path of `2^31` bytes and a name of `2^30`
characters, and the directory of two files with paths of `2^31` bytes. -/
theorem C6_overflow_policy_witness :
    UINT32_MAX < (Node.file 0 hugeFile).computedSize env0 ∧
    ChildrenForall Node.TagMatches bigDir.mChildren ∧
    UINT32_MAX < (bigDir.toNode 0).computedSize env0 ∧
    (bigDir.toNode 0).computedSize env0 < 18446744073709551616 ∧
    FileEntry.getDynamicSize env0 true hugeFile = .error .dataOverflow ∧
    FileEntry.getDynamicSize env0 false hugeFile
      = .ok ((Node.file 0 hugeFile).computedSize env0 % 4294967296) ∧
    DirectoryEntry.getDynamicSize env0 true bigDir = .error .dataOverflow ∧
    DirectoryEntry.getDynamicSize env0 false bigDir
      = .ok ((bigDir.toNode 0).computedSize env0 % 4294967296) ∧
    FileEntry.toMemory env0 hugeFile (Bitstream.atEnd []) = .error .sizeOverflow ∧
    DirectoryEntry.toMemory env0 bigDir (Bitstream.atEnd []) = .error .sizeOverflow :=
  have h1 : UINT32_MAX < (Node.file 0 hugeFile).computedSize env0 := by
    rw [hugeFile_computedSize]; decide
  have h2 : ChildrenForall Node.TagMatches bigDir.mChildren :=
    (childrenForall_iff _ _).mpr bigDir_children_tagged
  have h3 : UINT32_MAX < (bigDir.toNode 0).computedSize env0 := by
    rw [bigDir_computedSize]; decide
  have h4 : (bigDir.toNode 0).computedSize env0 < 18446744073709551616 := by
    rw [bigDir_computedSize]; decide
  ⟨h1, h2, h3, h4, C6_overflow_policy env0 hugeFile bigDir [] h1 h2 h3 h4⟩

/-! ## The recursion bound of `fromMemory` -/

theorem readWith_ok {α : Type} (dec : List Byte → Option (α × Nat)) (s s' : Bitstream) (a : α)
    (h : s.readWith dec = .ok (a, s')) : s'.data = s.data ∧ s.cursor ≤ s'.cursor := by
  simp only [Bitstream.readWith] at h
  split at h
  · split at h
    · simp only [Except.ok.injEq, Prod.mk.injEq] at h
      obtain ⟨_, hs⟩ := h
      subst hs
      exact ⟨rfl, Nat.le_add_right _ _⟩
    · cases h
  · cases h

theorem readWith_not_outOfFuel {α : Type} (dec : List Byte → Option (α × Nat)) (s : Bitstream) :
    s.readWith dec ≠ .error .outOfFuel := by
  simp only [Bitstream.readWith]
  split
  · split <;> simp
  · simp

theorem rtti_read_u32_ok (s s' : Bitstream) (v : Nat) (h : rtti_read_u32 s = .ok (v, s')) :
    s'.data = s.data ∧ s'.cursor = s.cursor + 4 ∧ s.cursor + 4 ≤ s.data.length := by
  simp only [rtti_read_u32, Bitstream.readWith] at h
  split at h
  · rename_i a n hdec
    have hn : n = 4 := by
      simp only [decU32] at hdec
      split at hdec
      · simp only [Option.some.injEq, Prod.mk.injEq] at hdec
        exact hdec.2.symm
      · cases hdec
    subst hn
    split at h
    · rename_i hle
      simp only [Except.ok.injEq, Prod.mk.injEq] at h
      obtain ⟨_, hs⟩ := h
      subst hs
      exact ⟨rfl, rfl, hle⟩
    · cases h
  · cases h

/-- A peek that succeeds had the header and the tag before it; it leaves the data alone
and the cursor at the offset modulo `2^32`. -/
theorem peekChildType_ok (s s1 : Bitstream) (t : Nat) (h : peekChildType s = .ok (t, s1)) :
    s1.data = s.data ∧ s1.cursor = s.cursor % 4294967296 ∧ s.cursor + 8 ≤ s.data.length := by
  simp only [peekChildType, Bitstream.skipBytes, Bitstream.seek, Bitstream.tell] at h
  split at h
  · cases h
  · rename_i s2 hskip
    split at hskip
    · simp only [Except.ok.injEq] at hskip
      subst hskip
      split at h
      · cases h
      · rename_i v s3 hread
        have hr := rtti_read_u32_ok _ _ _ hread
        split at h
        · cases h
        · rename_i s4 hseek
          split at hseek
          · simp only [Except.ok.injEq] at hseek
            subst hseek
            simp only [Except.ok.injEq, Prod.mk.injEq] at h
            rw [← h.2]
            refine ⟨hr.1, rfl, ?_⟩
            have := hr.2.2
            simp only at this
            omega
          · cases hseek
    · cases hskip

/-- On a stream of at most `2^32` bytes the peek gives the stream back as it was. -/
theorem peekChildType_same (s s1 : Bitstream) (t : Nat) (hlen : s.data.length ≤ 4294967296)
    (h : peekChildType s = .ok (t, s1)) : s1 = s := by
  obtain ⟨h1, h2, h3⟩ := peekChildType_ok s s1 t h
  rw [Nat.mod_eq_of_lt (by omega)] at h2
  cases s
  cases s1
  simp only at h1 h2
  rw [h1, h2]

theorem peekChildType_not_outOfFuel (s : Bitstream) :
    peekChildType s ≠ .error .outOfFuel := by
  simp only [peekChildType, Bitstream.skipBytes, Bitstream.seek, Bitstream.tell]
  split
  · rename_i e hskip
    split at hskip
    · cases hskip
    · simp only [Except.error.injEq] at hskip
      rw [← hskip]; simp
  · split
    · rename_i e hread
      intro hc
      simp only [Except.error.injEq] at hc
      rw [hc] at hread
      exact readWith_not_outOfFuel _ _ hread
    · split
      · rename_i e hseek
        split at hseek
        · cases hseek
        · simp only [Except.error.injEq] at hseek
          rw [← hseek]; simp
      · simp

theorem file_fromMemory_stream (env : Env) (data f : FileEntry) (s s' : Bitstream) (size : Nat)
    (h : FileEntry.fromMemory env data s = .ok (size, f, s')) :
    s'.data = s.data ∧ s.cursor ≤ s'.cursor := by
  simp only [FileEntry.fromMemory] at h
  split at h
  · cases h
  · rename_i h1
    split at h
    · cases h
    · rename_i h2
      split at h
      · cases h
      · rename_i h3
        split at h
        · cases h
        · rename_i h4
          split at h
          · cases h
          · rename_i h5
            simp only [Except.ok.injEq, Prod.mk.injEq] at h
            obtain ⟨_, _, hs⟩ := h
            subst hs
            have r1 := rtti_read_u32_ok _ _ _ h1
            have r2 := rtti_read_u32_ok _ _ _ h2
            have r3 := readWith_ok _ _ _ _ h3
            have r4 := readWith_ok _ _ _ _ h4
            have r5 := readWith_ok _ _ _ _ h5
            refine ⟨by rw [r5.1, r4.1, r3.1, r2.1, r1.1], ?_⟩
            omega

theorem file_fromMemory_not_outOfFuel (env : Env) (data : FileEntry) (s : Bitstream) :
    FileEntry.fromMemory env data s ≠ .error .outOfFuel := by
  simp only [FileEntry.fromMemory, rtti_read_u32]
  intro hc
  split at hc
  · rename_i e h1
    simp only [Except.error.injEq] at hc
    rw [hc] at h1
    exact readWith_not_outOfFuel _ _ h1
  · split at hc
    · rename_i e h1
      simp only [Except.error.injEq] at hc
      rw [hc] at h1
      exact readWith_not_outOfFuel _ _ h1
    · split at hc
      · rename_i e h1
        simp only [Except.error.injEq] at hc
        rw [hc] at h1
        exact readWith_not_outOfFuel _ _ h1
      · split at hc
        · rename_i e h1
          simp only [Except.error.injEq] at hc
          rw [hc] at h1
          exact readWith_not_outOfFuel _ _ h1
        · split at hc
          · rename_i e h1
            simp only [Except.error.injEq] at hc
            rw [hc] at h1
            exact readWith_not_outOfFuel _ _ h1
          · cases hc

theorem readChildren_stream (env : Env)
    (readDir : Nat → DirectoryEntry → Nat → Bitstream →
      Except Err (Nat × DirectoryEntry × Nat × Bitstream))
    (self : Nat)
    (hmono : ∀ addr d nx st sz cd nx' st', st.data.length ≤ 4294967296 →
      readDir addr d nx st = .ok (sz, cd, nx', st') →
      st'.data = st.data ∧ st.cursor ≤ st'.cursor) :
    ∀ n data next s d' next' s', s.data.length ≤ 4294967296 →
      readChildren env readDir self n data next s = .ok (d', next', s') →
      s'.data = s.data ∧ s.cursor ≤ s'.cursor := by
  intro n
  induction n with
  | zero =>
    intro data next s d' next' s' _ h
    simp only [readChildren, Except.ok.injEq, Prod.mk.injEq] at h
    rw [← h.2.2]
    exact ⟨rfl, Nat.le_refl _⟩
  | succ n ih =>
    intro data next s d' next' s' hlen h
    simp only [readChildren] at h
    split at h
    · cases h
    · rename_i childType s1 hpeek
      have hs1 := peekChildType_same _ _ _ hlen hpeek
      subst hs1
      split at h
      · split at h
        · cases h
        · rename_i sz f s2 hf
          have hm := file_fromMemory_stream env _ _ _ _ _ hf
          have := ih _ _ _ _ _ _ (by rw [hm.1]; exact hlen) h
          exact ⟨by rw [this.1, hm.1], by omega⟩
      · split at h
        · split at h
          · cases h
          · rename_i sz cd next1 s2 hd
            have hm := hmono _ _ _ _ _ _ _ _ hlen hd
            have := ih _ _ _ _ _ _ (by rw [hm.1]; exact hlen) h
            exact ⟨by rw [this.1, hm.1], by omega⟩
        · exact ih _ _ _ _ _ _ hlen h

/-- Decoding reads on: on a stream of at most `2^32` bytes, `fromMemory` leaves the
data alone and never moves the cursor back. -/
theorem fromMemoryAux_stream (env : Env) : ∀ (fuel self : Nat) (data : DirectoryEntry)
    (next : Nat) (s : Bitstream) (size : Nat) (d' : DirectoryEntry) (next' : Nat)
    (s' : Bitstream), s.data.length ≤ 4294967296 →
    DirectoryEntry.fromMemoryAux env fuel self data next s = .ok (size, d', next', s') →
    s'.data = s.data ∧ s.cursor ≤ s'.cursor := by
  intro fuel
  induction fuel with
  | zero =>
    intro self data next s size d' next' s' _ h
    simp [DirectoryEntry.fromMemoryAux] at h
  | succ fuel ih =>
    intro self data next s size d' next' s' hlen h
    simp only [DirectoryEntry.fromMemoryAux] at h
    split at h
    · cases h
    · rename_i h1
      split at h
      · cases h
      · rename_i h2
        split at h
        · cases h
        · rename_i h3
          split at h
          · cases h
          · rename_i h4
            split at h
            · cases h
            · rename_i h5
              split at h
              · cases h
              · rename_i h6
                simp only [Except.ok.injEq, Prod.mk.injEq] at h
                obtain ⟨_, _, _, hs⟩ := h
                subst hs
                have r1 := rtti_read_u32_ok _ _ _ h1
                have r2 := rtti_read_u32_ok _ _ _ h2
                have r3 := readWith_ok _ _ _ _ h3
                have r4 := readWith_ok _ _ _ _ h4
                have r5 := rtti_read_u32_ok _ _ _ h5
                have r6 := readChildren_stream env _ self
                  (fun addr d nx st sz cd nx' st' hst hr =>
                    ih addr d nx st sz cd nx' st' hst hr)
                  _ _ _ _ _ _ _ (by rw [r5.1, r4.1, r3.1, r2.1, r1.1]; exact hlen) h6
                refine ⟨by rw [r6.1, r5.1, r4.1, r3.1, r2.1, r1.1], ?_⟩
                omega

theorem readChildren_not_outOfFuel (env : Env)
    (readDir : Nat → DirectoryEntry → Nat → Bitstream →
      Except Err (Nat × DirectoryEntry × Nat × Bitstream))
    (self bound : Nat)
    (hmono : ∀ addr d nx st sz cd nx' st', st.data.length ≤ 4294967296 →
      readDir addr d nx st = .ok (sz, cd, nx', st') →
      st'.data = st.data ∧ st.cursor ≤ st'.cursor)
    (hfuel : ∀ addr d nx st, st.data.length ≤ 4294967296 →
      st.data.length - st.cursor < bound →
      readDir addr d nx st ≠ .error .outOfFuel) :
    ∀ n data next s, s.data.length ≤ 4294967296 → s.data.length - s.cursor < bound →
      readChildren env readDir self n data next s ≠ .error .outOfFuel := by
  intro n
  induction n with
  | zero =>
    intro data next s _ _
    simp [readChildren]
  | succ n ih =>
    intro data next s hlen hs hc
    simp only [readChildren] at hc
    split at hc
    · rename_i e hpeek
      simp only [Except.error.injEq] at hc
      rw [hc] at hpeek
      exact peekChildType_not_outOfFuel _ hpeek
    · rename_i childType s1 hpeek
      have hs1 := peekChildType_same _ _ _ hlen hpeek
      subst hs1
      split at hc
      · split at hc
        · rename_i e hf
          simp only [Except.error.injEq] at hc
          rw [hc] at hf
          exact file_fromMemory_not_outOfFuel env _ _ hf
        · rename_i sz f s2 hf
          have hm := file_fromMemory_stream env _ _ _ _ _ hf
          refine ih _ _ s2 (by rw [hm.1]; exact hlen) ?_ hc
          rw [hm.1]; omega
      · split at hc
        · split at hc
          · rename_i e hd
            simp only [Except.error.injEq] at hc
            rw [hc] at hd
            exact hfuel _ _ _ _ hlen hs hd
          · rename_i sz cd next1 s2 hd
            have hm := hmono _ _ _ _ _ _ _ _ hlen hd
            refine ih _ _ s2 (by rw [hm.1]; exact hlen) ?_ hc
            rw [hm.1]; omega
        · exact ih _ _ _ hlen hs hc

theorem fromMemoryAux_not_outOfFuel (env : Env) : ∀ (fuel self : Nat) (data : DirectoryEntry)
    (next : Nat) (s : Bitstream), s.data.length ≤ 4294967296 →
    s.data.length - s.cursor < fuel →
    DirectoryEntry.fromMemoryAux env fuel self data next s ≠ .error .outOfFuel := by
  intro fuel
  induction fuel with
  | zero => intro self data next s _ h; omega
  | succ fuel ih =>
    intro self data next s hlen hs hc
    simp only [DirectoryEntry.fromMemoryAux, rtti_read_u32] at hc
    split at hc
    · rename_i e h1
      simp only [Except.error.injEq] at hc
      rw [hc] at h1
      exact readWith_not_outOfFuel _ _ h1
    · rename_i h1
      have r1 := rtti_read_u32_ok _ _ _ h1
      split at hc
      · rename_i e h2
        simp only [Except.error.injEq] at hc
        rw [hc] at h2
        exact readWith_not_outOfFuel _ _ h2
      · rename_i h2
        have r2 := rtti_read_u32_ok _ _ _ h2
        split at hc
        · rename_i e h3
          simp only [Except.error.injEq] at hc
          rw [hc] at h3
          exact readWith_not_outOfFuel _ _ h3
        · rename_i h3
          have r3 := readWith_ok _ _ _ _ h3
          split at hc
          · rename_i e h4
            simp only [Except.error.injEq] at hc
            rw [hc] at h4
            exact readWith_not_outOfFuel _ _ h4
          · rename_i h4
            have r4 := readWith_ok _ _ _ _ h4
            split at hc
            · rename_i e h5
              simp only [Except.error.injEq] at hc
              rw [hc] at h5
              exact readWith_not_outOfFuel _ _ h5
            · rename_i numChildren s5 h5
              have r5 := rtti_read_u32_ok _ _ _ h5
              split at hc
              · rename_i e h6
                simp only [Except.error.injEq] at hc
                rw [hc] at h6
                refine readChildren_not_outOfFuel env _ self fuel
                  (fun addr d nx st sz cd nx' st' hst hr =>
                    fromMemoryAux_stream env fuel addr d nx st sz cd nx' st' hst hr)
                  (fun addr d nx st hst hb => ih addr d nx st hst hb) _ _ _ s5
                  (by rw [r5.1, r4.1, r3.1, r2.1, r1.1]; exact hlen) ?_ h6
                rw [r5.1, r4.1, r3.1, r2.1, r1.1]
                omega
              · cases hc

/-- The bound `fromMemory` puts on the nesting is never the reason it fails on a
stream of at most `2^32` bytes, where every offset fits the `uint32_t` of the peek:
its result is a decoded entry or an error of the stream. -/
theorem fromMemory_not_outOfFuel (env : Env) (self : Nat) (data : DirectoryEntry) (next : Nat)
    (s : Bitstream) (hlen : s.data.length ≤ 4294967296) :
    DirectoryEntry.fromMemory env self data next s ≠ .error .outOfFuel :=
  fromMemoryAux_not_outOfFuel env _ self data next s hlen (Nat.lt_succ_self _)

theorem childrenAddrs_append (xs ys : List Node) :
    childrenAddrs (xs ++ ys) = childrenAddrs xs ++ childrenAddrs ys := by
  induction xs with
  | nil => simp [childrenAddrs]
  | cons x xs ih => simp [childrenAddrs, ih]

theorem range'_split (a b c : Nat) (hab : a ≤ b) (hbc : b ≤ c) :
    List.range' a (b - a) ++ List.range' b (c - b) = List.range' a (c - a) := by
  have h := List.range'_append a (b - a) (c - b) 1
  simp only [Nat.one_mul] at h
  have e1 : a + (b - a) = b := by omega
  have e2 : c - b + (b - a) = c - a := by omega
  rw [e1, e2] at h
  exact h

/-- The loop hands out consecutive addresses: the nodes it appends, listed parent
before children, sit at `next`, `next + 1`, … up to the allocator it returns. -/
theorem readChildren_addrs (env : Env)
    (readDir : Nat → DirectoryEntry → Nat → Bitstream →
      Except Err (Nat × DirectoryEntry × Nat × Bitstream))
    (self : Nat)
    (hrec : ∀ addr nx st sz cd nx' st',
      readDir addr DirectoryEntry.empty nx st = .ok (sz, cd, nx', st') →
      nx ≤ nx' ∧ childrenAddrs cd.mChildren = List.range' nx (nx' - nx)) :
    ∀ n data next s d' next' s',
      readChildren env readDir self n data next s = .ok (d', next', s') →
      next ≤ next' ∧ ∃ new, d'.mChildren = data.mChildren ++ new ∧
        childrenAddrs new = List.range' next (next' - next) := by
  intro n
  induction n with
  | zero =>
    intro data next s d' next' s' h
    simp only [readChildren, Except.ok.injEq, Prod.mk.injEq] at h
    obtain ⟨hd, hn, _⟩ := h
    subst hd hn
    exact ⟨Nat.le_refl _, [], by simp, by simp [childrenAddrs]⟩
  | succ n ih =>
    intro data next s d' next' s' h
    simp only [readChildren] at h
    split at h
    · cases h
    · split at h
      · split at h
        · cases h
        · rename_i sz f s2 hf
          obtain ⟨hle, new, hnew, haddr⟩ := ih _ _ _ _ _ _ h
          refine ⟨by omega, Node.file next { f with parent := some self } :: new,
            by rw [hnew]; simp, ?_⟩
          simp only [childrenAddrs, Node.addrs, haddr, List.singleton_append]
          have := range'_split next (next + 1) next' (by omega) hle
          simpa [List.range'] using this
      · split at h
        · split at h
          · cases h
          · rename_i sz cd next1 s2 hd
            obtain ⟨hle1, hcd⟩ := hrec _ _ _ _ _ _ _ hd
            obtain ⟨hle, new, hnew, haddr⟩ := ih _ _ _ _ _ _ h
            refine ⟨by omega,
              Node.dir next { cd.toLibraryEntry with parent := some self } cd.mChildren :: new,
              by rw [hnew]; simp, ?_⟩
            simp only [childrenAddrs, Node.addrs, haddr, hcd, List.cons_append]
            have h1 := range'_split (next + 1) next1 next' hle1 hle
            have h2 := range'_split next (next + 1) next' (by omega) (by omega)
            rw [h1]
            simpa [List.range'] using h2
        · exact ih _ _ _ _ _ _ h

/-- Decoding with `fromMemory` hands out consecutive addresses to the nodes it decodes. -/
theorem fromMemoryAux_addrs (env : Env) : ∀ (fuel self : Nat) (data : DirectoryEntry)
    (next : Nat) (s : Bitstream) (size : Nat) (d' : DirectoryEntry) (next' : Nat)
    (s' : Bitstream),
    DirectoryEntry.fromMemoryAux env fuel self data next s = .ok (size, d', next', s') →
    next ≤ next' ∧ ∃ new, d'.mChildren = data.mChildren ++ new ∧
      childrenAddrs new = List.range' next (next' - next) := by
  intro fuel
  induction fuel with
  | zero =>
    intro self data next s size d' next' s' h
    simp [DirectoryEntry.fromMemoryAux] at h
  | succ fuel ih =>
    intro self data next s size d' next' s' h
    obtain ⟨base, n, s1, _, _, _, hloop⟩ :=
      DirectoryEntry.fromMemoryAux_ok env fuel self data next s size d' next' s' h
    refine readChildren_addrs env _ self ?_ n
      { toLibraryEntry := base, mChildren := data.mChildren } next s1 d' next' s' hloop
    intro addr nx st sz cd nx' st' hr
    obtain ⟨hle, new, hnew, haddr⟩ := ih addr DirectoryEntry.empty nx st sz cd nx' st' hr
    refine ⟨hle, ?_⟩
    rw [hnew]
    simpa [DirectoryEntry.empty] using haddr

theorem childrenAddrs_map_setParent (p : Option Nat) (ch : List Node) :
    childrenAddrs (ch.map (Node.setParent p)) = childrenAddrs ch := by
  induction ch with
  | nil => rfl
  | cons c cs ih =>
    simp only [List.map_cons, childrenAddrs, ih]
    cases c with
    | file a f => simp [Node.setParent, Node.addrs]
    | dir a e k => simp [Node.setParent, Node.addrs]

/-- C4. Back-reference invariant. When `fromMemory` returns for a directory (whose
earlier children, if any, pointed back at it), at whatever depth of nesting, every child then held points back at
that directory and every node further down at the directory holding it; the decoded
nodes sit at the consecutive, hence distinct, addresses the allocator handed out.
Once `setRootElement` has installed the decoded root in a new heap object, at an
address of its own, the children of the root point back at the installed object and
the nodes further down, unmoved, at their own directories. -/
theorem C4_back_references (env : Env) (fuel self next : Nat) (data : DirectoryEntry)
    (s : Bitstream) (obj : ProjectLibraryEntries) (size : Nat) (d' : DirectoryEntry)
    (next' : Nat) (s' : Bitstream)
    (hdata : ChildrenParentsOk self data.mChildren)
    (h : DirectoryEntry.fromMemoryAux env fuel self data next s
      = .ok (size, d', next', s')) :
    ChildrenParentsOk self d'.mChildren ∧
    (∃ new, d'.mChildren = data.mChildren ++ new ∧
      childrenAddrs new = List.range' next (next' - next)) ∧
    ∃ root, (setRootElement obj d' next').1.mRootEntry = some (next', root) ∧
      root.persisted = d'.persisted ∧
      childrenAddrs root.mChildren = childrenAddrs d'.mChildren ∧
      ChildrenParentsOk next' root.mChildren := by
  have h1 := fromMemoryAux_parents env _ self data next s size d' next' s' hdata h
  have h2 := fromMemoryAux_addrs env _ self data next s size d' next' s' h
  refine ⟨h1, h2.2, _, rfl, ?_, childrenAddrs_map_setParent _ _,
    childrenParentsOk_map_setParent self next' d'.mChildren h1⟩
  simp only [DirectoryEntry.persisted, persistedChildren_map_setParent]

/-- Witness of C4: the decode of the scenario tree's bytes at address 100, then
installed as the root. -/
theorem C4_back_references_witness :
    ChildrenParentsOk 100 DirectoryEntry.empty.mChildren ∧
    DirectoryEntry.fromMemoryAux env0 221 100 DirectoryEntry.empty 0 ⟨sampleBytes, 0⟩
      = .ok (220, sampleDecoded, 5, ⟨sampleBytes, 220⟩) ∧
    ChildrenParentsOk 100 sampleDecoded.mChildren ∧
    (∃ new, sampleDecoded.mChildren = DirectoryEntry.empty.mChildren ++ new ∧
      childrenAddrs new = List.range' 0 (5 - 0)) ∧
    ∃ root, (setRootElement ⟨none⟩ sampleDecoded 5).1.mRootEntry = some (5, root) ∧
      root.persisted = sampleDecoded.persisted ∧
      childrenAddrs root.mChildren = childrenAddrs sampleDecoded.mChildren ∧
      ChildrenParentsOk 5 root.mChildren :=
  have h0 : ChildrenParentsOk 100 DirectoryEntry.empty.mChildren := by
    simp [DirectoryEntry.empty, ChildrenParentsOk]
  ⟨h0, sample_decode_bounded, C4_back_references env0 221 100 0 DirectoryEntry.empty
    ⟨sampleBytes, 0⟩ ⟨none⟩ 220 sampleDecoded 5 ⟨sampleBytes, 220⟩ h0 sample_decode_bounded⟩

/-! ## The position of the tag and the peek -/

theorem extends_refl (s : Bitstream) (hs : s.cursor ≤ s.data.length) : s.Extends s :=
  ⟨hs, Nat.le_refl _, rfl⟩

theorem extends_trans {a b c : Bitstream} (hab : a.Extends b) (hbc : b.Extends c) :
    a.Extends c := by
  obtain ⟨_, h2, h3⟩ := hab
  obtain ⟨k1, k2, k3⟩ := hbc
  refine ⟨k1, Nat.le_trans h2 k2, ?_⟩
  have e1 : c.data.take a.cursor = (c.data.take b.cursor).take a.cursor := by
    rw [List.take_take, Nat.min_eq_left h2]
  rw [e1, k3, List.take_take, Nat.min_eq_left h2, h3]

theorem writeBytes_extends (s : Bitstream) (hs : s.cursor ≤ s.data.length) (b : List Byte) :
    s.Extends (s.writeBytes b) := by
  refine ⟨?_, ?_, ?_⟩
  · simp only [Bitstream.writeBytes, List.length_append, List.length_take, List.length_drop]
    omega
  · simp only [Bitstream.writeBytes]
    omega
  · simp only [Bitstream.writeBytes, List.append_assoc]
    exact List.take_left' (by rw [List.length_take]; omega)

theorem writeBytes_content (s : Bitstream) (hs : s.cursor ≤ s.data.length) (b : List Byte) :
    ((s.writeBytes b).data.drop s.cursor).take b.length = b := by
  simp only [Bitstream.writeBytes, List.append_assoc]
  rw [List.drop_left' (by rw [List.length_take]; omega)]
  exact List.take_left' rfl

theorem extends_content {s1 s2 : Bitstream} (h : s1.Extends s2) (k m : Nat)
    (hk : k + m ≤ s1.cursor) :
    (s2.data.drop k).take m = (s1.data.drop k).take m := by
  obtain ⟨_, _, h3⟩ := h
  rw [List.take_drop, List.take_drop]
  have e1 : s2.data.take (k + m) = (s2.data.take s1.cursor).take (k + m) := by
    rw [List.take_take, Nat.min_eq_left hk]
  rw [e1, h3, List.take_take, Nat.min_eq_left hk]

theorem rtti_write_with_size_header_ok (s s' : Bitstream) (n : Nat)
    (t : Bitstream → Except Err (Nat × Bitstream))
    (h : rtti_write_with_size_header s t = .ok (n, s')) :
    ∃ p s1, t (s.writeBytes (u32Bytes 0)) = .ok (p, s1) ∧ n = s1.cursor - s.cursor ∧
      n < 4294967296 ∧ s.cursor ≤ s1.data.length ∧
      s'.cursor = s1.cursor ∧ s'.cursor ≤ s'.data.length ∧
      s'.data = s1.data.take s.cursor ++ (u32Bytes n ++ s1.data.drop (s.cursor + 4)) := by
  unfold rtti_write_with_size_header at h
  simp only [Bitstream.tell] at h
  split at h
  · cases h
  · rename_i p s1 ht
    refine ⟨p, s1, ht, ?_⟩
    by_cases hsz : s1.cursor - s.cursor > UINT32_MAX
    · rw [if_pos hsz] at h; cases h
    · rw [if_neg hsz] at h
      simp only [UINT32_MAX] at hsz
      by_cases hseek : s.cursor ≤ s1.data.length
      · simp only [Bitstream.seek, if_pos hseek, Bitstream.writeBytes, u32Bytes_length] at h
        by_cases hend : s1.cursor ≤
            (List.take s.cursor s1.data ++ u32Bytes (s1.cursor - s.cursor)
              ++ List.drop (s.cursor + 4) s1.data).length
        · rw [if_pos hend] at h
          simp only [Except.ok.injEq, Prod.mk.injEq] at h
          obtain ⟨h1, h2⟩ := h
          subst h2
          subst h1
          refine ⟨rfl, by omega, hseek, rfl, hend, ?_⟩
          simp only [List.append_assoc]
        · rw [if_neg hend] at h
          cases h
      · simp only [Bitstream.seek, if_neg hseek] at h
        cases h

theorem writeBytes_cursor (s : Bitstream) (b : List Byte) :
    (s.writeBytes b).cursor = s.cursor + b.length := rfl

theorem header_extends (s s' : Bitstream) (n ty : Nat)
    (t : Bitstream → Except Err (Nat × Bitstream)) (hs : s.cursor ≤ s.data.length)
    (hext : ∀ p s1, t (s.writeBytes (u32Bytes 0)) = .ok (p, s1) →
      (s.writeBytes (u32Bytes 0)).Extends s1 ∧
      (s1.data.drop (s.cursor + 4)).take 4 = u32Bytes ty)
    (h : rtti_write_with_size_header s t = .ok (n, s')) :
    s.Extends s' ∧ s'.cursor = s.cursor + n ∧ n < 4294967296 ∧
      (s'.data.drop s.cursor).take 4 = u32Bytes n ∧
      (s'.data.drop (s.cursor + 4)).take 4 = u32Bytes ty := by
  obtain ⟨p, s1, ht, hsize, hn, hseek, hcur, hwf, hdata⟩ :=
    rtti_write_with_size_header_ok s s' n t h
  obtain ⟨h01, htag⟩ := hext p s1 ht
  have hs1 := extends_trans (writeBytes_extends s hs (u32Bytes 0)) h01
  have hadv : s.cursor + 4 ≤ s1.cursor := by
    have := h01.2.1
    rw [writeBytes_cursor, u32Bytes_length] at this
    exact this
  have hlen : (List.take s.cursor s1.data).length = s.cursor := by
    rw [List.length_take]; omega
  refine ⟨⟨hwf, by omega, ?_⟩, by omega, hn, ?_, ?_⟩
  · rw [hdata, List.take_left' hlen]
    exact hs1.2.2
  · rw [hdata, List.drop_left' hlen]
    exact List.take_left' (u32Bytes_length n)
  · rw [hdata, ← List.append_assoc,
      List.drop_left' (by rw [List.length_append, hlen, u32Bytes_length])]
    exact htag

theorem file_writePayload_extends (env : Env) (f : FileEntry) (s0 s1 : Bitstream) (p : Nat)
    (hs : s0.cursor ≤ s0.data.length)
    (h : FileEntry.writePayload env f s0 = .ok (p, s1)) :
    s0.Extends s1 ∧ (s1.data.drop s0.cursor).take 4 = u32Bytes f.type := by
  simp only [FileEntry.writePayload, rtti_write_u32, rtti_write_bytes, Except.ok.injEq,
    Prod.mk.injEq] at h
  obtain ⟨_, h2⟩ := h
  have e1 := writeBytes_extends s0 hs (u32Bytes (f.type % 4294967296))
  have e2 := writeBytes_extends _ e1.1 (env.pathBytes f.path)
  have e3 := writeBytes_extends _ e2.1 (env.wstringBytes (env.toWide f.elementName))
  have e4 := writeBytes_extends _ e3.1 (env.timeBytes f.lastUpdateTime)
  rw [h2] at e4
  have e24 := extends_trans e2 (extends_trans e3 e4)
  refine ⟨extends_trans e1 e24, ?_⟩
  rw [extends_content e24 s0.cursor 4 (by rw [writeBytes_cursor, u32Bytes_length])]
  have := writeBytes_content s0 hs (u32Bytes (f.type % 4294967296))
  rw [u32Bytes_length] at this
  rw [this]
  exact u32Bytes_mod _

theorem writeChildren_extends (env : Env) (ch : List Node)
    (ih : ∀ c ∈ ch, ∀ (s s' : Bitstream) (n : Nat), s.cursor ≤ s.data.length →
      Node.toMemory env c s = .ok (n, s') → s.Extends s') :
    ∀ (size : Nat) (s s' : Bitstream) (r : Nat), s.cursor ≤ s.data.length →
      writeChildren env ch size s = .ok (r, s') → s.Extends s' := by
  induction ch with
  | nil =>
    intro size s s' r hs h
    simp only [writeChildren, Except.ok.injEq, Prod.mk.injEq] at h
    rw [← h.2]
    exact extends_refl s hs
  | cons c cs ihc =>
    intro size s s' r hs h
    have ihcs := ihc (fun d hd => ih d (List.mem_cons_of_mem _ hd))
    have hc := ih c (List.mem_cons_self _ _)
    unfold writeChildren at h
    by_cases hF : c.base.type = LibraryEntryType.File
    · rw [if_pos hF] at h
      cases c with
      | file a f =>
        simp only at h
        split at h
        · cases h
        · rename_i n s1 hn
          have e1 := hc s s1 n hs hn
          exact extends_trans e1 (ihcs _ s1 s' r e1.1 h)
      | dir a e k => simp only at h; cases h
    · rw [if_neg hF] at h
      by_cases hD : c.base.type = LibraryEntryType.Directory
      · rw [if_pos hD] at h
        cases c with
        | dir a e k =>
          simp only at h
          split at h
          · cases h
          · rename_i n s1 hn
            have e1 := hc s s1 n hs hn
            exact extends_trans e1 (ihcs _ s1 s' r e1.1 h)
        | file a f => simp only at h; cases h
      · rw [if_neg hD] at h
        exact ihcs _ s s' r hs h

theorem dir_writePayload_extends (env : Env) (e : LibraryEntry) (count : Nat)
    (writeKids : Nat → Bitstream → Except Err (Nat × Bitstream))
    (hkids : ∀ (size : Nat) (s s' : Bitstream) (r : Nat), s.cursor ≤ s.data.length →
      writeKids size s = .ok (r, s') → s.Extends s')
    (s0 s1 : Bitstream) (p : Nat) (hs : s0.cursor ≤ s0.data.length)
    (h : DirectoryEntry.writePayload env e count writeKids s0 = .ok (p, s1)) :
    s0.Extends s1 ∧ (s1.data.drop s0.cursor).take 4 = u32Bytes e.type := by
  simp only [DirectoryEntry.writePayload, rtti_write_u32, rtti_write_bytes] at h
  have e1 := writeBytes_extends s0 hs (u32Bytes e.type)
  have e2 := writeBytes_extends _ e1.1 (env.pathBytes e.path)
  have e3 := writeBytes_extends _ e2.1 (env.wstringBytes (env.toWide e.elementName))
  have e4 := writeBytes_extends _ e3.1 (u32Bytes (count % 4294967296))
  have e5 := hkids _ _ _ _ e4.1 h
  have e25 := extends_trans e2 (extends_trans e3 (extends_trans e4 e5))
  refine ⟨extends_trans e1 e25, ?_⟩
  rw [extends_content e25 s0.cursor 4 (by rw [writeBytes_cursor, u32Bytes_length])]
  have := writeBytes_content s0 hs (u32Bytes e.type)
  rw [u32Bytes_length] at this
  exact this

theorem node_toMemory_extends (env : Env) : ∀ (c : Node) (s s' : Bitstream) (n : Nat),
    s.cursor ≤ s.data.length → Node.toMemory env c s = .ok (n, s') →
    s.Extends s' ∧ s'.cursor = s.cursor + n ∧ n < 4294967296 ∧
      (s'.data.drop s.cursor).take 4 = u32Bytes n ∧
      (s'.data.drop (s.cursor + 4)).take 4 = u32Bytes c.base.type := by
  intro c
  induction c using Node.induction with
  | hfile a f =>
    intro s s' n hs h
    simp only [Node.toMemory, FileEntry.toMemory] at h
    refine header_extends s s' n f.type _ hs ?_ h
    intro p s1 ht
    have := file_writePayload_extends env f _ s1 p (writeBytes_extends s hs _).1 ht
    rw [writeBytes_cursor, u32Bytes_length] at this
    exact this
  | hdir a e ch ih =>
    intro s s' n hs h
    simp only [Node.toMemory] at h
    refine header_extends s s' n e.type _ hs ?_ h
    intro p s1 ht
    have := dir_writePayload_extends env e ch.length _
      (writeChildren_extends env ch (fun c hc s s' n hs h => (ih c hc s s' n hs h).1))
      _ s1 p (writeBytes_extends s hs _).1 ht
    rw [writeBytes_cursor, u32Bytes_length] at this
    exact this

theorem decU32_of_take (l : List Byte) (n : Nat) (h : l.take 4 = u32Bytes n) :
    decU32 l = some (n % 4294967296, 4) ∧ 4 ≤ l.length := by
  have hl : 4 ≤ l.length := by
    have := congrArg List.length h
    rw [List.length_take, u32Bytes_length] at this
    omega
  have e : l = u32Bytes (n % 4294967296) ++ l.drop 4 := by
    rw [u32Bytes_mod, ← h, List.take_append_drop]
  refine ⟨?_, hl⟩
  rw [e]
  exact decU32_u32Bytes _ (Nat.mod_lt _ (by decide)) _

theorem rtti_read_u32_of_bytes (s : Bitstream) (n : Nat)
    (h : (s.data.drop s.cursor).take 4 = u32Bytes n) :
    rtti_read_u32 s = .ok (n % 4294967296, { s with cursor := s.cursor + 4 }) := by
  obtain ⟨hdec, hlen⟩ := decU32_of_take _ n h
  rw [List.length_drop] at hlen
  simp only [rtti_read_u32, Bitstream.readWith, hdec]
  rw [if_pos (by omega)]

theorem peekChildType_of_bytes (s : Bitstream) (t : Nat)
    (h : (s.data.drop (s.cursor + 4)).take 4 = u32Bytes t) :
    peekChildType s
      = .ok (t % 4294967296, { s with cursor := s.cursor % 4294967296 }) := by
  obtain ⟨hdec, hlen⟩ := decU32_of_take _ t h
  rw [List.length_drop] at hlen
  simp only [peekChildType, Bitstream.tell, Bitstream.skipBytes]
  rw [if_pos (by omega)]
  simp only [rtti_read_u32, Bitstream.readWith, hdec]
  rw [if_pos (by omega)]
  simp only [Bitstream.seek]
  have := Nat.mod_le s.cursor 4294967296
  rw [if_pos (by omega)]

theorem writeChildren_head (env : Env) (c : Node) (rest : List Node) (size r : Nat)
    (s sEnd : Bitstream)
    (hw : c.base.type = LibraryEntryType.File ∨ c.base.type = LibraryEntryType.Directory)
    (h : writeChildren env (c :: rest) size s = .ok (r, sEnd)) :
    c.TagMatches ∧ ∃ n s', Node.toMemory env c s = .ok (n, s') ∧
      writeChildren env rest ((size + n) % 4294967296) s' = .ok (r, sEnd) := by
  unfold writeChildren at h
  by_cases hF : c.base.type = LibraryEntryType.File
  · rw [if_pos hF] at h
    cases c with
    | file a f =>
      simp only at h
      split at h
      · cases h
      · rename_i n s1 hn
        exact ⟨hF, n, s1, hn, h⟩
    | dir a e k => simp only at h; cases h
  · rw [if_neg hF] at h
    have hD : c.base.type = LibraryEntryType.Directory := hw.resolve_left hF
    rw [if_pos hD] at h
    cases c with
    | dir a e k =>
      simp only at h
      split at h
      · cases h
      · rename_i n s1 hn
        exact ⟨hD, n, s1, hn, h⟩
    | file a f => simp only at h; cases h

theorem readChildren_file_step (env : Env)
    (readDir : Nat → DirectoryEntry → Nat → Bitstream →
      Except Err (Nat × DirectoryEntry × Nat × Bitstream))
    (self k : Nat) (data : DirectoryEntry) (next : Nat) (sp sp1 : Bitstream)
    (hpeek : peekChildType sp = .ok (LibraryEntryType.File, sp1)) :
    readChildren env readDir self (k + 1) data next sp
      = match FileEntry.fromMemory env FileEntry.empty sp1 with
        | .error e => .error e
        | .ok (_, childResEntry, stream) =>
          readChildren env readDir self k
            { data with mChildren := data.mChildren
                ++ [Node.file next { childResEntry with parent := some self }] }
            (next + 1) stream := by
  simp only [readChildren, hpeek, if_true]

theorem readChildren_dir_step (env : Env)
    (readDir : Nat → DirectoryEntry → Nat → Bitstream →
      Except Err (Nat × DirectoryEntry × Nat × Bitstream))
    (self k : Nat) (data : DirectoryEntry) (next : Nat) (sp sp1 : Bitstream)
    (hpeek : peekChildType sp = .ok (LibraryEntryType.Directory, sp1)) :
    readChildren env readDir self (k + 1) data next sp
      = match readDir next DirectoryEntry.empty (next + 1) sp1 with
        | .error e => .error e
        | .ok (_, childDirEntry, next1, stream) =>
          readChildren env readDir self k
            { data with mChildren := data.mChildren
                ++ [Node.dir next { childDirEntry.toLibraryEntry with parent := some self }
                      childDirEntry.mChildren] }
            next1 stream := by
  have hne : ¬ (LibraryEntryType.Directory = LibraryEntryType.File) := by decide
  simp only [readChildren, hpeek, if_true, if_neg hne]

theorem take_drop_congr (l1 l2 : List Byte) (k m N : Nat) (hkm : k + m ≤ N)
    (h : l1.take N = l2.take N) : (l1.drop k).take m = (l2.drop k).take m := by
  rw [List.take_drop, List.take_drop]
  have e1 : l1.take (k + m) = (l1.take N).take (k + m) := by
    rw [List.take_take, Nat.min_eq_left hkm]
  rw [e1, h, List.take_take, Nat.min_eq_left hkm]

/-- C11. Peek-ahead dispatch. Whenever `toMemory` of a file entry or of a
directory entry completes, on any stream whose cursor lies within its data, the four
bytes at the record's first byte hold the size returned and the four bytes that
follow them hold the entry's type tag. For every child `c` that the loop of
`DirectoryEntry::toMemory` encodes at an offset below `2^32`, the record is written by
the `toMemory` of the child's class, which returns some size `n`; the rest of the loop
leaves the record's header and tag in place (as soon as `n` covers them); and on every
stream `sp` that stands at the record's first byte and holds that header and tag, the
peek of `DirectoryEntry::fromMemory` returns the child's type together with the stream
as it was, cursor included, the size header `n` is what a read at that cursor finds,
a `FileEntry` child has the tag File and the loop hands `sp` to
`FileEntry::fromMemory`, and a `DirectoryEntry` child has the tag Directory and the
loop hands `sp` to `DirectoryEntry::fromMemory`. -/
theorem C11_peek_dispatch_sound (env : Env) (f : FileEntry) (d : DirectoryEntry)
    (sf sf' sd sd' : Bitstream) (nf nd : Nat)
    (c : Node) (rest : List Node) (size r : Nat) (s sEnd : Bitstream)
    (hsf : sf.cursor ≤ sf.data.length)
    (hf : FileEntry.toMemory env f sf = .ok (nf, sf'))
    (hsd : sd.cursor ≤ sd.data.length)
    (hd : DirectoryEntry.toMemory env d sd = .ok (nd, sd'))
    (hs : s.cursor ≤ s.data.length)
    (hoff : s.cursor < 4294967296)
    (hwritten : c.base.type = LibraryEntryType.File ∨
      c.base.type = LibraryEntryType.Directory)
    (hloop : writeChildren env (c :: rest) size s = .ok (r, sEnd)) :
    (((sf'.data.drop sf.cursor).take 4 = u32Bytes nf ∧
      (sf'.data.drop (sf.cursor + 4)).take 4 = u32Bytes f.type) ∧
     ((sd'.data.drop sd.cursor).take 4 = u32Bytes nd ∧
      (sd'.data.drop (sd.cursor + 4)).take 4 = u32Bytes d.type)) ∧
    ∃ n s', Node.toMemory env c s = .ok (n, s') ∧
      (s'.data.drop (s.cursor + 4)).take 4 = u32Bytes c.base.type ∧
      (8 ≤ n → sEnd.data.take (s.cursor + 8) = s'.data.take (s.cursor + 8)) ∧
      ∀ sp : Bitstream, sp.cursor = s.cursor →
        sp.data.take (s.cursor + 8) = s'.data.take (s.cursor + 8) →
        peekChildType sp = .ok (c.base.type, sp) ∧
        rtti_read_u32 sp = .ok (n, { sp with cursor := sp.cursor + 4 }) ∧
        (∀ a g, c = .file a g → c.base.type = LibraryEntryType.File ∧
          ∀ (readDir : Nat → DirectoryEntry → Nat → Bitstream →
              Except Err (Nat × DirectoryEntry × Nat × Bitstream))
            (self k : Nat) (data : DirectoryEntry) (next : Nat),
            readChildren env readDir self (k + 1) data next sp
              = match FileEntry.fromMemory env FileEntry.empty sp with
                | .error e => .error e
                | .ok (_, childResEntry, stream) =>
                  readChildren env readDir self k
                    { data with mChildren := data.mChildren
                        ++ [Node.file next { childResEntry with parent := some self }] }
                    (next + 1) stream) ∧
        (∀ a e ch, c = .dir a e ch → c.base.type = LibraryEntryType.Directory ∧
          ∀ (readDir : Nat → DirectoryEntry → Nat → Bitstream →
              Except Err (Nat × DirectoryEntry × Nat × Bitstream))
            (self k : Nat) (data : DirectoryEntry) (next : Nat),
            readChildren env readDir self (k + 1) data next sp
              = match readDir next DirectoryEntry.empty (next + 1) sp with
                | .error e => .error e
                | .ok (_, childDirEntry, next1, stream) =>
                  readChildren env readDir self k
                    { data with mChildren := data.mChildren
                        ++ [Node.dir next
                              { childDirEntry.toLibraryEntry with parent := some self }
                              childDirEntry.mChildren] }
                    next1 stream) := by
  refine ⟨⟨?_, ?_⟩, ?_⟩
  · exact (node_toMemory_extends env (.file 0 f) sf sf' nf hsf hf).2.2.2
  · rw [DirectoryEntry.toMemory_eq env d 0] at hd
    exact (node_toMemory_extends env (d.toNode 0) sd sd' nd hsd hd).2.2.2
  · obtain ⟨htm, n, s', hn, hrest⟩ := writeChildren_head env c rest size r s sEnd hwritten hloop
    obtain ⟨hext, hcur, hn32, hhead, htagpos⟩ := node_toMemory_extends env c s s' n hs hn
    have ht32 : c.base.type % 4294967296 = c.base.type := by
      apply Nat.mod_eq_of_lt
      rcases hwritten with h | h <;> rw [h] <;> decide
    refine ⟨n, s', hn, htagpos, ?_, ?_⟩
    · intro h8
      have hE := writeChildren_extends env rest
        (fun c _ s s' n hs h => (node_toMemory_extends env c s s' n hs h).1)
        _ s' sEnd r hext.1 hrest
      have hle : s.cursor + 8 ≤ s'.cursor := by omega
      have e1 : sEnd.data.take (s.cursor + 8)
          = (sEnd.data.take s'.cursor).take (s.cursor + 8) := by
        rw [List.take_take, Nat.min_eq_left hle]
      rw [e1, hE.2.2, List.take_take, Nat.min_eq_left hle]
    · intro sp hspc hspd
      have hp : (sp.data.drop (sp.cursor + 4)).take 4 = u32Bytes c.base.type := by
        rw [hspc, take_drop_congr sp.data s'.data (s.cursor + 4) 4 (s.cursor + 8) (by omega) hspd]
        exact htagpos
      have hh : (sp.data.drop sp.cursor).take 4 = u32Bytes n := by
        rw [hspc, take_drop_congr sp.data s'.data s.cursor 4 (s.cursor + 8) (by omega) hspd]
        exact hhead
      have hpeek := peekChildType_of_bytes sp c.base.type hp
      rw [ht32, Nat.mod_eq_of_lt (by omega)] at hpeek
      have hread := rtti_read_u32_of_bytes sp n hh
      rw [Nat.mod_eq_of_lt hn32] at hread
      refine ⟨hpeek, hread, ?_, ?_⟩
      · intro a g hc
        subst hc
        have hF : g.type = LibraryEntryType.File := htm
        refine ⟨hF, ?_⟩
        intro readDir self k data next
        simp only [Node.base, hF] at hpeek
        exact readChildren_file_step env readDir self k data next sp sp hpeek
      · intro a e ch hc
        subst hc
        have hD : e.type = LibraryEntryType.Directory := htm
        refine ⟨hD, ?_⟩
        intro readDir self k data next
        simp only [Node.base, hD] at hpeek
        exact readChildren_dir_step env readDir self k data next sp sp hpeek

/-- Witness of C11: the file `a.txt` and the scenario tree written to an empty stream,
and the loop of the root at the child `sub`, a directory, with the non-ASCII file
still to come. -/
theorem C11_peek_dispatch_sound_witness :
    (Bitstream.atEnd []).cursor ≤ (Bitstream.atEnd []).data.length ∧
    FileEntry.toMemory env0 sampleFileA (Bitstream.atEnd [])
      = .ok (45, Bitstream.atEnd ((Node.file 0 sampleFileA).encode env0)) ∧
    DirectoryEntry.toMemory env0 sampleRoot (Bitstream.atEnd [])
      = .ok (220, Bitstream.atEnd sampleBytes) ∧
    sampleMidStream.cursor ≤ sampleMidStream.data.length ∧
    sampleMidStream.cursor < 4294967296 ∧
    (sampleSub.base.type = LibraryEntryType.File ∨
      sampleSub.base.type = LibraryEntryType.Directory) ∧
    writeChildren env0 [sampleSub, .file 24 sampleFileC] 74 sampleMidStream
      = .ok (216, sampleLoopEnd) ∧
    ((((Bitstream.atEnd ((Node.file 0 sampleFileA).encode env0)).data.drop
        (Bitstream.atEnd []).cursor).take 4 = u32Bytes 45 ∧
      ((Bitstream.atEnd ((Node.file 0 sampleFileA).encode env0)).data.drop
        ((Bitstream.atEnd []).cursor + 4)).take 4 = u32Bytes sampleFileA.type) ∧
     (((Bitstream.atEnd sampleBytes).data.drop (Bitstream.atEnd []).cursor).take 4
        = u32Bytes 220 ∧
      ((Bitstream.atEnd sampleBytes).data.drop ((Bitstream.atEnd []).cursor + 4)).take 4
        = u32Bytes sampleRoot.type)) ∧
    ∃ n s', Node.toMemory env0 sampleSub sampleMidStream = .ok (n, s') ∧
      (s'.data.drop (sampleMidStream.cursor + 4)).take 4 = u32Bytes sampleSub.base.type ∧
      (8 ≤ n → sampleLoopEnd.data.take (sampleMidStream.cursor + 8)
        = s'.data.take (sampleMidStream.cursor + 8)) ∧
      ∀ sp : Bitstream, sp.cursor = sampleMidStream.cursor →
        sp.data.take (sampleMidStream.cursor + 8) = s'.data.take (sampleMidStream.cursor + 8) →
        peekChildType sp = .ok (sampleSub.base.type, sp) ∧
        rtti_read_u32 sp = .ok (n, { sp with cursor := sp.cursor + 4 }) ∧
        (∀ a g, sampleSub = .file a g → sampleSub.base.type = LibraryEntryType.File ∧
          ∀ (readDir : Nat → DirectoryEntry → Nat → Bitstream →
              Except Err (Nat × DirectoryEntry × Nat × Bitstream))
            (self k : Nat) (data : DirectoryEntry) (next : Nat),
            readChildren env0 readDir self (k + 1) data next sp
              = match FileEntry.fromMemory env0 FileEntry.empty sp with
                | .error e => .error e
                | .ok (_, childResEntry, stream) =>
                  readChildren env0 readDir self k
                    { data with mChildren := data.mChildren
                        ++ [Node.file next { childResEntry with parent := some self }] }
                    (next + 1) stream) ∧
        (∀ a e ch, sampleSub = .dir a e ch →
          sampleSub.base.type = LibraryEntryType.Directory ∧
          ∀ (readDir : Nat → DirectoryEntry → Nat → Bitstream →
              Except Err (Nat × DirectoryEntry × Nat × Bitstream))
            (self k : Nat) (data : DirectoryEntry) (next : Nat),
            readChildren env0 readDir self (k + 1) data next sp
              = match readDir next DirectoryEntry.empty (next + 1) sp with
                | .error e => .error e
                | .ok (_, childDirEntry, next1, stream) =>
                  readChildren env0 readDir self k
                    { data with mChildren := data.mChildren
                        ++ [Node.dir next
                              { childDirEntry.toLibraryEntry with parent := some self }
                              childDirEntry.mChildren] }
                    next1 stream) :=
  have h1 : (Bitstream.atEnd []).cursor ≤ (Bitstream.atEnd []).data.length := by decide
  have h2 : FileEntry.toMemory env0 sampleFileA (Bitstream.atEnd [])
      = .ok (45, Bitstream.atEnd ((Node.file 0 sampleFileA).encode env0)) := by rfl
  have h3 : DirectoryEntry.toMemory env0 sampleRoot (Bitstream.atEnd [])
      = .ok (220, Bitstream.atEnd sampleBytes) := by rfl
  have h4 : sampleMidStream.cursor ≤ sampleMidStream.data.length := by decide
  have h4' : sampleMidStream.cursor < 4294967296 := by decide
  have h5 : sampleSub.base.type = LibraryEntryType.File ∨
      sampleSub.base.type = LibraryEntryType.Directory := Or.inr rfl
  have h6 : writeChildren env0 [sampleSub, .file 24 sampleFileC] 74 sampleMidStream
      = .ok (216, sampleLoopEnd) := by rfl
  ⟨h1, h2, h3, h4, h4', h5, h6,
    C11_peek_dispatch_sound env0 sampleFileA sampleRoot (Bitstream.atEnd [])
      (Bitstream.atEnd ((Node.file 0 sampleFileA).encode env0)) (Bitstream.atEnd [])
      (Bitstream.atEnd sampleBytes) 45 220 sampleSub [.file 24 sampleFileC] 74 216
      sampleMidStream sampleLoopEnd h1 h2 h1 h3 h4 h4' h5 h6⟩

/-! ## What a decode consumes -/

theorem recordBytes_eq_header (env : Env) (c : Node) :
    c.recordBytes env = u32Bytes (c.recordSize env) ++ c.payloadBytes env := by
  rw [recordSize_eq]; rfl

theorem consumesRecord_of_fits (env : Env) (c : Node)
    (htag : c.Forall Node.TagMatches) (hrt : c.Forall (Node.FieldsRoundTrip env))
    (hfit : c.recordSize env < 4294967296) : c.ConsumesRecord env := by
  intro self next pre rest hoff
  have henc := Node.encode_eq env c htag hfit
  have hlen : (c.encode env).length = c.recordSize env := by rw [henc]; rfl
  rw [hlen, recordSize_eq] at hoff
  cases c with
  | file a f =>
    have ht : f.type = LibraryEntryType.File := htag
    have hf : f.toLibraryEntry.FieldsRoundTrip env ∧
        RoundTrips env.timeBytes env.timeRead f.lastUpdateTime := hrt
    have := FileEntry.fromMemory_split env f FileEntry.empty ((Node.file a f).recordSize env)
      pre rest hfit (by rw [ht]; decide) hf.1 hf.2
    simp only []
    rw [hlen, henc, recordBytes_eq_header, List.append_assoc]
    exact ⟨_, this⟩
  | dir a e k =>
    have ht : e.type = LibraryEntryType.Directory := htag.root
    have hroot : e.FieldsRoundTrip env := hrt.root
    have hfit0 : (Node.dir 0 e k).recordSize env < 4294967296 := by
      rw [recordSize_eq, payloadBytes_dir_addr env 0 a, ← recordSize_eq]; exact hfit
    obtain ⟨k', next', hdec, _⟩ := DirectoryEntry.fromMemory_decodes env ⟨e, k⟩
      (by show e.type < 4294967296; rw [ht]; decide) hroot ((childrenForall_iff _ _).mpr htag.children)
      ((childrenForall_iff _ _).mpr hrt.children) hfit0
      self DirectoryEntry.empty next pre rest ((Node.dir a e k).recordSize env) hfit
      (by
        show pre.length + (4 + (Node.payloadBytes env (.dir 0 e k)).length) ≤ 4294967296
        rw [payloadBytes_dir_addr env a 0] at hoff
        omega)
    simp only []
    rw [hlen, henc, recordBytes_eq_header, List.append_assoc, payloadBytes_dir_addr env a 0]
    exact ⟨_, next', hdec⟩

theorem childrenBytes_length_sum (env : Env) (ch : List Node)
    (hkids : ∀ c ∈ ch, c.Forall Node.TagMatches)
    (hsub : ∀ c ∈ ch, c.recordSize env < 4294967296) :
    (childrenBytes env ch).length = (ch.map (fun c => (c.encode env).length)).sum := by
  rw [← map_encode_join env ch hkids hsub, List.length_flatten, List.map_map]
  rfl

/-- C12. Decode consumes what it reports. For a file entry and for a directory tree
whose fields survive the external codecs and whose records fit 32 bits (the children
carrying the tags of their classes): `toMemory` appends a record whose first four
bytes hold the size `n` it returns; `fromMemory`, run on that record wherever it
stands in a stream (for the directory: within the first `2^32` bytes) and whatever
follows it, returns `n` and advances the cursor by exactly `n` bytes, to the first
byte after the record. For the directory, `n` is the sum of the header, the tag, the
path, the wide name, the child count and the byte counts of the children's records,
each of which is what the `fromMemory` of that child's class returns and advances
by. -/
theorem C12_decode_consumes_reported (env : Env) (f fdata : FileEntry)
    (d data : DirectoryEntry) (self next : Nat) (l rest : List Byte)
    (hft : f.type < 4294967296)
    (hff : f.toLibraryEntry.FieldsRoundTrip env)
    (hftime : RoundTrips env.timeBytes env.timeRead f.lastUpdateTime)
    (hffit : (Node.file 0 f).recordSize env < 4294967296)
    (htype : d.type < 4294967296)
    (hroot : d.toLibraryEntry.FieldsRoundTrip env)
    (htag : ChildrenForall Node.TagMatches d.mChildren)
    (hrt : ChildrenForall (Node.FieldsRoundTrip env) d.mChildren)
    (hfit : (d.toNode 0).recordSize env < 4294967296)
    (hoff : l.length + (d.toNode 0).recordSize env ≤ 4294967296) :
    (∃ n bytes,
      FileEntry.toMemory env f (Bitstream.atEnd l) = .ok (n, Bitstream.atEnd (l ++ bytes)) ∧
      decU32 bytes = some (n, 4) ∧
      ∃ f' s',
        FileEntry.fromMemory env fdata (Bitstream.split l (bytes ++ rest)) = .ok (n, f', s') ∧
        s'.cursor = (Bitstream.split l (bytes ++ rest)).cursor + n ∧
        s' = Bitstream.split (l ++ bytes) rest) ∧
    (∃ n bytes,
      DirectoryEntry.toMemory env d (Bitstream.atEnd l)
        = .ok (n, Bitstream.atEnd (l ++ bytes)) ∧
      decU32 bytes = some (n, 4) ∧
      (∃ d' next' s',
        DirectoryEntry.fromMemory env self data next (Bitstream.split l (bytes ++ rest))
          = .ok (n, d', next', s') ∧
        s'.cursor = (Bitstream.split l (bytes ++ rest)).cursor + n ∧
        s' = Bitstream.split (l ++ bytes) rest) ∧
      n = 4 + 4 + (env.pathBytes d.path).length
            + (env.wstringBytes (env.toWide d.elementName)).length + 4
            + (d.mChildren.map (fun c => (c.encode env).length)).sum ∧
      ∀ c ∈ d.mChildren, c.ConsumesRecord env) := by
  have htag2 := (childrenForall_iff _ _).mp htag
  have hrt2 := (childrenForall_iff _ _).mp hrt
  have hsub : ∀ c ∈ d.mChildren, c.recordSize env < 4294967296 := by
    intro c hc
    have := recordSize_child_lt env 0 d.toLibraryEntry d.mChildren c hc
    simp only [DirectoryEntry.toNode] at hfit
    omega
  refine ⟨⟨_, _, file_toMemory_atEnd env f 0 hffit l, ?_, ?_⟩,
    ⟨_, _, dir_toMemory_atEnd env d 0 htag hfit l, ?_, ?_, ?_, ?_⟩⟩
  · rw [recordBytes_eq_header]
    exact decU32_u32Bytes _ hffit _
  · have hdec := FileEntry.fromMemory_split env f fdata ((Node.file 0 f).recordSize env)
      l rest hffit hft hff hftime
    refine ⟨FileEntry.mk (f.toLibraryEntry.decoded env fdata.parent) f.lastUpdateTime,
      Bitstream.split (l ++ (Node.file 0 f).recordBytes env) rest, ?_, ?_, rfl⟩
    · rw [recordBytes_eq_header, List.append_assoc]
      exact hdec
    · simp only [Bitstream.split, List.length_append, Node.recordSize]
  · rw [recordBytes_eq_header]
    exact decU32_u32Bytes _ hfit _
  · obtain ⟨k', next', hdec, _⟩ := DirectoryEntry.fromMemory_decodes env d htype hroot htag hrt
      hfit self data next l rest ((d.toNode 0).recordSize env) hfit (recordEnd_le env d l hoff)
    refine ⟨DirectoryEntry.mk (d.toLibraryEntry.decoded env data.parent) (data.mChildren ++ k'),
      next', Bitstream.split (l ++ (d.toNode 0).recordBytes env) rest, ?_, ?_, rfl⟩
    · rw [recordBytes_eq_header, List.append_assoc]
      exact hdec
    · simp only [Bitstream.split, List.length_append, Node.recordSize]
  · rw [recordSize_eq]
    simp only [DirectoryEntry.toNode, Node.payloadBytes, LibraryEntry.fieldBytes,
      List.length_append, u32Bytes_length]
    rw [childrenBytes_length_sum env d.mChildren htag2 hsub]
    omega
  · intro c hc
    exact consumesRecord_of_fits env c (htag2 c hc) (hrt2 c hc) (hsub c hc)

/-- Witness of C12: the file `a.txt` and the scenario tree, each written behind one
byte already on the stream and decoded from a stream that holds two more bytes after
the record. -/
theorem C12_decode_consumes_reported_witness :
    sampleFileA.type < 4294967296 ∧
    sampleFileA.toLibraryEntry.FieldsRoundTrip env0 ∧
    RoundTrips env0.timeBytes env0.timeRead sampleFileA.lastUpdateTime ∧
    (Node.file 0 sampleFileA).recordSize env0 < 4294967296 ∧
    sampleRoot.type < 4294967296 ∧
    sampleRoot.toLibraryEntry.FieldsRoundTrip env0 ∧
    ChildrenForall Node.TagMatches sampleRoot.mChildren ∧
    ChildrenForall (Node.FieldsRoundTrip env0) sampleRoot.mChildren ∧
    (sampleRoot.toNode 0).recordSize env0 < 4294967296 ∧
    ([9] : List Byte).length + (sampleRoot.toNode 0).recordSize env0 ≤ 4294967296 ∧
    (∃ n bytes,
      FileEntry.toMemory env0 sampleFileA (Bitstream.atEnd [9])
        = .ok (n, Bitstream.atEnd ([9] ++ bytes)) ∧
      decU32 bytes = some (n, 4) ∧
      ∃ f' s',
        FileEntry.fromMemory env0 FileEntry.empty (Bitstream.split [9] (bytes ++ [1, 2]))
          = .ok (n, f', s') ∧
        s'.cursor = (Bitstream.split [9] (bytes ++ [1, 2])).cursor + n ∧
        s' = Bitstream.split ([9] ++ bytes) [1, 2]) ∧
    (∃ n bytes,
      DirectoryEntry.toMemory env0 sampleRoot (Bitstream.atEnd [9])
        = .ok (n, Bitstream.atEnd ([9] ++ bytes)) ∧
      decU32 bytes = some (n, 4) ∧
      (∃ d' next' s',
        DirectoryEntry.fromMemory env0 100 DirectoryEntry.empty 0
            (Bitstream.split [9] (bytes ++ [1, 2]))
          = .ok (n, d', next', s') ∧
        s'.cursor = (Bitstream.split [9] (bytes ++ [1, 2])).cursor + n ∧
        s' = Bitstream.split ([9] ++ bytes) [1, 2]) ∧
      n = 4 + 4 + (env0.pathBytes sampleRoot.path).length
            + (env0.wstringBytes (env0.toWide sampleRoot.elementName)).length + 4
            + (sampleRoot.mChildren.map (fun c => (c.encode env0).length)).sum ∧
      ∀ c ∈ sampleRoot.mChildren, c.ConsumesRecord env0) :=
  have h1 : sampleFileA.type < 4294967296 := by decide
  have h2 : sampleFileA.toLibraryEntry.FieldsRoundTrip env0 :=
    env0_fieldsRoundTrip _ (by simp only [LibraryEntry.Small, sampleFileA]; decide)
  have h3 : RoundTrips env0.timeBytes env0.timeRead sampleFileA.lastUpdateTime :=
    env0_time_roundTrips _ (by decide) (by decide)
  have h4 : (Node.file 0 sampleFileA).recordSize env0 < 4294967296 := by decide
  have h5 : sampleRoot.type < 4294967296 := by decide
  have h6 : (sampleRoot.toNode 0).recordSize env0 < 4294967296 := by decide
  have h7 : ([9] : List Byte).length + (sampleRoot.toNode 0).recordSize env0
      ≤ 4294967296 := by decide
  ⟨h1, h2, h3, h4, h5, sampleRoot_base_fields, sampleRoot_tagged, sampleRoot_fields, h6, h7,
    C12_decode_consumes_reported env0 sampleFileA FileEntry.empty sampleRoot
      DirectoryEntry.empty 100 0 [9] [1, 2] h1 h2 h3 h4 h5 sampleRoot_base_fields
      sampleRoot_tagged sampleRoot_fields h6 h7⟩

end bs
